import Mathlib

/-!
# Verification of the sql-connector schema-synchronization core

This file gives a shallow embedding, in Lean 4, of the schema-synchronization
core of the `sql-connector` library (`src/models/Model.js` and
`src/utils/sqlTypeMap.js`), and proves or refutes the frozen claims about it.

Modelling conventions:

* JavaScript strings are Lean `String`s, but all string operations used by the
  embedding (`split`, `trim`, `toLowerCase`, `toUpperCase`, `replace`,
  `startsWith`, `endsWith`, array `join` and `sort`) are re-implemented
  structurally over `List Char` so that every definition evaluates by kernel
  reduction.  They mirror the ECMAScript behaviour on the ASCII inputs the
  library manipulates.
* The database connection, the filesystem and the interactive prompt are pure
  oracles collected in an `Env` record: each introspection query
  (`SHOW TABLES`, `SHOW COLUMNS`, `SHOW INDEX`, `SELECT *`) is performed at
  most once per synchronization pass by the source, so a per-pass oracle is a
  faithful abstraction.  Side effects are recorded in an event trace (`Ev`).
* JavaScript truthiness of the optional descriptor attributes is modelled
  explicitly (`Option`, emptiness tests) exactly where the source tests it.
-/

/-! ## Character-level string helpers (ECMAScript behaviour, executable) -/

/-- One-character global replace, as in `v.replace(/'/g, "''")`. -/
def replaceAllChar : List Char → Char → List Char → List Char
  | [], _, _ => []
  | x :: xs, c, r => (if x = c then r else [x]) ++ replaceAllChar xs c r

/-- `Array.prototype.join(", ")`. -/
def joinComma : List String → String
  | [] => ""
  | [x] => x
  | x :: xs => x ++ ", " ++ joinComma xs

/-- `Array.prototype.join(sep)` for an arbitrary separator. -/
def joinSep (sep : String) : List String → String
  | [] => ""
  | [x] => x
  | x :: xs => x ++ sep ++ joinSep sep xs

/-- `String.prototype.startsWith`, via character lists. -/
def strStarts (p s : String) : Bool := p.data.isPrefixOf s.data

/-- `String.prototype.endsWith`, via character lists. -/
def strEnds (p s : String) : Bool := p.data.isSuffixOf s.data

/-- The part of `s` before the first occurrence of `c`: `s.split(c)[0]`. -/
def splitHead (s : String) (c : Char) : String :=
  String.mk (s.data.takeWhile (fun x => x ≠ c))

/-- `String.prototype.trim` (ASCII whitespace). -/
def jsTrim (s : String) : String :=
  String.mk (((s.data.dropWhile Char.isWhitespace).reverse.dropWhile Char.isWhitespace).reverse)

/-- `String.prototype.toLowerCase` (ASCII). -/
def jsLower (s : String) : String := String.mk (s.data.map Char.toLower)

/-- `String.prototype.toUpperCase` (ASCII). -/
def jsUpper (s : String) : String := String.mk (s.data.map Char.toUpper)

/-- Lexicographic comparison of character lists by code point, the order used
by JavaScript's default `Array.prototype.sort` on strings. -/
def lexLeb : List Char → List Char → Bool
  | [], _ => true
  | _ :: _, [] => false
  | a :: as, b :: bs =>
    if a.val < b.val then true
    else if b.val < a.val then false
    else lexLeb as bs

/-- String comparison used to model `Array.prototype.sort()` on file names. -/
def strLe (a b : String) : Prop := lexLeb a.data b.data = true

instance : DecidableRel strLe := fun a b => inferInstanceAs (Decidable (_ = true))

/-! ## The type catalog (`src/utils/sqlTypeMap.js`) -/

/-- The abstract-type → native-type lookup table `sqlTypeMap`. -/
def sqlTypeMap : String → Option String := fun t =>
  if t == "String" then some "VARCHAR"
  else if t == "Number" then some "INT"
  else if t == "Boolean" then some "BOOLEAN"
  else if t == "Date" then some "DATETIME"
  else if t == "Object" then some "JSON"
  else if t == "Array" then some "VARCHAR"
  else if t == "Now" then some "NOW()"
  else if t == "Float" then some "FLOAT"
  else if t == "Text" then some "TEXT"
  else if t == "DateTime" then some "DATETIME"
  else if t == "Timestamp" then some "TIMESTAMP"
  else none

/-- The reserved-keyword list of `Model.js`. -/
def reservedKeywords : List String :=
  ["ADD", "ALL", "ALTER", "AND", "AS", "ASC", "BETWEEN", "BY", "CASE", "CHECK",
   "COLUMN", "CONSTRAINT", "CREATE", "CURRENT_DATE", "CURRENT_TIME",
   "CURRENT_TIMESTAMP", "DEFAULT", "DELETE", "DESC", "DISTINCT", "DROP",
   "ELSE", "END", "ESCAPE", "EXCEPT", "EXISTS", "FOR", "FOREIGN", "FROM",
   "FULL", "GROUP", "HAVING", "IN", "INNER", "INSERT", "INTERSECT", "INTO",
   "IS", "JOIN", "LEFT", "LIKE", "LIMIT", "NOT", "NULL", "ON", "OR", "ORDER",
   "OUTER", "PRIMARY", "REFERENCES", "RIGHT", "SELECT", "SET", "SOME",
   "TABLE", "THEN", "UNION", "UNIQUE", "UPDATE", "VALUES", "WHEN", "WHERE"]

/-- `ifReservedKeywords(tableName)`: is the (upper-cased) name reserved? -/
def ifReservedKeywords (tableName : String) : Bool :=
  reservedKeywords.contains (jsUpper tableName)

/-! ## Field descriptors (`SchemaDeclaration` / the JS field objects) -/

/-- The three observable states of the JS `default` attribute: missing
(`undefined`), explicitly `null`, or a (stringified) value. -/
inductive DefaultV where
  | absent
  | nullV
  | val (v : String)
deriving DecidableEq, Repr

/-- An object-form field descriptor.  `type` is the resolved abstract type
name (`getFieldType` collapses the `Type`-constructor and string forms to the
same name, so we store the name directly); `none` models a missing/falsy
`type`.  `default` stores the stringification of the declared default. -/
structure FieldDesc where
  type : Option String := none
  length : Option Int := none
  required : Bool := false
  default : DefaultV := .absent
  unique : Bool := false
  auto_increment : Bool := false
  primary_key : Bool := false
  foreignKey : Option String := none
  enum : List String := []
  oldName : Option String := none
  customize : Option String := none
deriving DecidableEq, Repr

/-- A schema entry is either a bare constructor (`name: String`) or an object
descriptor; `Model.js` duck-types between the two. -/
inductive FieldSpec where
  | bare (typeName : String)
  | desc (d : FieldDesc)
deriving DecidableEq, Repr

/-- Reading a bare-constructor entry through the descriptor attributes: every
attribute of a JS function object is `undefined`, i.e. falsy/absent. -/
def FieldSpec.toDesc : FieldSpec → FieldDesc
  | .bare t => { type := some t }
  | .desc d => d

/-- `getFieldType(field)`: the abstract type name, if any. -/
def getFieldType : FieldSpec → Option String
  | .bare t => some t
  | .desc d => d.type

/-- JS truthiness of `field.oldName` (missing or empty string is falsy). -/
def oldNameTruthy (d : FieldDesc) : Option String :=
  match d.oldName with
  | some o => if o.length != 0 then some o else none
  | none => none

/-- The length qualifier `${field.length > 0 ? field.length : 255}`. -/
def lengthClause (len : Option Int) : String :=
  match len with
  | some l => if 0 < l then l.repr else "255"
  | none => "255"

/-- `getColumnDefinition(fieldName, field)` (`Model.js` lines 54–77): renders
one native column clause, or throws (`.error`) on a conflicting or
unsupported declaration. -/
def getColumnDefinition (fieldName : String) (field : FieldDesc) : Except String String :=
  if field.primary_key && field.unique then
    .error ("Field \x27" ++ fieldName ++ "\x27 cannot be both PRIMARY KEY and UNIQUE.")
  else
    let base : Except String String :=
      if field.enum.length > 0 then
        .ok ("ENUM(" ++
          joinComma (field.enum.map
            (fun v => "\x27" ++ String.mk (replaceAllChar v.data '\x27' ['\x27', '\x27']) ++ "\x27")) ++ ")")
      else
        match field.type.bind sqlTypeMap with
        | none =>
          .error ("Field " ++ fieldName ++ " has unsupported type " ++
            (match field.type with | some t => t | none => "undefined") ++ ".")
        | some native =>
          .ok (native ++
            (if native == "VARCHAR" || native == "INT" then
              "(" ++ lengthClause field.length ++ ")" else ""))
    match base with
    | .error e => .error e
    | .ok c0 =>
      let c1 := c0 ++ (if field.required then " NOT NULL" else "")
      let c2 := c1 ++
        (match field.default with
         | .val v => " DEFAULT \"" ++ v ++ "\""
         | .nullV => " DEFAULT NULL"
         | .absent => "")
      let c3 := c2 ++ (if field.unique then " UNIQUE" else "")
      let c4 := c3 ++ (if field.auto_increment then " AUTO_INCREMENT" else "")
      let c5 := c4 ++ (if field.primary_key then " PRIMARY KEY" else "")
      let c6 := c5 ++
        (match field.customize with
         | some c => if c.length != 0 then " " ++ c else ""
         | none => "")
      .ok (fieldName ++ " " ++ c6)

/-- "The clause contains `NOT NULL`": the characters `NOT NULL` occur
contiguously in the rendered string. -/
def hasNotNull (s : String) : Prop := "NOT NULL".data <:+: s.data

instance (s : String) : Decidable (hasNotNull s) :=
  inferInstanceAs (Decidable (_ <:+: _))

/-! ## Topological ordering of the declared tables (`syncAllTables` lines 104–138) -/

/-- The three-state visitation marks of the depth-first sort:
`visited[t] = 'temp'` or `visited[t] = true` in the source; an absent entry is
`getMark … = none`. -/
inductive Mark where
  | temp
  | done
deriving DecidableEq, Repr

/-- State of the topological sort: the `visited` map (later entries shadow
earlier ones, as assignment does) and the `sorted` output list. -/
structure TopoSt where
  visited : List (String × Mark)
  sorted  : List String
deriving DecidableEq, Repr

/-- `visited[t]` lookup. -/
def getMark (v : List (String × Mark)) (t : String) : Option Mark :=
  match v.find? (fun p => p.1 == t) with
  | some p => some p.2
  | none => none

/-- The loop `for (const dep of dependencies[table]) if (modelMap[dep]) visit(dep)`:
runs `f` on every declared dependency, propagating thrown errors. -/
def runDeps (decl : List String) (f : String → TopoSt → Except String TopoSt) :
    List String → TopoSt → Except String TopoSt
  | [], st => .ok st
  | d :: rest, st =>
    if decl.contains d then
      match f d st with
      | .error e => .error e
      | .ok st' => runDeps decl f rest st'
    else runDeps decl f rest st

/-- `visit(table)`: depth-first visit with three-state marking, throwing
`'Cyclic foreign key dependency detected'` on a back edge.  The source
recursion needs no fuel; here `fuel` bounds the recursion depth only so that
the definition is structural (and hence computable by the kernel), and
`topoSort` passes enough fuel that it can never run out: every level of
nesting permanently marks one previously unmarked declared table. -/
def visit (D : String → List String) (decl : List String) :
    Nat → String → TopoSt → Except String TopoSt
  | 0, _, _ => .error "fuel exhausted"
  | Nat.succ fuel, t, st =>
    match getMark st.visited t with
    | some .done => .ok st
    | some .temp => .error "Cyclic foreign key dependency detected"
    | none =>
      match runDeps decl (visit D decl fuel) (D t) ⟨(t, .temp) :: st.visited, st.sorted⟩ with
      | .error e => .error e
      | .ok st2 => .ok ⟨(t, .done) :: st2.visited, st2.sorted ++ [t]⟩

/-- The top-level loop `for (const table of Object.keys(dependencies))
if (!visited[table]) visit(table)`. -/
def visitAll (D : String → List String) (decl : List String) (fuel : Nat) :
    List String → TopoSt → Except String TopoSt
  | [], st => .ok st
  | t :: ts, st =>
    match getMark st.visited t with
    | some _ => visitAll D decl fuel ts st
    | none =>
      match visit D decl fuel t st with
      | .error e => .error e
      | .ok st' => visitAll D decl fuel ts st'

/-- The topological sort of `syncAllTables` (lines 123–138): visits the
declared table names in registration order and returns the `sorted` list. -/
def topoSort (names : List String) (D : String → List String) : Except String (List String) :=
  match visitAll D names (names.length + 1) names ⟨[], []⟩ with
  | .error e => .error e
  | .ok st => .ok st.sorted

/-! ## Declared models and their dependency graph -/

/-- One registered model: `model.name` and `model.schema.schemaDict` (an
ordered field dictionary). -/
structure Mdl where
  name : String
  schemaDict : List (String × FieldSpec)
deriving DecidableEq, Repr

/-- JS truthiness of `field.foreignKey` (missing or empty string is falsy). -/
def foreignKeyTruthy (d : FieldDesc) : Option String :=
  match d.foreignKey with
  | some fk => if fk.length != 0 then some fk else none
  | none => none

/-- `field.foreignKey.split('(')[0].trim()`: the referenced table name. -/
def refTableOf (fk : String) : String := jsTrim (splitHead fk '(')

/-- `dependencies[model.name]` as built on lines 110–115: the referenced table
of every field that carries a foreign key. -/
def modelDeps (m : Mdl) : List String :=
  m.schemaDict.filterMap (fun p =>
    match foreignKeyTruthy p.2.toDesc with
    | some fk => some (refTableOf fk)
    | none => none)

/-- The dependency list for table `t`; on duplicate registrations of the same
name the last assignment wins, as for JS object properties. -/
def depsFor (pending : List Mdl) (t : String) : List String :=
  match pending.reverse.find? (fun m => m.name == t) with
  | some m => modelDeps m
  | none => []

/-- The creation order computed by one `syncAllTables` pass. -/
def computeOrder (pending : List Mdl) : Except String (List String) :=
  topoSort (pending.map (fun m => m.name)) (depsFor pending)

/-- `DepEdge pending a b`: table `a` declares a foreign key to the *declared*
table `b`.  Only such edges constrain the visit order — foreign keys to
non-declared tables are skipped by the `modelMap[dep]` guard. -/
def DepEdge (pending : List Mdl) (a b : String) : Prop :=
  b ∈ depsFor pending a ∧ b ∈ pending.map (fun m => m.name)

/-- The declared foreign-key graph has no cycle. -/
def AcyclicDeps (pending : List Mdl) : Prop :=
  ∀ a, ¬ Relation.TransGen (DepEdge pending) a a

/-- Marks never regress: whatever `st` records, `st'` records identically
(visits only add marks for previously unmarked tables). -/
def MarksMono (st st' : TopoSt) : Prop :=
  ∀ a m, getMark st.visited a = some m → getMark st'.visited a = some m

/-- Tables the step newly marks are marked `done` (a completed visit leaves no
`temp` mark visible). -/
def NewDone (st st' : TopoSt) : Prop :=
  ∀ a, getMark st.visited a = none →
    getMark st'.visited a = none ∨ getMark st'.visited a = some .done

/-- The soundness invariant of the sort state: `sorted` lists exactly the
`done`-marked tables, without duplicates, all declared, and every entry's
declared dependencies occur strictly earlier in `sorted`. -/
def TopoInv (D : String → List String) (decl : List String) (st : TopoSt) : Prop :=
  (∀ a ∈ st.sorted, getMark st.visited a = some .done) ∧
  (∀ a, getMark st.visited a = some .done → a ∈ st.sorted) ∧
  st.sorted.Nodup ∧
  (∀ a ∈ st.sorted, a ∈ decl) ∧
  (∀ pre a post, st.sorted = pre ++ a :: post → ∀ b, b ∈ D a → b ∈ decl → b ∈ pre)

/-- Every recorded mark belongs to a declared table. -/
def MarksDecl (decl : List String) (st : TopoSt) : Prop :=
  ∀ a m, getMark st.visited a = some m → a ∈ decl

/-- No `temp` marks (holds between two top-level visits). -/
def NoTemp (st : TopoSt) : Prop := ∀ a, getMark st.visited a ≠ some .temp

/-- The number of declared tables not yet marked; visits strictly decrease it,
which is why `names.length + 1` fuel suffices. -/
def FreeCount (decl : List String) (st : TopoSt) : Nat :=
  decl.countP (fun x => (getMark st.visited x).isNone)

/-- A two-table foreign-key cycle: `a` references `b` and `b` references `a`. -/
def cyclicPendingExample : List Mdl :=
  [⟨"a", [("id", .desc { type := some "Number", primary_key := true }),
          ("bId", .desc { type := some "Number", foreignKey := some "b(id)" })]⟩,
   ⟨"b", [("id", .desc { type := some "Number", primary_key := true }),
          ("aId", .desc { type := some "Number", foreignKey := some "a(id)" })]⟩]

/-- The `roles`/`users` example: `users` has a foreign key to `roles`. -/
def rolesUsersPending : List Mdl :=
  [⟨"users", [("id", .desc { type := some "Number", primary_key := true }),
              ("roleId", .desc { type := some "Number", foreignKey := some "roles(id)" })]⟩,
   ⟨"roles", [("id", .desc { type := some "Number", primary_key := true }),
              ("name", .bare "String")]⟩]


/-! ## Events and the external-world oracle -/

/-- One observable side effect of a synchronization pass: a statement handed
to the connection (`query`, or `queryParam` for the parameterized
`SHOW INDEX` call), a filesystem action on a backup artifact, a log or error
line, or an interactive prompt shown to the operator. -/
inductive Ev where
  | query (sql : String)
  | queryParam (sql : String) (arg : String)
  | fsWrite (path : String) (content : String)
  | fsUnlink (path : String)
  | fsRename (src : String) (dst : String)
  | log (msg : String)
  | err (msg : String)
  | prompt (question : String)
deriving DecidableEq, Repr

/-- One row of `SHOW COLUMNS` (`Type` is a Lean keyword, hence `colType`). -/
structure LiveCol where
  Field : String
  colType : String
  Null : String
  Default : Option String
deriving DecidableEq, Repr

/-- One row of `SHOW INDEX` (the fields the diff inspects). -/
structure IdxRow where
  Key_name : String
  Non_unique : Nat
deriving DecidableEq, Repr

/-- The external collaborators of one pass, as pure oracles: the source reads
each introspection surface (`SHOW TABLES`, `SHOW COLUMNS`, `SHOW INDEX`,
`SELECT *`) at most once per pass, so fixed per-pass answers are faithful.
`backupFails t` injects a failure of the backup `try` block for orphan `t`
(read or write); `replayFails f` injects a failure of replaying backup file
`f`.  `restoreAnswer`/`deleteAnswer` are the operator's raw answers for the
two prompts about a table, and `now` is `Date.now()`. -/
structure Env where
  dbTables : List String
  columnsOf : String → List LiveCol
  indexesOf : String → String → List IdxRow
  rowsOf : String → List (List (String × Option String))
  escape : String → String
  backupFiles : List String
  fileContent : String → String
  restoreAnswer : String → String
  deleteAnswer : String → String
  backupFails : String → Bool
  replayFails : String → Bool
  now : Nat

/-! ## Backup artifacts -/

/-- The artifact name written for a dropped orphan table:
`./backup_<table>_<epoch-millis>.sql`. -/
def backupPathFor (t : String) (now : Nat) : String :=
  "./backup_" ++ t ++ "_" ++ Nat.repr now ++ ".sql"

/-- Does `f` match the glob `./backup_<t>_*.sql`?  The wildcard spans any
characters of the file name, underscores included — which is what lets an
artifact written for table `t_x` match the pattern of table `t`. -/
def backupGlobMatch (t : String) (f : String) : Bool :=
  strStarts ("./backup_" ++ t ++ "_") f && strEnds ".sql" f

/-- `glob.sync(pattern).filter(f => !f.endsWith('.ignored')).sort().reverse()[0]`:
the lexically greatest matching non-ignored backup file, if any. -/
def selectBackup (files : List String) (t : String) : Option String :=
  (((files.filter (backupGlobMatch t)).filter
      (fun f => !(strEnds ".ignored" f))).insertionSort strLe).reverse.head?

/-- The single multi-row `INSERT` statement serialized for an orphan backup
(lines 148–154): backtick-quoted column names from the first row, `NULL` for
null values and `conn.escape` for the rest. -/
def insertSQLFor (esc : String → String) (t : String)
    (rows : List (List (String × Option String))) : String :=
  let columns := joinComma ((rows.headD []).map (fun p => "\x60" ++ p.1 ++ "\x60"))
  let values := joinSep ",\n" (rows.map (fun row =>
    "(" ++ joinComma (row.map (fun p =>
      match p.2 with
      | none => "NULL"
      | some v => esc v)) ++ ")"))
  "INSERT INTO \x60" ++ t ++ "\x60 (" ++ columns ++ ") VALUES" ++ values ++ ";\n"

/-! ## The orphan-table phase (`syncAllTables` lines 140–168) -/

/-- Backup-and-drop of one orphan table: the `SELECT *` and artifact write are
inside a `try` whose failure is logged (`backupFails`), and the
`DROP TABLE IF EXISTS` always runs afterwards, whatever happened. -/
def orphanBackupAndDrop (env : Env) (dbTable : String) : List Ev :=
  let backupPath := backupPathFor dbTable env.now
  (if env.backupFails dbTable then
    [Ev.query ("SELECT * FROM \x60" ++ dbTable ++ "\x60"),
     Ev.err ("Erreur lors de la sauvegarde SQL de la table \x27" ++ dbTable ++ "\x27: error")]
   else
    [Ev.query ("SELECT * FROM \x60" ++ dbTable ++ "\x60")] ++
    (let rows := env.rowsOf dbTable
     if rows.length > 0 then
       [Ev.fsWrite backupPath (insertSQLFor env.escape dbTable rows),
        Ev.log ("Sauvegarde SQL de la table \x27" ++ dbTable ++ "\x27 effectuée dans \x27"
          ++ backupPath ++ "\x27.")]
     else
       [Ev.fsWrite backupPath "",
        Ev.log ("Table \x27" ++ dbTable ++ "\x27 vide, fichier \x27" ++ backupPath
          ++ "\x27 créé.")])) ++
  [Ev.log ("Table \x27" ++ dbTable ++ "\x27 n\x27a plus de schéma associé, suppression..."),
   Ev.query ("DROP TABLE IF EXISTS \x60" ++ dbTable ++ "\x60"),
   Ev.log ("Table \x27" ++ dbTable ++ "\x27 supprimée.")]

/-- The whole orphan loop: every live table without a declared model is backed
up and dropped, in `SHOW TABLES` order. -/
def orphanPhase (env : Env) (declaredNames : List String) :
    List String → List Ev
  | [] => []
  | t :: rest =>
    (if !(declaredNames.contains t) then orphanBackupAndDrop env t else []) ++
      orphanPhase env declaredNames rest

/-! ## Statement shapes issued by the per-table synchronization -/

def alterModifyPrefix (t : String) : String :=
  "ALTER TABLE \x60" ++ (t ++ "\x60 MODIFY COLUMN ")

def alterChangePrefix (t : String) : String :=
  "ALTER TABLE \x60" ++ (t ++ "\x60 CHANGE COLUMN ")

def alterAddPrefix (t : String) : String :=
  "ALTER TABLE \x60" ++ (t ++ "\x60 ADD COLUMN ")

def alterDropPrefix (t : String) : String :=
  "ALTER TABLE \x60" ++ (t ++ "\x60 DROP COLUMN ")

def modifyStmt (t colDef : String) : String := alterModifyPrefix t ++ colDef

def changeStmt (t old neu colDef : String) : String :=
  alterChangePrefix t ++ ("\x60" ++ (old ++ ("\x60 \x60" ++ (neu ++ ("\x60 " ++ colDef)))))

def addStmt (t n colDef : String) : String :=
  alterAddPrefix t ++ ("\x60" ++ (n ++ ("\x60 " ++ colDef)))

def dropStmt (t col : String) : String :=
  alterDropPrefix t ++ ("\x60" ++ (col ++ "\x60"))

/-! ## Create-table statement (`generateCreateTableStatement`, lines 338–366) -/

/-- The column rendering of the `schema → columns` map inside
`generateCreateTableStatement`: bare constructors get only the native type
(with a 255 length for `VARCHAR` only), object descriptors go through
`getColumnDefinition` when they carry a `type`, enum-only descriptors get an
inline `ENUM`, and untyped descriptors throw. -/
def columnForCreate (fieldName : String) (field : FieldSpec) : Except String String :=
  match field with
  | .bare t =>
    match sqlTypeMap t with
    | none => .error ("Field " ++ fieldName ++ " has unsupported type " ++ t)
    | some native =>
      .ok (fieldName ++ " " ++ (if native == "VARCHAR" then native ++ "(255)" else native))
  | .desc d =>
    match d.type with
    | some _ => getColumnDefinition fieldName d
    | none =>
      if d.enum.length > 0 then
        .ok (fieldName ++ " ENUM(" ++
          joinComma (d.enum.map
            (fun v => "\x27" ++ String.mk (replaceAllChar v.data '\x27' ['\x27', '\x27']) ++ "\x27"))
          ++ ")")
      else .error ("Field " ++ fieldName ++ " has no type defined.")

def columnsOfSchema : List (String × FieldSpec) → Except String (List String)
  | [] => .ok []
  | (fn, f) :: rest =>
    match columnForCreate fn f with
    | .error e => .error e
    | .ok c =>
      match columnsOfSchema rest with
      | .error e => .error e
      | .ok cs => .ok (c :: cs)

/-- `generateCreateTableStatement(schema)`: `.error` models a thrown
exception; `.ok none` models the reserved-table-name path, which logs an
error and returns `undefined` (the caller then rejects when handing
`undefined` to `query`); note the `foreignKey` accumulator of the source is
never filled, so no foreign-key clause is ever emitted. -/
def generateCreateTableStatement (name : String) (schema : List (String × FieldSpec)) :
    Except String (Option String) :=
  let foreignKey : List String := []
  match columnsOfSchema schema with
  | .error e => .error e
  | .ok columns =>
    if ifReservedKeywords name then .ok none
    else .ok (some ("CREATE TABLE IF NOT EXISTS " ++ name ++ " (" ++ joinComma columns ++
      (if foreignKey.length > 0 then ", " ++ joinComma foreignKey else "") ++ ") ENGINE=InnoDB"))

/-! ## The column diff (the first per-field loop, lines 240–287) -/

/-- Loose inequality `(field.default ?? null) != (currentCol.Default ?? null)`
restricted to the string/null values that occur here. -/
def defaultsDiffer (dv : DefaultV) (cd : Option String) : Bool :=
  match dv, cd with
  | .absent, none => false
  | .nullV, none => false
  | .val v, some w => v != w
  | .val _, none => true
  | .absent, some _ => true
  | .nullV, some _ => true

/-- The five mismatch checks that set `needModify` (lines 249–274). -/
def needModifyCalc (field : FieldDesc) (currentCol : LiveCol) (indexes : List IdxRow) : Bool :=
  let expectedType := (field.type.bind sqlTypeMap).map jsUpper
  let dbType := splitHead (jsUpper currentCol.colType) '('
  let typeDiffers := expectedType != some dbType
  let shouldBeNotNull := field.required || field.primary_key
  let nullDiffers := (shouldBeNotNull && currentCol.Null == "YES") ||
    (!shouldBeNotNull && currentCol.Null == "NO")
  let defaultDiffers := defaultsDiffer field.default currentCol.Default
  let isUniqueInDB := indexes.any (fun idx => idx.Non_unique == 0 && idx.Key_name != "PRIMARY")
  let uniqueDiffers := field.unique != isUniqueInDB
  let isPrimaryInDB := indexes.any (fun idx => idx.Key_name == "PRIMARY")
  let primaryDiffers := field.primary_key != isPrimaryInDB
  typeDiffers || nullDiffers || defaultDiffers || uniqueDiffers || primaryDiffers

/-- The first per-field loop: for each declared field already present in the
live columns, query `SHOW INDEX`, compute `needModify`, and issue a
`MODIFY COLUMN` when set; afterwards warn if the field still carries
`oldName`.  `getColumnDefinition` throwing aborts the pass. -/
def modifyLoop (env : Env) (tname : String) (columns : List LiveCol)
    (existingCols : List String) :
    List (String × FieldSpec) → List Ev × Except String Unit
  | [] => ([], .ok ())
  | (fieldName, field) :: rest =>
    let fd := field.toDesc
    let step : List Ev × Except String Unit :=
      if existingCols.contains fieldName then
        match columns.find? (fun col => col.Field == fieldName) with
        | none => ([], .error "TypeError: currentCol is undefined")
        | some currentCol =>
          let evIdx := Ev.queryParam
            ("SHOW INDEX FROM \x60" ++ tname ++ "\x60 WHERE Column_name = ?") fieldName
          if needModifyCalc fd currentCol (env.indexesOf tname fieldName) then
            match getColumnDefinition fieldName fd with
            | .error e => ([evIdx], .error e)
            | .ok newColDef => ([evIdx, Ev.query (modifyStmt tname newColDef)], .ok ())
          else ([evIdx], .ok ())
      else ([], .ok ())
    match step with
    | (evs, .error e) => (evs, .error e)
    | (evs, .ok ()) =>
      let evWarn : List Ev :=
        match oldNameTruthy fd with
        | some _ =>
          [Ev.log ("⚠️  Pensez à retirer la propriété \x27oldName\x27 du champ \x27" ++ fieldName
            ++ "\x27 dans le schéma JS de \x27" ++ tname
            ++ "\x27 pour éviter des renommages inutiles à l\x27avenir.")]
        | none => []
      match modifyLoop env tname columns existingCols rest with
      | (evRest, r) => (evs ++ evWarn ++ evRest, r)

/-! ## Renames, adds, drops (lines 289–326) -/

/-- Step 1 — renames: a declared field with a truthy `oldName` whose old
column is live while its new name is not yet live gets a `CHANGE COLUMN`, and
`existingCols` is updated in place. -/
def renameLoop (tname : String) :
    List (String × FieldSpec) → List String → List Ev × Except String (List String)
  | [], cols => ([], .ok cols)
  | (fieldName, field) :: rest, cols =>
    let fd := field.toDesc
    match oldNameTruthy fd with
    | some old =>
      if cols.contains old && !(cols.contains fieldName) then
        match getColumnDefinition fieldName fd with
        | .error e => ([], .error e)
        | .ok colDef =>
          let evs := [Ev.query (changeStmt tname old fieldName colDef),
            Ev.log ("Colonne " ++ old ++ " renommée en " ++ fieldName ++ " dans " ++ tname)]
          let cols1 := cols.map (fun c => if c == old then fieldName else c)
          match renameLoop tname rest cols1 with
          | (evRest, r) => (evs ++ evRest, r)
      else renameLoop tname rest cols
    | none => renameLoop tname rest cols

/-- Step 2 — adds: every declared field still missing from `existingCols`
gets an `ADD COLUMN` and is appended to `existingCols`. -/
def addLoop (tname : String) :
    List (String × FieldSpec) → List String → List Ev × Except String (List String)
  | [], cols => ([], .ok cols)
  | (fieldName, field) :: rest, cols =>
    if !(cols.contains fieldName) then
      match getColumnDefinition fieldName field.toDesc with
      | .error e => ([], .error e)
      | .ok colDef =>
        let evs := [Ev.query (addStmt tname fieldName colDef),
          Ev.log ("Colonne " ++ fieldName ++ " ajoutée à " ++ tname)]
        match addLoop tname rest (cols ++ [fieldName]) with
        | (evRest, r) => (evs ++ evRest, r)
    else addLoop tname rest cols

/-- Step 3 — drops (only under `dangerousSync`): every column of
`existingCols` not among the declared field names gets a `DROP COLUMN`. -/
def dropLoop (tname : String) (schemaKeys : List String) : List String → List Ev
  | [] => []
  | col :: rest =>
    (if !(schemaKeys.contains col) then
      [Ev.query (dropStmt tname col),
       Ev.log ("Colonne " ++ col ++ " supprimée de " ++ tname)]
     else []) ++ dropLoop tname schemaKeys rest

/-! ## The offer-restore step (lines 183–232) -/

/-- Looks for the most recent non-ignored backup of the table and, if one
exists, asks the restore question (replaying the file on `y`; a replay
failure is only logged) and then **always** asks the disposition question:
`y` deletes the artifact, anything else renames it with `.ignored`. -/
def restorePhase (env : Env) (tname : String) : List Ev :=
  match selectBackup env.backupFiles tname with
  | none => []
  | some latestBackup =>
    let restoreEvs : List Ev :=
      if jsLower (jsTrim (env.restoreAnswer tname)) == "y" then
        [Ev.query (env.fileContent latestBackup)] ++
        (if env.replayFails latestBackup then
          [Ev.err ("Erreur lors de la restauration du backup pour \x27" ++ tname
            ++ "\x27: error")]
         else
          [Ev.log ("Backup restauré pour la table \x27" ++ tname ++ "\x27.")])
      else []
    let delEvs : List Ev :=
      if jsLower (jsTrim (env.deleteAnswer tname)) == "y" then
        [Ev.fsUnlink latestBackup, Ev.log ("Backup supprimé : " ++ latestBackup)]
      else
        [Ev.fsRename latestBackup (latestBackup ++ ".ignored"),
         Ev.log ("Backup ignoré pour la table \x27" ++ tname ++ "\x27. Il ne sera plus proposé.")]
    [Ev.prompt ("Un backup a été trouvé pour la table \x27" ++ tname ++ "\x27 ("
      ++ latestBackup ++ "). Voulez-vous restaurer les données ? (y/N) ")] ++
    restoreEvs ++
    [Ev.prompt ("Voulez-vous supprimer le fichier de backup \x27" ++ latestBackup
      ++ "\x27 ? (y/N) ")] ++
    delEvs

/-! ## One table's synchronization (loop body of lines 171–327) -/

/-- The per-table step sequence: ensure-exists (create), offer-restore,
`SHOW COLUMNS`, the modify loop, then renames, adds and (under
`dangerousSync`) drops.  A thrown error aborts with the trace so far. -/
def syncTable (env : Env) (dangerousSync : Bool) (m : Mdl) : List Ev × Except String Unit :=
  match generateCreateTableStatement m.name m.schemaDict with
  | .error e =>
    ([Ev.err ("Error creating table: " ++ e ++ " with table name: " ++ m.name)], .error e)
  | .ok none =>
    ([Ev.err "Error: Invalid table name. Please choose a different name that is not a reserved keyword in SQL_request",
      Ev.err ("Error creating table: query of undefined with table name: " ++ m.name)],
     .error "query of undefined")
  | .ok (some stmt) =>
    let evCreate := [Ev.query stmt,
      Ev.log ("La table " ++ m.name ++ " a été créée ou existe déjà")]
    let evRestore := restorePhase env m.name
    let evShow := [Ev.query ("SHOW COLUMNS FROM \x60" ++ m.name ++ "\x60")]
    let columns := env.columnsOf m.name
    let existingCols := columns.map (fun col => col.Field)
    match modifyLoop env m.name columns existingCols m.schemaDict with
    | (evMod, .error e) => (evCreate ++ evRestore ++ evShow ++ evMod, .error e)
    | (evMod, .ok ()) =>
      match renameLoop m.name m.schemaDict existingCols with
      | (evRen, .error e) => (evCreate ++ evRestore ++ evShow ++ evMod ++ evRen, .error e)
      | (evRen, .ok cols1) =>
        match addLoop m.name m.schemaDict cols1 with
        | (evAdd, .error e) =>
          (evCreate ++ evRestore ++ evShow ++ evMod ++ evRen ++ evAdd, .error e)
        | (evAdd, .ok cols2) =>
          let evDrop :=
            if dangerousSync then dropLoop m.name (m.schemaDict.map (fun p => p.1)) cols2
            else []
          (evCreate ++ evRestore ++ evShow ++ evMod ++ evRen ++ evAdd ++ evDrop, .ok ())

/-- `modelMap[t]` (last registration wins, as JS object assignment). -/
def modelMapOf (pending : List Mdl) (t : String) : Option Mdl :=
  pending.reverse.find? (fun m => m.name == t)

/-- The per-table loop over the dependency-ordered table list. -/
def syncTables (env : Env) (dangerousSync : Bool) (modelMap : String → Option Mdl) :
    List String → List Ev × Except String Unit
  | [] => ([], .ok ())
  | t :: rest =>
    match modelMap t with
    | none => ([], .error "TypeError: model is undefined")
    | some m =>
      match syncTable env dangerousSync m with
      | (evs, .error e) => (evs, .error e)
      | (evs, .ok ()) =>
        match syncTables env dangerousSync modelMap rest with
        | (evRest, r) => (evs ++ evRest, r)

/-- `Model.syncAllTables({dangerousSync})`: builds the dependency map, reads
`SHOW TABLES`, topologically sorts the declared tables (a cycle throws before
any DDL), backs up and drops the orphan tables, synchronizes each declared
table in order, and finally empties the pending-model registry.  The returned
list is the new value of `Model.pendingModels`. -/
def syncAllTables (env : Env) (dangerousSync : Bool) (pending : List Mdl) :
    List Ev × Except String (List Mdl) :=
  let names := pending.map (fun m => m.name)
  let evTables := [Ev.query "SHOW TABLES"]
  match topoSort names (depsFor pending) with
  | .error e => (evTables, .error e)
  | .ok sorted =>
    let evOrphan := orphanPhase env names env.dbTables
    match syncTables env dangerousSync (modelMapOf pending) sorted with
    | (evs, .error e) => (evTables ++ evOrphan ++ evs, .error e)
    | (evs, .ok ()) => (evTables ++ evOrphan ++ evs, .ok [])

/-! ## Classification of the structural statements of one table -/

/-- Classifies an event as one of the four structural operations on table
`t`, in the order the source issues them: `0` = modify, `1` = rename,
`2` = add, `3` = drop. -/
def opClass (t : String) (e : Ev) : Option Nat :=
  match e with
  | .query s =>
    if strStarts (alterModifyPrefix t) s then some 0
    else if strStarts (alterChangePrefix t) s then some 1
    else if strStarts (alterAddPrefix t) s then some 2
    else if strStarts (alterDropPrefix t) s then some 3
    else none
  | _ => none

/-- The ranking the claim asserts: renames (`0`) before adds (`1`) before
modifies (`2`) before drops (`3`). -/
def claimClass (t : String) (e : Ev) : Option Nat :=
  match e with
  | .query s =>
    if strStarts (alterChangePrefix t) s then some 0
    else if strStarts (alterAddPrefix t) s then some 1
    else if strStarts (alterModifyPrefix t) s then some 2
    else if strStarts (alterDropPrefix t) s then some 3
    else none
  | _ => none


/-- Does the event carry a SQL statement addressed to table `t`?  One clause
per statement shape the synchronizer can issue: idempotent create,
`SHOW COLUMNS`, the four `ALTER TABLE` forms, the orphan `SELECT *`, the
orphan `DROP TABLE`, a replayed `INSERT INTO`, and the indexed
`SHOW INDEX` parameterized query. -/
def queryForTable (t : String) (e : Ev) : Bool :=
  match e with
  | .query s =>
    strStarts ("CREATE TABLE IF NOT EXISTS " ++ (t ++ " (")) s ||
    strStarts ("SHOW COLUMNS FROM \x60" ++ (t ++ "\x60")) s ||
    strStarts ("ALTER TABLE \x60" ++ (t ++ "\x60")) s ||
    strStarts ("SELECT * FROM \x60" ++ (t ++ "\x60")) s ||
    strStarts ("DROP TABLE IF EXISTS \x60" ++ (t ++ "\x60")) s ||
    strStarts ("INSERT INTO \x60" ++ (t ++ "\x60")) s
  | .queryParam s _ => strStarts ("SHOW INDEX FROM \x60" ++ (t ++ "\x60")) s
  | _ => false

/-- The structural operations picked out by `rank` appear in nondecreasing
rank order along the trace. -/
def OrderedOps (rank : Ev → Option Nat) (tr : List Ev) : Prop :=
  (tr.filterMap rank).Sorted (· ≤ ·)


/-! ## Concrete environments and models used as witnesses -/

/-- A quiet environment: empty database, no backups, no injected failures. -/
def emptyEnv : Env where
  dbTables := []
  columnsOf := fun _ => []
  indexesOf := fun _ _ => []
  rowsOf := fun _ => []
  escape := fun v => "\x27" ++ v ++ "\x27"
  backupFiles := []
  fileContent := fun _ => ""
  restoreAnswer := fun _ => ""
  deleteAnswer := fun _ => ""
  backupFails := fun _ => false
  replayFails := fun _ => false
  now := 1700000000000

/-- A table `t` whose live column `a` is nullable although declared required
(so the pass must modify it) and whose declared column `b` is missing (so the
pass must add it). -/
def c1Env : Env := { emptyEnv with
  dbTables := ["t"]
  columnsOf := fun n => if n == "t" then [⟨"a", "varchar(255)", "YES", none⟩] else [] }

def c1Mdl : Mdl :=
  ⟨"t", [("a", .desc { type := some "String", required := true }),
         ("b", .desc { type := some "String" })]⟩


/-- A database holding one table `old` while no schema is declared. -/
def c4Env : Env := { emptyEnv with dbTables := ["old"] }


/-- A database with one orphan table `zombie` whose backup write fails. -/
def c8Env : Env :=
  { emptyEnv with dbTables := ["zombie"], backupFails := fun _ => true }


/-- A pass over table `t1` with one pending backup artifact whose replay
fails; the operator accepts the restore and declines the deletion. -/
def c5Env : Env := { emptyEnv with
  backupFiles := ["./backup_t1_100.sql"]
  fileContent := fun _ => "INSERT INTO \x60t1\x60 (id) VALUES (1);"
  restoreAnswer := fun _ => "y"
  deleteAnswer := fun _ => ""
  replayFails := fun _ => true }

def c5Mdl : Mdl := ⟨"t1", [("id", .desc { type := some "Number", primary_key := true })]⟩


/-- A table `t7` whose live column `rang` is declared as `role` with
`oldName: "rang"` (the rename-precedence scenario of the spec). -/
def c7Env : Env := { emptyEnv with
  dbTables := ["t7"]
  columnsOf := fun n => if n == "t7" then [⟨"rang", "varchar(255)", "YES", none⟩] else [] }

def c7Mdl : Mdl :=
  ⟨"t7", [("role", .desc { type := some "String", oldName := some "rang" })]⟩


/-- A registry declaring one table whose name is the reserved keyword
`SELECT`. -/
def c9Pending : List Mdl := [⟨"SELECT", [("id", FieldSpec.desc { type := some "Number" })]⟩]


/-- A table `t6` with a declared column `a` and a live column `legacy` that
no declaration mentions. -/
def c6Env : Env := { emptyEnv with
  dbTables := ["t6"]
  columnsOf := fun n => if n == "t6" then
    [⟨"a", "varchar(255)", "YES", none⟩, ⟨"legacy", "varchar(255)", "YES", none⟩] else [] }

def c6Mdl : Mdl := ⟨"t6", [("a", .desc { type := some "String" })]⟩

/-- An edge of an abstract declared-dependency graph: `a` depends on the
declared node `b`. -/
def GEdge (D : String → List String) (decl : List String) (a b : String) : Prop :=
  b ∈ D a ∧ b ∈ decl

/-! ## Theorems

Everything below this point is a theorem about the definitions above; the
definitions mirroring further parts of `Model.js` appear earlier in the file.
-/

theorem data_append (s t : String) : (s ++ t).data = s.data ++ t.data := rfl

theorem digitChar_ne_O (n : Nat) : Nat.digitChar n ≠ 'O' := by
  intro h
  unfold Nat.digitChar at h
  by_cases h0 : n = 0
  · rw [if_pos h0] at h; exact absurd h (by decide)
  rw [if_neg h0] at h
  by_cases h1 : n = 1
  · rw [if_pos h1] at h; exact absurd h (by decide)
  rw [if_neg h1] at h
  by_cases h2 : n = 2
  · rw [if_pos h2] at h; exact absurd h (by decide)
  rw [if_neg h2] at h
  by_cases h3 : n = 3
  · rw [if_pos h3] at h; exact absurd h (by decide)
  rw [if_neg h3] at h
  by_cases h4 : n = 4
  · rw [if_pos h4] at h; exact absurd h (by decide)
  rw [if_neg h4] at h
  by_cases h5 : n = 5
  · rw [if_pos h5] at h; exact absurd h (by decide)
  rw [if_neg h5] at h
  by_cases h6 : n = 6
  · rw [if_pos h6] at h; exact absurd h (by decide)
  rw [if_neg h6] at h
  by_cases h7 : n = 7
  · rw [if_pos h7] at h; exact absurd h (by decide)
  rw [if_neg h7] at h
  by_cases h8 : n = 8
  · rw [if_pos h8] at h; exact absurd h (by decide)
  rw [if_neg h8] at h
  by_cases h9 : n = 9
  · rw [if_pos h9] at h; exact absurd h (by decide)
  rw [if_neg h9] at h
  by_cases h10 : n = 10
  · rw [if_pos h10] at h; exact absurd h (by decide)
  rw [if_neg h10] at h
  by_cases h11 : n = 11
  · rw [if_pos h11] at h; exact absurd h (by decide)
  rw [if_neg h11] at h
  by_cases h12 : n = 12
  · rw [if_pos h12] at h; exact absurd h (by decide)
  rw [if_neg h12] at h
  by_cases h13 : n = 13
  · rw [if_pos h13] at h; exact absurd h (by decide)
  rw [if_neg h13] at h
  by_cases h14 : n = 14
  · rw [if_pos h14] at h; exact absurd h (by decide)
  rw [if_neg h14] at h
  by_cases h15 : n = 15
  · rw [if_pos h15] at h; exact absurd h (by decide)
  rw [if_neg h15] at h
  exact absurd h (by decide)

theorem toDigitsCore_mem (b : Nat) :
    ∀ (fuel n : Nat) (ds : List Char) (c : Char),
      c ∈ Nat.toDigitsCore b fuel n ds → c ∈ ds ∨ ∃ m, c = Nat.digitChar m := by
  intro fuel
  induction fuel with
  | zero => intro n ds c h; exact Or.inl h
  | succ fuel ih =>
    intro n ds c h
    rw [Nat.toDigitsCore] at h
    by_cases h0 : n / b = 0
    · rw [if_pos h0] at h
      rcases List.mem_cons.mp h with h1 | h1
      · exact Or.inr ⟨n % b, h1⟩
      · exact Or.inl h1
    · rw [if_neg h0] at h
      rcases ih (n / b) (Nat.digitChar (n % b) :: ds) c h with h1 | h1
      · rcases List.mem_cons.mp h1 with h2 | h2
        · exact Or.inr ⟨n % b, h2⟩
        · exact Or.inl h2
      · exact Or.inr h1

theorem natRepr_no_O (n : Nat) : 'O' ∉ (Nat.repr n).data := by
  intro hmem
  have h : 'O' ∈ Nat.toDigitsCore 10 (n + 1) n [] := hmem
  rcases toDigitsCore_mem 10 (n + 1) n [] 'O' h with h' | ⟨m, hm⟩
  · exact absurd h' (List.not_mem_nil 'O')
  · exact digitChar_ne_O m hm.symm

theorem intRepr_no_O (l : Int) : 'O' ∉ (Int.repr l).data := by
  cases l with
  | ofNat m => exact natRepr_no_O m
  | negSucc m =>
    intro hmem
    have h2 : 'O' ∈ ("-" : String).data ++ (Nat.repr (m + 1)).data := hmem
    rcases List.mem_append.mp h2 with h | h
    · exact absurd h (by decide)
    · exact natRepr_no_O (m + 1) h

theorem replaceAllChar_mem (c : Char) :
    ∀ (l : List Char) (x : Char) (r : List Char),
      c ∈ replaceAllChar l x r → c ∈ l ∨ c ∈ r := by
  intro l
  induction l with
  | nil => intro x r h; exact absurd h (List.not_mem_nil c)
  | cons a as ih =>
    intro x r h
    unfold replaceAllChar at h
    rcases List.mem_append.mp h with h' | h'
    · by_cases hax : a = x
      · rw [if_pos hax] at h'
        exact Or.inr h'
      · rw [if_neg hax] at h'
        rcases List.mem_singleton.mp h' with rfl
        exact Or.inl (List.mem_cons_self c as)
    · rcases ih x r h' with h'' | h''
      · exact Or.inl (List.mem_cons_of_mem a h'')
      · exact Or.inr h''

theorem joinComma_mem (c : Char) :
    ∀ (l : List String), c ∈ (joinComma l).data →
      (∃ s ∈ l, c ∈ s.data) ∨ c = ',' ∨ c = ' ' := by
  intro l
  induction l with
  | nil => intro h; exact absurd h (List.not_mem_nil c)
  | cons x xs ih =>
    intro h
    cases xs with
    | nil => exact Or.inl ⟨x, List.mem_singleton_self x, h⟩
    | cons y ys =>
      have h' : c ∈ x.data ++ (", " : String).data ++ (joinComma (y :: ys)).data := h
      rcases List.mem_append.mp h' with h'' | h''
      · rcases List.mem_append.mp h'' with h3 | h3
        · exact Or.inl ⟨x, List.mem_cons_self x (y :: ys), h3⟩
        · have h4 : c ∈ [',', ' '] := h3
          rcases List.mem_cons.mp h4 with h5 | h5
          · exact Or.inr (Or.inl h5)
          · rcases List.mem_singleton.mp h5 with rfl
            exact Or.inr (Or.inr rfl)
      · rcases ih h'' with ⟨s, hs, hcs⟩ | h3
        · exact Or.inl ⟨s, List.mem_cons_of_mem x hs, hcs⟩
        · exact Or.inr h3

theorem lengthClause_no_O (len : Option Int) : 'O' ∉ (lengthClause len).data := by
  cases len with
  | none => decide
  | some l =>
    simp only [lengthClause]
    by_cases hl : 0 < l
    · rw [if_pos hl]; exact intRepr_no_O l
    · rw [if_neg hl]; decide

theorem getColumnDefinition_ok_decomp (fieldName : String) (f : FieldDesc) (s : String)
    (hok : getColumnDefinition fieldName f = .ok s) :
    ∃ c0 : String,
      ((0 < f.enum.length ∧
          c0 = "ENUM(" ++ joinComma (f.enum.map
            (fun v => "\x27" ++ String.mk (replaceAllChar v.data '\x27' ['\x27', '\x27']) ++ "\x27")) ++ ")") ∨
        (∃ native, f.type.bind sqlTypeMap = some native ∧
          c0 = native ++ (if native == "VARCHAR" || native == "INT" then
            "(" ++ lengthClause f.length ++ ")" else ""))) ∧
      s = fieldName ++ " " ++ ((((((c0
            ++ (if f.required then " NOT NULL" else ""))
            ++ (match f.default with
                | .val v => " DEFAULT \"" ++ v ++ "\""
                | .nullV => " DEFAULT NULL"
                | .absent => ""))
            ++ (if f.unique then " UNIQUE" else ""))
            ++ (if f.auto_increment then " AUTO_INCREMENT" else ""))
            ++ (if f.primary_key then " PRIMARY KEY" else ""))
            ++ (match f.customize with
                | some c => if c.length != 0 then " " ++ c else ""
                | none => "")) := by
  simp only [getColumnDefinition] at hok
  split at hok
  · exact (Except.noConfusion hok)
  · by_cases hen : f.enum.length > 0
    · rw [if_pos hen] at hok
      refine ⟨_, Or.inl ⟨hen, rfl⟩, ?_⟩
      exact (Except.ok.inj hok).symm
    · rw [if_neg hen] at hok
      rcases hnat : f.type.bind sqlTypeMap with _ | native
      · rw [hnat] at hok
        exact (Except.noConfusion hok)
      · rw [hnat] at hok
        refine ⟨_, Or.inr ⟨native, rfl, rfl⟩, ?_⟩
        exact (Except.ok.inj hok).symm

theorem notNull_subset_O {l : List Char} (h : "NOT NULL".data <:+: l) : 'O' ∈ l :=
  h.subset (by decide)

theorem not_mem_app {c : Char} {l1 l2 : List Char} (h1 : c ∉ l1) (h2 : c ∉ l2) :
    c ∉ l1 ++ l2 := fun h => (List.mem_append.mp h).elim h1 h2

theorem getColumnDefinition_no_O (fieldName : String) (f : FieldDesc) (s : String)
    (hname : 'O' ∉ fieldName.data)
    (henum : ∀ v ∈ f.enum, 'O' ∉ v.data)
    (hty : ∀ t native, f.type = some t → sqlTypeMap t = some native → 'O' ∉ native.data)
    (hdef : ∀ v, f.default = .val v → 'O' ∉ v.data)
    (hauto : f.auto_increment = false)
    (hcust : ∀ c, f.customize = some c → 'O' ∉ c.data)
    (hreq : f.required = false)
    (hok : getColumnDefinition fieldName f = .ok s) :
    'O' ∉ s.data := by
  rcases getColumnDefinition_ok_decomp _ _ _ hok with ⟨c0, hbase, hs⟩
  subst hs
  have hc0 : 'O' ∉ c0.data := by
    rcases hbase with ⟨_, hc0⟩ | ⟨native, hnat, hc0⟩
    · subst hc0
      refine not_mem_app (not_mem_app (by decide) ?_) (by decide)
      intro h
      rcases joinComma_mem _ _ h with ⟨e, he, hce⟩ | h
      · rcases List.mem_map.mp he with ⟨v, hv, hev⟩
        subst hev
        rcases List.mem_append.mp hce with hce | hce
        · rcases List.mem_append.mp hce with hce | hce
          · exact absurd hce (by decide)
          · rcases replaceAllChar_mem _ _ _ _ hce with h' | h'
            · exact henum v hv h'
            · exact absurd h' (by decide)
        · exact absurd hce (by decide)
      · rcases h with h | h
        · exact absurd h (by decide)
        · exact absurd h (by decide)
    · subst hc0
      rcases Option.bind_eq_some.mp hnat with ⟨t, ht, hnat'⟩
      by_cases hvar : (native == "VARCHAR" || native == "INT") = true
      · rw [if_pos hvar]
        exact not_mem_app (hty t native ht hnat')
          (not_mem_app (not_mem_app (by decide) (lengthClause_no_O f.length)) (by decide))
      · rw [if_neg hvar]
        exact not_mem_app (hty t native ht hnat') (by decide)
  have hR : 'O' ∉ (if f.required = true then " NOT NULL" else "").data := by
    rw [hreq]; decide
  have hD : 'O' ∉ (match f.default with
      | DefaultV.val v => " DEFAULT \"" ++ v ++ "\""
      | DefaultV.nullV => " DEFAULT NULL"
      | DefaultV.absent => "").data := by
    rcases hd : f.default with _ | _ | v
    · decide
    · decide
    · exact not_mem_app (not_mem_app (by decide) (hdef v hd)) (by decide)
  have hU : 'O' ∉ (if f.unique = true then " UNIQUE" else "").data := by
    rcases hu : f.unique
    · decide
    · decide
  have hA : 'O' ∉ (if f.auto_increment = true then " AUTO_INCREMENT" else "").data := by
    rw [hauto]; decide
  have hP : 'O' ∉ (if f.primary_key = true then " PRIMARY KEY" else "").data := by
    rcases hp : f.primary_key
    · decide
    · decide
  have hC : 'O' ∉ (match f.customize with
      | some c => if (c.length != 0) = true then " " ++ c else ""
      | none => "").data := by
    rcases hc : f.customize with _ | c
    · decide
    · show 'O' ∉ (if (c.length != 0) = true then " " ++ c else "").data
      by_cases hlen : (c.length != 0) = true
      · rw [if_pos hlen]
        exact not_mem_app (by decide) (hcust c hc)
      · rw [if_neg hlen]
        decide
  exact not_mem_app (not_mem_app hname (by decide))
    (not_mem_app (not_mem_app (not_mem_app (not_mem_app (not_mem_app
      (not_mem_app hc0 hR) hD) hU) hA) hP) hC)

/-- C2, counterexample: the column-definition compiler renders a
`primary_key: true, required: false` descriptor *without* `NOT NULL` — the
clause is exactly `id INT(255) PRIMARY KEY` — so the claimed
"`NOT NULL` if and only if `required` or `primary_key`" fails on the
`primary_key`-only descriptor. -/
theorem c2_counterexample_primary_key_without_not_null :
    getColumnDefinition "id" { type := some "Number", primary_key := true, required := false } =
      .ok "id INT(255) PRIMARY KEY" ∧
    ¬ hasNotNull "id INT(255) PRIMARY KEY" := by
  refine ⟨rfl, ?_⟩
  intro h
  exact absurd (notNull_subset_O h) (by decide)

/-- C2, amended: the emitted column clause contains `NOT NULL` if and only if
the descriptor has `required` truthy; `primary_key` alone does **not** add
`NOT NULL` to the clause (the `PRIMARY KEY` keyword implies it only at the
engine level).  The side conditions require the letter `O` not to occur in the
caller-controlled fragments (field name, enum values, default literal,
customize suffix) and in the resolved native type, and `auto_increment` to be
off, so that the fixed keywords are the only possible source of the
`NOT NULL` characters. -/
theorem getColumnDefinition_notNull_iff_required (fieldName : String) (f : FieldDesc)
    (s : String)
    (hname : 'O' ∉ fieldName.data)
    (henum : ∀ v ∈ f.enum, 'O' ∉ v.data)
    (hty : ∀ t native, f.type = some t → sqlTypeMap t = some native → 'O' ∉ native.data)
    (hdef : ∀ v, f.default = .val v → 'O' ∉ v.data)
    (hauto : f.auto_increment = false)
    (hcust : ∀ c, f.customize = some c → 'O' ∉ c.data)
    (hok : getColumnDefinition fieldName f = .ok s) :
    hasNotNull s ↔ f.required = true := by
  constructor
  · intro hNN
    rcases hr : f.required
    · exact absurd (notNull_subset_O hNN)
        (getColumnDefinition_no_O fieldName f s hname henum hty hdef hauto hcust hr hok)
    · rfl
  · intro hreq
    rcases getColumnDefinition_ok_decomp _ _ _ hok with ⟨c0, _, hs⟩
    subst hs
    show "NOT NULL".data <:+: _
    simp only [hreq, if_pos, data_append, List.append_assoc]
    have h1 : "NOT NULL".data <:+: (" NOT NULL" : String).data := by decide
    have lift : ∀ (A M : List Char), "NOT NULL".data <:+: M → "NOT NULL".data <:+: A ++ M :=
      fun A M h => h.trans (List.suffix_append A M).isInfix
    exact lift _ _ (lift _ _ (lift _ _ (h1.trans (List.prefix_append _ _).isInfix)))

/-- Witness for the amended C2 theorem at a concrete descriptor: a
`required: true` string field compiles to a clause containing `NOT NULL`. -/
theorem getColumnDefinition_notNull_iff_required_witness :
    hasNotNull "name VARCHAR(255) NOT NULL" :=
  (getColumnDefinition_notNull_iff_required "name"
      { type := some "String", required := true } "name VARCHAR(255) NOT NULL"
      (by decide)
      (by intro v hv; exact absurd hv (List.not_mem_nil v))
      (by intro t native ht hnat;
          rcases Option.some.inj ht;
          rcases Option.some.inj hnat;
          decide)
      (by intro v hv; exact DefaultV.noConfusion hv)
      rfl
      (by intro c hc; exact Option.noConfusion hc)
      rfl).mpr rfl

theorem getMark_cons (x : String) (m : Mark) (v : List (String × Mark)) (t : String) :
    getMark ((x, m) :: v) t = if x = t then some m else getMark v t := by
  by_cases h : x = t
  · rw [if_pos h]
    unfold getMark
    rw [List.find?_cons_of_pos _ (by simp [h])]
  · rw [if_neg h]
    unfold getMark
    rw [List.find?_cons_of_neg _ (by simp [h])]

theorem marksMono_refl (st : TopoSt) : MarksMono st st := fun _ _ h => h

theorem marksMono_trans {s1 s2 s3 : TopoSt} (h1 : MarksMono s1 s2) (h2 : MarksMono s2 s3) :
    MarksMono s1 s3 := fun a m h => h2 a m (h1 a m h)

theorem newDone_refl (st : TopoSt) : NewDone st st := fun _ h => Or.inl h

theorem newDone_trans {s1 s2 s3 : TopoSt} (m2 : MarksMono s2 s3) (h1 : NewDone s1 s2)
    (h2 : NewDone s2 s3) : NewDone s1 s3 := by
  intro a h
  rcases h1 a h with h' | h'
  · exact h2 a h'
  · exact Or.inr (m2 a _ h')

theorem append_singleton_split {α : Type} {pre post l : List α} {a t : α}
    (h : pre ++ a :: post = l ++ [t]) :
    (pre = l ∧ a = t ∧ post = []) ∨ ∃ post', post = post' ++ [t] ∧ l = pre ++ a :: post' := by
  rcases List.eq_nil_or_concat post with rfl | ⟨post', x, hpost⟩
  · left
    have h2 : pre ++ [a] = l ++ [t] := h
    rcases List.append_inj' h2 rfl with ⟨hpre, hat⟩
    exact ⟨hpre, List.singleton_inj.mp hat, rfl⟩
  · right
    rw [List.concat_eq_append] at hpost
    subst hpost
    have h2 : (pre ++ a :: post') ++ [x] = l ++ [t] := by
      simpa using h
    rcases List.append_inj' h2 rfl with ⟨hpre, hxt⟩
    rcases List.singleton_inj.mp hxt with rfl
    exact ⟨post', rfl, hpre.symm⟩

theorem contains_iff_mem (l : List String) (a : String) : l.contains a = true ↔ a ∈ l := by
  simp [List.contains]

/-- Soundness of `visit`/`runDeps`: a successful visit preserves the
invariant, never erases or downgrades marks, marks new tables only `done`,
and leaves its target `done`. -/
theorem visit_sound (D : String → List String) (decl : List String) :
    ∀ fuel : Nat,
      (∀ t st st', t ∈ decl → TopoInv D decl st →
        visit D decl fuel t st = .ok st' →
        TopoInv D decl st' ∧ MarksMono st st' ∧ NewDone st st' ∧
          getMark st'.visited t = some .done) ∧
      (∀ ds st st', TopoInv D decl st →
        runDeps decl (visit D decl fuel) ds st = .ok st' →
        TopoInv D decl st' ∧ MarksMono st st' ∧ NewDone st st' ∧
          (∀ d ∈ ds, d ∈ decl → getMark st'.visited d = some .done)) := by
  intro fuel
  induction fuel with
  | zero =>
    constructor
    · intro t st st' _ _ hv
      exact absurd hv (by simp [visit])
    · intro ds
      induction ds with
      | nil =>
        intro st st' hinv hr
        simp only [runDeps] at hr
        cases hr
        exact ⟨hinv, marksMono_refl st, newDone_refl st,
          by intro d hd; exact absurd hd (List.not_mem_nil d)⟩
      | cons d rest ih =>
        intro st st' hinv hr
        simp only [runDeps] at hr
        by_cases hd : decl.contains d = true
        · rw [if_pos hd] at hr
          have hz : visit D decl 0 d st = .error "fuel exhausted" := by simp [visit]
          rw [hz] at hr
          exact absurd hr (by simp)
        · rw [if_neg hd] at hr
          rcases ih st st' hinv hr with ⟨h1, h2, h3, h4⟩
          refine ⟨h1, h2, h3, ?_⟩
          intro e he hedecl
          rcases List.mem_cons.mp he with rfl | he'
          · exact absurd ((contains_iff_mem decl e).mpr hedecl) hd
          · exact h4 e he' hedecl
  | succ fuel ih =>
    have visitPart : ∀ t st st', t ∈ decl → TopoInv D decl st →
        visit D decl (fuel + 1) t st = .ok st' →
        TopoInv D decl st' ∧ MarksMono st st' ∧ NewDone st st' ∧
          getMark st'.visited t = some .done := by
      intro t st st' htdecl hinv hv
      simp only [visit] at hv
      rcases hmk : getMark st.visited t with _ | mk
      · -- unmarked: the interesting case
        rw [hmk] at hv
        rcases hrun : runDeps decl (visit D decl fuel) (D t)
            ⟨(t, .temp) :: st.visited, st.sorted⟩ with _ | st2
        all_goals rw [hrun] at hv
        · exact absurd hv (by simp)
        cases hv
        obtain ⟨iA, iB, iC, iD, iE⟩ := hinv
        have hinv1 : TopoInv D decl ⟨(t, .temp) :: st.visited, st.sorted⟩ := by
          refine ⟨?_, ?_, iC, iD, iE⟩
          · intro a ha
            have hat : a ≠ t := by
              intro h
              have hda := iA a ha
              rw [h] at hda
              rw [hda] at hmk
              exact Option.noConfusion hmk
            rw [getMark_cons, if_neg (fun h => hat h.symm)]
            exact iA a ha
          · intro a ha
            by_cases hat : t = a
            · rw [getMark_cons, if_pos hat] at ha
              exact absurd (Option.some.inj ha) (by simp)
            · rw [getMark_cons, if_neg hat] at ha
              exact iB a ha
        rcases ih.2 (D t) _ _ hinv1 hrun with ⟨⟨jA, jB, jC, jD, jE⟩, jMono, jNew, jDone⟩
        have htemp2 : getMark st2.visited t = some .temp :=
          jMono t .temp (by rw [getMark_cons, if_pos rfl])
        have htnotin : t ∉ st2.sorted := by
          intro hmem
          rw [jA t hmem] at htemp2
          exact absurd (Option.some.inj htemp2) (by simp)
        refine ⟨⟨?_, ?_, ?_, ?_, ?_⟩, ?_, ?_, ?_⟩
        · intro a ha
          rcases List.mem_append.mp ha with ha' | ha'
          · have hat : a ≠ t := fun h => htnotin (h ▸ ha')
            rw [getMark_cons, if_neg (fun h => hat h.symm)]
            exact jA a ha'
          · rcases List.mem_singleton.mp ha' with rfl
            rw [getMark_cons, if_pos rfl]
        · intro a ha
          by_cases hat : t = a
          · rw [← hat]
            exact List.mem_append.mpr (Or.inr (List.mem_singleton_self t))
          · rw [getMark_cons, if_neg hat] at ha
            exact List.mem_append.mpr (Or.inl (jB a ha))
        · exact List.Nodup.append jC (List.nodup_singleton t)
            (by intro x hx hx'
                rcases List.mem_singleton.mp hx' with rfl
                exact htnotin hx)
        · intro a ha
          rcases List.mem_append.mp ha with ha' | ha'
          · exact jD a ha'
          · rcases List.mem_singleton.mp ha' with rfl
            exact htdecl
        · intro pre a post hsplit b hbD hbdecl
          have hsplit' : pre ++ a :: post = st2.sorted ++ [t] := hsplit.symm
          rcases append_singleton_split hsplit' with ⟨hpre, hat, _⟩ | ⟨post', _, hsorted⟩
          · rcases hat with rfl
            rcases hpre with rfl
            exact jB b (jDone b hbD hbdecl)
          · exact jE pre a post' hsorted b hbD hbdecl
        · -- MarksMono
          intro a m ha
          have hat : a ≠ t := by
            intro h
            rw [h] at ha
            rw [ha] at hmk
            exact Option.noConfusion hmk
          rw [getMark_cons, if_neg (fun h => hat h.symm)]
          exact jMono a m (by rw [getMark_cons, if_neg (fun h => hat h.symm)]; exact ha)
        · -- NewDone
          intro a ha
          by_cases hat : t = a
          · right
            rw [getMark_cons, if_pos hat]
          · rw [getMark_cons, if_neg hat]
            rcases jNew a (by rw [getMark_cons, if_neg hat]; exact ha) with h' | h'
            · exact Or.inl h'
            · exact Or.inr h'
        · rw [getMark_cons, if_pos rfl]
      · rcases mk with _ | _
        · -- temp: the visit throws
          rw [hmk] at hv
          exact absurd hv (by simp)
        · -- done: returns the state unchanged
          rw [hmk] at hv
          cases hv
          exact ⟨hinv, marksMono_refl st, newDone_refl st, hmk⟩
    refine ⟨visitPart, ?_⟩
    intro ds
    induction ds with
    | nil =>
      intro st st' hinv hr
      simp only [runDeps] at hr
      cases hr
      exact ⟨hinv, marksMono_refl st, newDone_refl st,
        by intro d hd; exact absurd hd (List.not_mem_nil d)⟩
    | cons d rest ihds =>
      intro st st' hinv hr
      simp only [runDeps] at hr
      by_cases hd : decl.contains d = true
      · rw [if_pos hd] at hr
        rcases hvd : visit D decl (fuel + 1) d st with _ | st1
        all_goals rw [hvd] at hr
        · exact absurd hr (by simp)
        rcases visitPart d st st1 ((contains_iff_mem decl d).mp hd) hinv hvd with
          ⟨k1, k2, k3, k4⟩
        rcases ihds st1 st' k1 hr with ⟨m1, m2, m3, m4⟩
        refine ⟨m1, marksMono_trans k2 m2, newDone_trans m2 k3 m3, ?_⟩
        intro e he hedecl
        rcases List.mem_cons.mp he with rfl | he'
        · exact m2 e .done k4
        · exact m4 e he' hedecl
      · rw [if_neg hd] at hr
        rcases ihds st st' hinv hr with ⟨m1, m2, m3, m4⟩
        refine ⟨m1, m2, m3, ?_⟩
        intro e he hedecl
        rcases List.mem_cons.mp he with rfl | he'
        · exact absurd ((contains_iff_mem decl e).mpr hedecl) hd
        · exact m4 e he' hedecl

/-- Soundness of the top-level loop: on success every listed table ends
marked `done`, and the invariant still holds. -/
theorem visitAll_sound (D : String → List String) (decl : List String) (fuel : Nat) :
    ∀ ts st st', (∀ t ∈ ts, t ∈ decl) → TopoInv D decl st → NoTemp st →
      visitAll D decl fuel ts st = .ok st' →
      TopoInv D decl st' ∧ MarksMono st st' ∧ NoTemp st' ∧
        (∀ t ∈ ts, getMark st'.visited t = some .done) := by
  intro ts
  induction ts with
  | nil =>
    intro st st' _ hinv hnt hva
    simp only [visitAll] at hva
    cases hva
    exact ⟨hinv, marksMono_refl st, hnt,
      by intro t ht; exact absurd ht (List.not_mem_nil t)⟩
  | cons t ts ih =>
    intro st st' hts hinv hnt hva
    simp only [visitAll] at hva
    rcases hmk : getMark st.visited t with _ | mk
    · rw [hmk] at hva
      rcases hv : visit D decl fuel t st with _ | st1
      all_goals rw [hv] at hva
      · exact absurd hva (by simp)
      rcases (visit_sound D decl fuel).1 t st st1 (hts t (List.mem_cons_self t ts)) hinv hv
        with ⟨k1, k2, k3, k4⟩
      have hnt1 : NoTemp st1 := by
        intro a hta
        rcases hma : getMark st.visited a with _ | ma
        · rcases k3 a hma with h' | h'
          · rw [hta] at h'
            exact Option.noConfusion h'
          · rw [hta] at h'
            exact absurd (Option.some.inj h') (by simp)
        · have := k2 a ma hma
          rw [hta] at this
          rcases Option.some.inj this
          exact hnt a hma
      rcases ih st1 st' (fun u hu => hts u (List.mem_cons_of_mem t hu)) k1 hnt1 hva with
        ⟨m1, m2, m3, m4⟩
      refine ⟨m1, marksMono_trans k2 m2, m3, ?_⟩
      intro u hu
      rcases List.mem_cons.mp hu with rfl | hu'
      · exact m2 u .done k4
      · exact m4 u hu'
    · rw [hmk] at hva
      have hdone : mk = Mark.done := by
        rcases mk with _ | _
        · exact absurd hmk (hnt t)
        · rfl
      subst hdone
      rcases ih st st' (fun u hu => hts u (List.mem_cons_of_mem t hu)) hinv hnt hva with
        ⟨m1, m2, m3, m4⟩
      refine ⟨m1, m2, m3, ?_⟩
      intro u hu
      rcases List.mem_cons.mp hu with rfl | hu'
      · exact m2 u .done hmk
      · exact m4 u hu'

/-- Soundness of `topoSort`: on success the output lists exactly the declared
names (once each, when they are distinct) and puts every declared dependency
strictly before its dependent. -/
theorem topoSort_sound (names : List String) (D : String → List String) (l : List String)
    (hnodup : names.Nodup)
    (hok : topoSort names D = .ok l) :
    l.Perm names ∧
      (∀ pre a post, l = pre ++ a :: post → ∀ b, b ∈ D a → b ∈ names → b ∈ pre) := by
  unfold topoSort at hok
  rcases hva : visitAll D names (names.length + 1) names ⟨[], []⟩ with _ | st
  all_goals rw [hva] at hok
  · exact absurd hok (by simp)
  cases hok
  have hinv0 : TopoInv D names ⟨[], []⟩ := by
    refine ⟨?_, ?_, List.nodup_nil, ?_, ?_⟩
    · intro a ha; exact absurd ha (List.not_mem_nil a)
    · intro a ha; exact absurd ha (by simp [getMark])
    · intro a ha; exact absurd ha (List.not_mem_nil a)
    · intro pre a post hsplit
      exact absurd hsplit (by simp)
  have hnt0 : NoTemp (⟨[], []⟩ : TopoSt) := by
    intro a ha; exact absurd ha (by simp [getMark])
  rcases visitAll_sound D names (names.length + 1) names ⟨[], []⟩ st
      (fun t ht => ht) hinv0 hnt0 hva with ⟨⟨jA, jB, jC, jD, jE⟩, _, _, jAll⟩
  constructor
  · rw [List.perm_ext_iff_of_nodup jC hnodup]
    intro a
    constructor
    · intro ha; exact jD a ha
    · intro ha; exact jB a (jAll a ha)
  · exact jE


theorem countP_flip {p p' : String → Bool} :
    ∀ (l : List String), l.Nodup → ∀ t ∈ l, p t = true → p' t = false →
      (∀ x ∈ l, x ≠ t → p' x = p x) → l.countP p' + 1 = l.countP p := by
  intro l
  induction l with
  | nil => intro _ t ht; exact absurd ht (List.not_mem_nil t)
  | cons x xs ih =>
    intro hnd t ht hp hp' hagree
    rcases List.mem_cons.mp ht with rfl | ht'
    · rw [List.countP_cons_of_pos p xs hp, List.countP_cons_of_neg p' xs (by rw [hp']; simp)]
      have : xs.countP p' = xs.countP p := by
        apply List.countP_congr
        intro b hb
        have hbt : b ≠ t := fun h => (List.nodup_cons.mp hnd).1 (h ▸ hb)
        rw [hagree b (List.mem_cons_of_mem t hb) hbt]
      rw [this]
    · have hxt : x ≠ t := fun h => (List.nodup_cons.mp hnd).1 (h ▸ ht')
      have hx : p' x = p x := hagree x (List.mem_cons_self x xs) hxt
      have ihx := ih (List.nodup_cons.mp hnd).2 t ht' hp hp'
        (fun b hb hbt => hagree b (List.mem_cons_of_mem x hb) hbt)
      rcases hpx : p x with _ | _
      · rw [List.countP_cons_of_neg p xs (by rw [hpx]; simp),
          List.countP_cons_of_neg p' xs (by rw [hx, hpx]; simp)]
        exact ihx
      · rw [List.countP_cons_of_pos p xs hpx, List.countP_cons_of_pos p' xs (by rw [hx, hpx])]
        omega

/-- Completeness of `visit`/`runDeps` on acyclic graphs: with enough fuel and
no `temp`-marked table outside the current DFS chain, the visit succeeds (it
neither reports a cycle nor runs out of fuel). -/
theorem visit_complete (D : String → List String) (decl : List String)
    (hford : ∀ a, ¬ Relation.TransGen (GEdge D decl) a a) (hnodup : decl.Nodup) :
    ∀ fuel : Nat,
      (∀ t st, t ∈ decl → getMark st.visited t ≠ some .temp →
        (∀ a, getMark st.visited a = some .temp → Relation.ReflTransGen (GEdge D decl) a t) →
        MarksDecl decl st → FreeCount decl st + 1 ≤ fuel →
        ∃ st', visit D decl fuel t st = .ok st' ∧ MarksMono st st' ∧ NewDone st st' ∧
          MarksDecl decl st') ∧
      (∀ ds st t, (∀ d ∈ ds, d ∈ D t) → getMark st.visited t = some .temp →
        (∀ a, getMark st.visited a = some .temp → Relation.ReflTransGen (GEdge D decl) a t) →
        MarksDecl decl st → FreeCount decl st + 1 ≤ fuel →
        ∃ st', runDeps decl (visit D decl fuel) ds st = .ok st' ∧ MarksMono st st' ∧
          NewDone st st' ∧ MarksDecl decl st') := by
  intro fuel
  induction fuel with
  | zero =>
    constructor
    · intro t st _ _ _ _ hfuel
      exact absurd hfuel (by omega)
    · intro ds st t _ _ _ _ hfuel
      exact absurd hfuel (by omega)
  | succ fuel ih =>
    have visitPart : ∀ t st, t ∈ decl → getMark st.visited t ≠ some .temp →
        (∀ a, getMark st.visited a = some .temp → Relation.ReflTransGen (GEdge D decl) a t) →
        MarksDecl decl st → FreeCount decl st + 1 ≤ fuel + 1 →
        ∃ st', visit D decl (fuel + 1) t st = .ok st' ∧ MarksMono st st' ∧ NewDone st st' ∧
          MarksDecl decl st' := by
      intro t st htdecl hnottemp hreach hmd hfuel
      rcases hmk : getMark st.visited t with _ | mk
      · -- unmarked
        have hfree1 : FreeCount decl ⟨(t, .temp) :: st.visited, st.sorted⟩ + 1 =
            FreeCount decl st := by
          apply countP_flip decl hnodup t htdecl
          · rw [hmk]; rfl
          · rw [getMark_cons, if_pos rfl]; rfl
          · intro x _ hxt
            rw [getMark_cons, if_neg (fun h => hxt h.symm)]
        have hreach1 : ∀ a, getMark ((t, Mark.temp) :: st.visited) a = some .temp →
            Relation.ReflTransGen (GEdge D decl) a t := by
          intro a ha
          by_cases hat : t = a
          · rcases hat
            exact Relation.ReflTransGen.refl
          · rw [getMark_cons, if_neg hat] at ha
            exact hreach a ha
        have hmd1 : MarksDecl decl ⟨(t, .temp) :: st.visited, st.sorted⟩ := by
          intro a m ha
          by_cases hat : t = a
          · rcases hat
            exact htdecl
          · rw [getMark_cons, if_neg hat] at ha
            exact hmd a m ha
        rcases ih.2 (D t) ⟨(t, .temp) :: st.visited, st.sorted⟩ t
            (fun d hd => hd)
            (by rw [getMark_cons, if_pos rfl])
            hreach1 hmd1 (by omega) with ⟨st2, hrun, jMono, jNew, jMD⟩
        refine ⟨⟨(t, .done) :: st2.visited, st2.sorted ++ [t]⟩, ?_, ?_, ?_, ?_⟩
        · simp only [visit]
          rw [hmk, hrun]
        · intro a m ha
          have hat : a ≠ t := by
            intro h
            rw [h] at ha
            rw [ha] at hmk
            exact Option.noConfusion hmk
          rw [getMark_cons, if_neg (fun h => hat h.symm)]
          exact jMono a m (by rw [getMark_cons, if_neg (fun h => hat h.symm)]; exact ha)
        · intro a ha
          by_cases hat : t = a
          · right
            rw [getMark_cons, if_pos hat]
          · rw [getMark_cons, if_neg hat]
            exact jNew a (by rw [getMark_cons, if_neg hat]; exact ha)
        · intro a m ha
          by_cases hat : t = a
          · rcases hat
            exact htdecl
          · rw [getMark_cons, if_neg hat] at ha
            exact jMD a m ha
      · rcases mk with _ | _
        · exact absurd hmk hnottemp
        · refine ⟨st, ?_, marksMono_refl st, newDone_refl st, hmd⟩
          simp only [visit]
          rw [hmk]
    refine ⟨visitPart, ?_⟩
    intro ds
    induction ds with
    | nil =>
      intro st t _ _ _ hmd _
      exact ⟨st, rfl, marksMono_refl st, newDone_refl st, hmd⟩
    | cons d rest ihds =>
      intro st t hds htemp hreach hmd hfuel
      by_cases hddecl : decl.contains d = true
      · have hdmem : d ∈ decl := (contains_iff_mem decl d).mp hddecl
        have hedge : GEdge D decl t d := ⟨hds d (List.mem_cons_self d rest), hdmem⟩
        have hdnottemp : getMark st.visited d ≠ some .temp := by
          intro hdt
          exact hford d (Relation.TransGen.tail' (hreach d hdt) hedge)
        have hreachd : ∀ a, getMark st.visited a = some .temp →
            Relation.ReflTransGen (GEdge D decl) a d := by
          intro a ha
          exact Relation.ReflTransGen.tail (hreach a ha) hedge
        rcases visitPart d st hdmem hdnottemp hreachd hmd hfuel with
          ⟨st1, hv, k2, k3, k4⟩
        have htemp1 : getMark st1.visited t = some .temp := k2 t .temp htemp
        have hreach1 : ∀ a, getMark st1.visited a = some .temp →
            Relation.ReflTransGen (GEdge D decl) a t := by
          intro a ha
          rcases hma : getMark st.visited a with _ | ma
          · rcases k3 a hma with h' | h'
            · rw [ha] at h'
              exact absurd h'.symm (Option.noConfusion)
            · rw [ha] at h'
              exact absurd (Option.some.inj h') (by simp)
          · have := k2 a ma hma
            rw [ha] at this
            rcases Option.some.inj this with rfl
            exact hreach a hma
        have hfree1 : FreeCount decl st1 ≤ FreeCount decl st := by
          apply List.countP_mono_left
          intro x _ hx
          rcases hmx : getMark st.visited x with _ | mx
          · rfl
          · have := k2 x mx hmx
            simp only [Option.isNone] at hx
            rw [this] at hx
            exact absurd hx (by simp)
        rcases ihds st1 t (fun e he => hds e (List.mem_cons_of_mem d he)) htemp1 hreach1 k4
            (by omega) with ⟨st', hrest, m2, m3, m4⟩
        refine ⟨st', ?_, marksMono_trans k2 m2, newDone_trans m2 k3 m3, m4⟩
        simp only [runDeps]
        rw [if_pos hddecl, hv]
        exact hrest
      · rcases ihds st t (fun e he => hds e (List.mem_cons_of_mem d he)) htemp hreach hmd
            hfuel with ⟨st', hrest, m2, m3, m4⟩
        refine ⟨st', ?_, m2, m3, m4⟩
        simp only [runDeps]
        rw [if_neg hddecl]
        exact hrest

/-- Completeness of the top-level loop on acyclic graphs. -/
theorem visitAll_complete (D : String → List String) (decl : List String)
    (hford : ∀ a, ¬ Relation.TransGen (GEdge D decl) a a) (hnodup : decl.Nodup)
    (fuel : Nat) :
    ∀ ts st, (∀ t ∈ ts, t ∈ decl) → NoTemp st → MarksDecl decl st →
      FreeCount decl st + 1 ≤ fuel →
      ∃ st', visitAll D decl fuel ts st = .ok st' := by
  intro ts
  induction ts with
  | nil =>
    intro st _ _ _ _
    exact ⟨st, rfl⟩
  | cons t ts ih =>
    intro st hts hnt hmd hfuel
    rcases hmk : getMark st.visited t with _ | mk
    · rcases (visit_complete D decl hford hnodup fuel).1 t st
          (hts t (List.mem_cons_self t ts))
          (by rw [hmk]; exact fun h => Option.noConfusion h)
          (fun a ha => absurd ha (hnt a)) hmd hfuel with ⟨st1, hv, k2, k3, k4⟩
      have hnt1 : NoTemp st1 := by
        intro a ha
        rcases hma : getMark st.visited a with _ | ma
        · rcases k3 a hma with h' | h'
          · rw [ha] at h'
            exact Option.noConfusion h'
          · rw [ha] at h'
            exact absurd (Option.some.inj h') (by simp)
        · have := k2 a ma hma
          rw [ha] at this
          rcases Option.some.inj this with rfl
          exact hnt a hma
      have hfree1 : FreeCount decl st1 ≤ FreeCount decl st := by
        apply List.countP_mono_left
        intro x _ hx
        rcases hmx : getMark st.visited x with _ | mx
        · rfl
        · have := k2 x mx hmx
          simp only [Option.isNone] at hx
          rw [this] at hx
          exact absurd hx (by simp)
      rcases ih st1 (fun u hu => hts u (List.mem_cons_of_mem t hu)) hnt1 k4 (by omega) with
        ⟨st', hrest⟩
      refine ⟨st', ?_⟩
      simp only [visitAll]
      rw [hmk, hv]
      exact hrest
    · rcases ih st (fun u hu => hts u (List.mem_cons_of_mem t hu)) hnt hmd hfuel with
        ⟨st', hrest⟩
      refine ⟨st', ?_⟩
      simp only [visitAll]
      rw [hmk]
      exact hrest

/-- On an acyclic declared graph `topoSort` succeeds. -/
theorem topoSort_complete (names : List String) (D : String → List String)
    (hford : ∀ a, ¬ Relation.TransGen (GEdge D names) a a) (hnodup : names.Nodup) :
    ∃ l, topoSort names D = .ok l := by
  have hmd0 : MarksDecl names ⟨[], []⟩ := by
    intro a m ha
    exact absurd ha (by simp [getMark])
  have hnt0 : NoTemp (⟨[], []⟩ : TopoSt) := by
    intro a ha
    exact absurd ha (by simp [getMark])
  have hfree0 : FreeCount names ⟨[], []⟩ + 1 ≤ names.length + 1 := by
    have h := @List.countP_le_length _
      (fun x => (getMark (⟨[], []⟩ : TopoSt).visited x).isNone) names
    unfold FreeCount
    omega
  rcases visitAll_complete D names hford hnodup (names.length + 1) names ⟨[], []⟩
      (fun t ht => ht) hnt0 hmd0 hfree0 with ⟨st, hva⟩
  refine ⟨st.sorted, ?_⟩
  unfold topoSort
  rw [hva]

theorem rolesUsers_edge (a b : String) (h : DepEdge rolesUsersPending a b) :
    a = "users" ∧ b = "roles" := by
  obtain ⟨hb, _⟩ := h
  by_cases ha1 : a = "users"
  · subst ha1
    have hd : depsFor rolesUsersPending "users" = ["roles"] := rfl
    rw [hd] at hb
    rcases List.mem_singleton.mp hb with rfl
    exact ⟨rfl, rfl⟩
  · by_cases ha2 : a = "roles"
    · subst ha2
      have hd : depsFor rolesUsersPending "roles" = [] := rfl
      rw [hd] at hb
      exact absurd hb (List.not_mem_nil b)
    · have hnone : depsFor rolesUsersPending a = [] := by
        unfold depsFor
        have e1 : rolesUsersPending.reverse.find? (fun m => m.name == a) = none := by
          apply List.find?_eq_none.mpr
          intro m hm
          have hm' : m ∈ rolesUsersPending := List.mem_reverse.mp hm
          rcases List.mem_cons.mp hm' with rfl | hm2
          · simp only [beq_eq_false_iff_ne.mpr (fun h => ha1 h.symm)]
            exact Bool.false_ne_true
          · rcases List.mem_cons.mp hm2 with rfl | hm3
            · simp only [beq_eq_false_iff_ne.mpr (fun h => ha2 h.symm)]
              exact Bool.false_ne_true
            · exact absurd hm3 (List.not_mem_nil m)
        rw [e1]
      rw [hnone] at hb
      exact absurd hb (List.not_mem_nil b)

theorem rolesUsersAcyclic : AcyclicDeps rolesUsersPending := by
  intro x hx
  rcases Relation.TransGen.head'_iff.mp hx with ⟨c, hxc, hcx⟩
  rcases rolesUsers_edge x c hxc with ⟨rfl, rfl⟩
  rcases Relation.ReflTransGen.cases_head hcx with heq | ⟨d, hrd, _⟩
  · exact absurd heq (by decide)
  · rcases rolesUsers_edge "roles" d hrd with ⟨h, _⟩
    exact absurd h (by decide)

/-- C3: for declared schemas with distinct names whose declared foreign-key
graph is acyclic, the computed creation order succeeds and contains each
declared table exactly once (it is a permutation of the registration-order
name list), places every declared referenced table strictly before its
referencing table (references to non-declared tables impose no constraint:
only `DepEdge`-edges, which require the target to be declared, are
considered), and is a deterministic function of the registration list; a
cyclic two-table graph instead fails with the cyclic-dependency error. -/
theorem computeOrder_topological_order (pending : List Mdl)
    (hnodup : (pending.map (fun m => m.name)).Nodup)
    (hacyc : AcyclicDeps pending) :
    (∃ l, computeOrder pending = .ok l ∧
      l.Perm (pending.map (fun m => m.name)) ∧
      (∀ pre a post, l = pre ++ a :: post →
        ∀ b, b ∈ depsFor pending a → b ∈ pending.map (fun m => m.name) → b ∈ pre)) ∧
    (∀ q, q = pending → computeOrder q = computeOrder pending) ∧
    computeOrder cyclicPendingExample =
      .error "Cyclic foreign key dependency detected" := by
  refine ⟨?_, ?_, rfl⟩
  · have hford : ∀ a,
        ¬ Relation.TransGen (GEdge (depsFor pending) (pending.map (fun m => m.name))) a a :=
      hacyc
    rcases topoSort_complete (pending.map (fun m => m.name)) (depsFor pending) hford hnodup
      with ⟨l, hok⟩
    rcases topoSort_sound (pending.map (fun m => m.name)) (depsFor pending) l hnodup hok
      with ⟨hperm, horder⟩
    exact ⟨l, hok, hperm, horder⟩
  · intro q hq
    rw [hq]

/-- Witness for C3 at the `roles`/`users` example (acyclic, two tables, one
foreign key from `users` to `roles`). -/
theorem computeOrder_topological_order_witness :
    ∃ l, computeOrder rolesUsersPending = .ok l ∧
      l.Perm (rolesUsersPending.map (fun m => m.name)) ∧
      (∀ pre a post, l = pre ++ a :: post →
        ∀ b, b ∈ depsFor rolesUsersPending a →
          b ∈ rolesUsersPending.map (fun m => m.name) → b ∈ pre) :=
  (computeOrder_topological_order rolesUsersPending (by decide) rolesUsersAcyclic).1

theorem isPrefixOf_append_cancel (l : List Char) (a b : List Char) :
    (l ++ a).isPrefixOf (l ++ b) = a.isPrefixOf b := by
  induction l with
  | nil => rfl
  | cons c cs ih =>
    simp only [List.cons_append, List.isPrefixOf, beq_self_eq_true, Bool.true_and]
    exact ih

theorem strStarts_self_append (p x : String) : strStarts p (p ++ x) = true := by
  unfold strStarts
  rw [data_append]
  have h := isPrefixOf_append_cancel p.data [] x.data
  rw [List.append_nil] at h
  rw [h]
  simp [List.isPrefixOf_iff_prefix]

theorem strStarts_mono (a b s : String) (h : strStarts (a ++ b) s = true) :
    strStarts a s = true := by
  unfold strStarts at h ⊢
  rw [List.isPrefixOf_iff_prefix] at h ⊢
  rw [data_append] at h
  exact (List.prefix_append a.data b.data).trans h

theorem opClass_none_of_not_alter (t s : String)
    (h : strStarts "ALTER TABLE \x60" s = false) : opClass t (Ev.query s) = none := by
  have h0 : ∀ x : String, strStarts ("ALTER TABLE \x60" ++ x) s = false := by
    intro x
    rcases hq : strStarts ("ALTER TABLE \x60" ++ x) s
    · rfl
    · rw [strStarts_mono _ _ _ hq] at h
      exact absurd h (by simp)
  simp only [opClass, alterModifyPrefix, alterChangePrefix, alterAddPrefix, alterDropPrefix,
    h0, Bool.false_eq_true, if_false]

theorem claimClass_none_of_not_alter (t s : String)
    (h : strStarts "ALTER TABLE \x60" s = false) : claimClass t (Ev.query s) = none := by
  have h0 : ∀ x : String, strStarts ("ALTER TABLE \x60" ++ x) s = false := by
    intro x
    rcases hq : strStarts ("ALTER TABLE \x60" ++ x) s
    · rfl
    · rw [strStarts_mono _ _ _ hq] at h
      exact absurd h (by simp)
  simp only [claimClass, alterModifyPrefix, alterChangePrefix, alterAddPrefix, alterDropPrefix,
    h0, Bool.false_eq_true, if_false]

theorem opClass_modifyStmt (t c : String) :
    opClass t (Ev.query (modifyStmt t c)) = some 0 := by
  simp only [opClass, modifyStmt, strStarts_self_append, if_true]

theorem strStarts_modify_change (t x : String) :
    strStarts (alterModifyPrefix t) (alterChangePrefix t ++ x) = false := by
  unfold strStarts alterModifyPrefix alterChangePrefix
  simp only [data_append, List.append_assoc]
  rw [isPrefixOf_append_cancel, isPrefixOf_append_cancel]
  rfl

theorem opClass_changeStmt (t o n c : String) :
    opClass t (Ev.query (changeStmt t o n c)) = some 1 := by
  have h1 := strStarts_modify_change t
    ("\x60" ++ (o ++ ("\x60 \x60" ++ (n ++ ("\x60 " ++ c)))))
  simp only [opClass, changeStmt, h1, Bool.false_eq_true, if_false,
    strStarts_self_append, if_true]

theorem strStarts_modify_add (t x : String) :
    strStarts (alterModifyPrefix t) (alterAddPrefix t ++ x) = false := by
  unfold strStarts alterModifyPrefix alterAddPrefix
  simp only [data_append, List.append_assoc]
  rw [isPrefixOf_append_cancel, isPrefixOf_append_cancel]
  rfl

theorem strStarts_change_add (t x : String) :
    strStarts (alterChangePrefix t) (alterAddPrefix t ++ x) = false := by
  unfold strStarts alterChangePrefix alterAddPrefix
  simp only [data_append, List.append_assoc]
  rw [isPrefixOf_append_cancel, isPrefixOf_append_cancel]
  rfl

theorem opClass_addStmt (t n c : String) :
    opClass t (Ev.query (addStmt t n c)) = some 2 := by
  have h1 := strStarts_modify_add t ("\x60" ++ (n ++ ("\x60 " ++ c)))
  have h2 := strStarts_change_add t ("\x60" ++ (n ++ ("\x60 " ++ c)))
  simp only [opClass, addStmt, h1, h2, Bool.false_eq_true, if_false,
    strStarts_self_append, if_true]

theorem strStarts_modify_drop (t x : String) :
    strStarts (alterModifyPrefix t) (alterDropPrefix t ++ x) = false := by
  unfold strStarts alterModifyPrefix alterDropPrefix
  simp only [data_append, List.append_assoc]
  rw [isPrefixOf_append_cancel, isPrefixOf_append_cancel]
  rfl

theorem strStarts_change_drop (t x : String) :
    strStarts (alterChangePrefix t) (alterDropPrefix t ++ x) = false := by
  unfold strStarts alterChangePrefix alterDropPrefix
  simp only [data_append, List.append_assoc]
  rw [isPrefixOf_append_cancel, isPrefixOf_append_cancel]
  rfl

theorem strStarts_add_drop (t x : String) :
    strStarts (alterAddPrefix t) (alterDropPrefix t ++ x) = false := by
  unfold strStarts alterAddPrefix alterDropPrefix
  simp only [data_append, List.append_assoc]
  rw [isPrefixOf_append_cancel, isPrefixOf_append_cancel]
  rfl

theorem opClass_dropStmt (t col : String) :
    opClass t (Ev.query (dropStmt t col)) = some 3 := by
  have h1 := strStarts_modify_drop t ("\x60" ++ (col ++ "\x60"))
  have h2 := strStarts_change_drop t ("\x60" ++ (col ++ "\x60"))
  have h3 := strStarts_add_drop t ("\x60" ++ (col ++ "\x60"))
  simp only [opClass, dropStmt, h1, h2, h3, Bool.false_eq_true, if_false,
    strStarts_self_append, if_true]

theorem opClass_log (t msg : String) : opClass t (Ev.log msg) = none := rfl
theorem opClass_err (t msg : String) : opClass t (Ev.err msg) = none := rfl
theorem opClass_queryParam (t s a : String) : opClass t (Ev.queryParam s a) = none := rfl

theorem modifyLoop_class (env : Env) (tname : String) (columns : List LiveCol)
    (existingCols : List String) :
    ∀ (fs : List (String × FieldSpec)) (e : Ev),
      e ∈ (modifyLoop env tname columns existingCols fs).1 →
      opClass tname e = none ∨ opClass tname e = some 0 := by
  intro fs
  induction fs with
  | nil => intro e he; exact absurd he (List.not_mem_nil e)
  | cons p rest ih =>
    intro e he
    rcases p with ⟨fieldName, field⟩
    simp only [modifyLoop] at he
    rcases hstep : (if existingCols.contains fieldName then
        match columns.find? (fun col => col.Field == fieldName) with
        | none => (([] : List Ev), Except.error "TypeError: currentCol is undefined")
        | some currentCol =>
          let evIdx := Ev.queryParam
            ("SHOW INDEX FROM \x60" ++ tname ++ "\x60 WHERE Column_name = ?") fieldName
          if needModifyCalc field.toDesc currentCol (env.indexesOf tname fieldName) then
            match getColumnDefinition fieldName field.toDesc with
            | .error e => ([evIdx], Except.error e)
            | .ok newColDef => ([evIdx, Ev.query (modifyStmt tname newColDef)], Except.ok ())
          else ([evIdx], Except.ok ())
      else (([] : List Ev), Except.ok ())) with ⟨evs, r⟩
    have hevs : ∀ e' ∈ evs, opClass tname e' = none ∨ opClass tname e' = some 0 := by
      intro e' he'
      by_cases hc : existingCols.contains fieldName = true
      · rw [if_pos hc] at hstep
        rcases hfind : columns.find? (fun col => col.Field == fieldName) with _ | currentCol
        · rw [hfind] at hstep
          cases hstep
          exact absurd he' (List.not_mem_nil e')
        · rw [hfind] at hstep
          simp only at hstep
          by_cases hnm : needModifyCalc field.toDesc currentCol
              (env.indexesOf tname fieldName) = true
          · rw [if_pos hnm] at hstep
            rcases hgcd : getColumnDefinition fieldName field.toDesc with e'' | newColDef
            · rw [hgcd] at hstep
              cases hstep
              rcases List.mem_singleton.mp he' with rfl
              exact Or.inl (opClass_queryParam _ _ _)
            · rw [hgcd] at hstep
              cases hstep
              rcases List.mem_cons.mp he' with rfl | he''
              · exact Or.inl (opClass_queryParam _ _ _)
              · rcases List.mem_singleton.mp he'' with rfl
                exact Or.inr (opClass_modifyStmt tname newColDef)
          · rw [if_neg hnm] at hstep
            cases hstep
            rcases List.mem_singleton.mp he' with rfl
            exact Or.inl (opClass_queryParam _ _ _)
      · rw [if_neg hc] at hstep
        cases hstep
        exact absurd he' (List.not_mem_nil e')
    rw [hstep] at he
    rcases hr : r with e'' | u
    · rw [hr] at he
      simp only at he
      exact hevs e he
    · rw [hr] at he
      simp only at he
      rcases List.mem_append.mp he with he' | he'
      · rcases List.mem_append.mp he' with he2 | he2
        · exact hevs e he2
        · rcases hw : oldNameTruthy field.toDesc with _ | o
          all_goals rw [hw] at he2
          · exact absurd he2 (List.not_mem_nil e)
          · rcases List.mem_singleton.mp he2 with rfl
            exact Or.inl (opClass_log _ _)
      · exact ih e he'

theorem renameLoop_class (tname : String) :
    ∀ (fs : List (String × FieldSpec)) (cols : List String) (e : Ev),
      e ∈ (renameLoop tname fs cols).1 →
      opClass tname e = none ∨ opClass tname e = some 1 := by
  intro fs
  induction fs with
  | nil => intro cols e he; exact absurd he (List.not_mem_nil e)
  | cons p rest ih =>
    intro cols e he
    rcases p with ⟨fieldName, field⟩
    simp only [renameLoop] at he
    rcases hw : oldNameTruthy field.toDesc with _ | old
    all_goals rw [hw] at he
    all_goals simp only at he
    · exact ih cols e he
    · by_cases hcond : (cols.contains old && !(cols.contains fieldName)) = true
      · rw [if_pos hcond] at he
        rcases hgcd : getColumnDefinition fieldName field.toDesc with e'' | colDef
        all_goals rw [hgcd] at he
        · exact absurd he (List.not_mem_nil e)
        · rcases hrest : renameLoop tname rest (cols.map (fun c => if c == old then fieldName else c))
            with ⟨evRest, r⟩
          rw [hrest] at he
          simp only at he
          rcases List.mem_cons.mp he with rfl | he'
          · exact Or.inr (opClass_changeStmt tname old fieldName colDef)
          · rcases List.mem_cons.mp he' with rfl | he''
            · exact Or.inl (opClass_log _ _)
            · have := ih (cols.map (fun c => if c == old then fieldName else c)) e
              rw [hrest] at this
              exact this he''
      · rw [if_neg hcond] at he
        exact ih cols e he

theorem addLoop_class (tname : String) :
    ∀ (fs : List (String × FieldSpec)) (cols : List String) (e : Ev),
      e ∈ (addLoop tname fs cols).1 →
      opClass tname e = none ∨ opClass tname e = some 2 := by
  intro fs
  induction fs with
  | nil => intro cols e he; exact absurd he (List.not_mem_nil e)
  | cons p rest ih =>
    intro cols e he
    rcases p with ⟨fieldName, field⟩
    simp only [addLoop] at he
    by_cases hcond : (!(cols.contains fieldName)) = true
    · rw [if_pos hcond] at he
      rcases hgcd : getColumnDefinition fieldName field.toDesc with e'' | colDef
      all_goals rw [hgcd] at he
      · exact absurd he (List.not_mem_nil e)
      · rcases hrest : addLoop tname rest (cols ++ [fieldName]) with ⟨evRest, r⟩
        rw [hrest] at he
        simp only at he
        rcases List.mem_cons.mp he with rfl | he'
        · exact Or.inr (opClass_addStmt tname fieldName colDef)
        · rcases List.mem_cons.mp he' with rfl | he''
          · exact Or.inl (opClass_log _ _)
          · have := ih (cols ++ [fieldName]) e
            rw [hrest] at this
            exact this he''
    · rw [if_neg hcond] at he
      exact ih cols e he

theorem dropLoop_class (tname : String) (schemaKeys : List String) :
    ∀ (cols : List String) (e : Ev),
      e ∈ dropLoop tname schemaKeys cols →
      opClass tname e = none ∨ opClass tname e = some 3 := by
  intro cols
  induction cols with
  | nil => intro e he; exact absurd he (List.not_mem_nil e)
  | cons col rest ih =>
    intro e he
    simp only [dropLoop] at he
    rcases List.mem_append.mp he with he' | he'
    · by_cases hcond : (!(schemaKeys.contains col)) = true
      · rw [if_pos hcond] at he'
        rcases List.mem_cons.mp he' with rfl | he''
        · exact Or.inr (opClass_dropStmt tname col)
        · rcases List.mem_singleton.mp he'' with rfl
          exact Or.inl (opClass_log _ _)
      · rw [if_neg hcond] at he'
        exact absurd he' (List.not_mem_nil e)
    · exact ih e he'

theorem restorePhase_class (env : Env) (tname : String)
    (hreplay : ∀ f, opClass tname (Ev.query (env.fileContent f)) = none) :
    ∀ e ∈ restorePhase env tname, opClass tname e = none := by
  intro e he
  simp only [restorePhase] at he
  rcases hsel : selectBackup env.backupFiles tname with _ | latestBackup
  all_goals rw [hsel] at he
  · exact absurd he (List.not_mem_nil e)
  · simp only at he
    rcases List.mem_append.mp he with he' | he'
    · rcases List.mem_append.mp he' with he2 | he2
      · rcases List.mem_append.mp he2 with he3 | he3
        · rcases List.mem_singleton.mp he3 with rfl
          rfl
        · by_cases hans : (jsLower (jsTrim (env.restoreAnswer tname)) == "y") = true
          · rw [if_pos hans] at he3
            rcases List.mem_cons.mp he3 with rfl | he4
            · exact hreplay latestBackup
            · by_cases hrf : env.replayFails latestBackup = true
              · rw [if_pos hrf] at he4
                rcases List.mem_singleton.mp he4 with rfl
                rfl
              · rw [if_neg hrf] at he4
                rcases List.mem_singleton.mp he4 with rfl
                rfl
          · rw [if_neg hans] at he3
            exact absurd he3 (List.not_mem_nil e)
      · rcases List.mem_singleton.mp he2 with rfl
        rfl
    · by_cases hans : (jsLower (jsTrim (env.deleteAnswer tname)) == "y") = true
      · rw [if_pos hans] at he'
        rcases List.mem_cons.mp he' with rfl | he2
        · rfl
        · rcases List.mem_singleton.mp he2 with rfl
          rfl
      · rw [if_neg hans] at he'
        rcases List.mem_cons.mp he' with rfl | he2
        · rfl
        · rcases List.mem_singleton.mp he2 with rfl
          rfl

theorem sorted_const {c : Nat} : ∀ {l : List Nat}, (∀ x ∈ l, x = c) → l.Sorted (· ≤ ·) := by
  intro l
  induction l with
  | nil => intro _; exact List.sorted_nil
  | cons a l ih =>
    intro h
    rw [List.sorted_cons]
    constructor
    · intro b hb
      rw [h a (List.mem_cons_self a l), h b (List.mem_cons_of_mem a hb)]
    · exact ih (fun x hx => h x (List.mem_cons_of_mem a hx))

theorem sorted_bounded_append {l1 l2 : List Nat} (h1 : l1.Sorted (· ≤ ·))
    (h2 : l2.Sorted (· ≤ ·)) (hx : ∀ x ∈ l1, ∀ y ∈ l2, x ≤ y) :
    (l1 ++ l2).Sorted (· ≤ ·) :=
  List.pairwise_append.mpr ⟨h1, h2, hx⟩

theorem filterMap_none {rank : Ev → Option Nat} {t : List Ev}
    (h : ∀ e ∈ t, rank e = none) : t.filterMap rank = [] := by
  induction t with
  | nil => rfl
  | cons e t ih =>
    rw [List.filterMap_cons, h e (List.mem_cons_self e t)]
    exact ih (fun x hx => h x (List.mem_cons_of_mem e hx))

theorem filterMap_bound {rank : Ev → Option Nat} {t : List Ev} {c : Nat}
    (h : ∀ e ∈ t, rank e = none ∨ rank e = some c) :
    ∀ x ∈ t.filterMap rank, x = c := by
  intro x hx
  rcases List.mem_filterMap.mp hx with ⟨e, he, hre⟩
  rcases h e he with h' | h'
  · rw [h'] at hre
    exact Option.noConfusion hre
  · rw [h'] at hre
    exact (Option.some.inj hre).symm

theorem sorted_op_segments {rank : Ev → Option Nat} {t1 t2 t3 t4 t5 t6 t7 : List Ev}
    (h1 : ∀ e ∈ t1, rank e = none) (h2 : ∀ e ∈ t2, rank e = none)
    (h3 : ∀ e ∈ t3, rank e = none)
    (h4 : ∀ e ∈ t4, rank e = none ∨ rank e = some 0)
    (h5 : ∀ e ∈ t5, rank e = none ∨ rank e = some 1)
    (h6 : ∀ e ∈ t6, rank e = none ∨ rank e = some 2)
    (h7 : ∀ e ∈ t7, rank e = none ∨ rank e = some 3) :
    ((t1 ++ t2 ++ t3 ++ t4 ++ t5 ++ t6 ++ t7).filterMap rank).Sorted (· ≤ ·) := by
  simp only [List.filterMap_append]
  rw [filterMap_none h1, filterMap_none h2, filterMap_none h3]
  simp only [List.nil_append]
  have b4 := filterMap_bound h4
  have b5 := filterMap_bound h5
  have b6 := filterMap_bound h6
  have b7 := filterMap_bound h7
  refine sorted_bounded_append (sorted_bounded_append
    (sorted_bounded_append (sorted_const b4) (sorted_const b5) ?_)
    (sorted_const b6) ?_) (sorted_const b7) ?_
  · intro x hx y hy
    rw [b4 x hx, b5 y hy]
    omega
  · intro x hx y hy
    rw [b6 y hy]
    rcases List.mem_append.mp hx with hx' | hx'
    · rw [b4 x hx']; omega
    · rw [b5 x hx']; omega
  · intro x hx y hy
    rw [b7 y hy]
    rcases List.mem_append.mp hx with hx' | hx'
    · rcases List.mem_append.mp hx' with hx2 | hx2
      · rw [b4 x hx2]; omega
      · rw [b5 x hx2]; omega
    · rw [b6 x hx']; omega

theorem generateCreate_ok_shape (name : String) (schema : List (String × FieldSpec))
    (s : String) (h : generateCreateTableStatement name schema = .ok (some s)) :
    ∃ r, s = "CREATE TABLE IF NOT EXISTS " ++ r := by
  unfold generateCreateTableStatement at h
  rcases hcols : columnsOfSchema schema with e | columns
  all_goals rw [hcols] at h
  · exact absurd h (by simp)
  · simp only at h
    by_cases hres : ifReservedKeywords name = true
    · rw [if_pos hres] at h
      exact absurd (Except.ok.inj h) (by simp)
    · rw [if_neg hres] at h
      exact ⟨_, (Option.some.inj (Except.ok.inj h)).symm⟩

/-- C1 (amended): within one table's synchronization, every `MODIFY COLUMN`
precedes every rename (`CHANGE COLUMN`), every rename precedes every
`ADD COLUMN`, and every add precedes every `DROP COLUMN`; in particular a
drop is never issued before a modify, rename or add of the same pass.  (The
source runs its modify loop *before* the rename/add/drop steps, so the
claimed rename→add→modify→drop order does not hold; see the counterexample.)
The side condition keeps replayed backup-file contents out of the way of the
statement classifier. -/
theorem syncTable_operation_order (env : Env) (dangerousSync : Bool) (m : Mdl)
    (hreplay : ∀ f, opClass m.name (Ev.query (env.fileContent f)) = none) :
    OrderedOps (opClass m.name) (syncTable env dangerousSync m).1 := by
  unfold OrderedOps syncTable
  rcases hgen : generateCreateTableStatement m.name m.schemaDict with e | os
  · exact List.sorted_nil
  rcases os with _ | stmt
  · exact List.sorted_nil
  simp only
  have hcreate : ∀ e ∈ [Ev.query stmt,
      Ev.log ("La table " ++ m.name ++ " a été créée ou existe déjà")],
      opClass m.name e = none := by
    intro e he
    rcases List.mem_cons.mp he with rfl | he'
    · rcases generateCreate_ok_shape m.name m.schemaDict stmt hgen with ⟨r, hr⟩
      subst hr
      exact opClass_none_of_not_alter m.name _ rfl
    · rcases List.mem_singleton.mp he' with rfl
      rfl
  have hshow : ∀ e ∈ [Ev.query ("SHOW COLUMNS FROM \x60" ++ m.name ++ "\x60")],
      opClass m.name e = none := by
    intro e he
    rcases List.mem_singleton.mp he with rfl
    exact opClass_none_of_not_alter m.name _ rfl
  rcases hmod : modifyLoop env m.name (env.columnsOf m.name)
      ((env.columnsOf m.name).map (fun col => col.Field)) m.schemaDict with ⟨evMod, rMod⟩
  rw [hmod]
  have hmodC : ∀ e ∈ evMod, opClass m.name e = none ∨ opClass m.name e = some 0 := by
    intro e he
    have := modifyLoop_class env m.name (env.columnsOf m.name)
      ((env.columnsOf m.name).map (fun col => col.Field)) m.schemaDict e
    rw [hmod] at this
    exact this he
  rcases rMod with eM | u
  · -- pass aborted in the modify loop
    simp only
    have hres := sorted_op_segments hcreate (restorePhase_class env m.name hreplay) hshow hmodC
      (by intro e he; exact absurd he (List.not_mem_nil e))
      (by intro e he; exact absurd he (List.not_mem_nil e))
      (by intro e he; exact absurd he (List.not_mem_nil e))
    simpa using hres
  rcases u
  simp only
  rcases hren : renameLoop m.name m.schemaDict
      ((env.columnsOf m.name).map (fun col => col.Field)) with ⟨evRen, rRen⟩
  rw [hren]
  have hrenC : ∀ e ∈ evRen, opClass m.name e = none ∨ opClass m.name e = some 1 := by
    intro e he
    have := renameLoop_class m.name m.schemaDict
      ((env.columnsOf m.name).map (fun col => col.Field)) e
    rw [hren] at this
    exact this he
  rcases rRen with eR | cols1
  · simp only
    have hres := sorted_op_segments hcreate (restorePhase_class env m.name hreplay) hshow hmodC
      hrenC
      (by intro e he; exact absurd he (List.not_mem_nil e))
      (by intro e he; exact absurd he (List.not_mem_nil e))
    simpa using hres
  simp only
  rcases hadd : addLoop m.name m.schemaDict cols1 with ⟨evAdd, rAdd⟩
  have haddC : ∀ e ∈ evAdd, opClass m.name e = none ∨ opClass m.name e = some 2 := by
    intro e he
    have := addLoop_class m.name m.schemaDict cols1 e
    rw [hadd] at this
    exact this he
  rcases rAdd with eA | cols2
  · simp only
    have hres := sorted_op_segments hcreate (restorePhase_class env m.name hreplay) hshow hmodC
      hrenC haddC (by intro e he; exact absurd he (List.not_mem_nil e))
    simpa using hres
  simp only
  have hdropC : ∀ e ∈ (if dangerousSync then
        dropLoop m.name (m.schemaDict.map (fun p => p.1)) cols2 else []),
      opClass m.name e = none ∨ opClass m.name e = some 3 := by
    intro e he
    rcases hd : dangerousSync
    · rw [hd, if_neg (by simp)] at he
      exact absurd he (List.not_mem_nil e)
    · rw [hd, if_pos rfl] at he
      exact dropLoop_class m.name (m.schemaDict.map (fun p => p.1)) cols2 e he
  exact sorted_op_segments hcreate (restorePhase_class env m.name hreplay) hshow hmodC hrenC
    haddC hdropC

/-- Witness for the amended C1 theorem: the ordering holds on a concrete pass
that issues both a modify and an add. -/
theorem syncTable_operation_order_witness :
    OrderedOps (opClass "t") (syncTable c1Env false c1Mdl).1 :=
  syncTable_operation_order c1Env false c1Mdl (fun _ => rfl)

/-- C1, counterexample: on a table whose live column `a` must be modified and
whose declared column `b` must be added, the pass issues the
`MODIFY COLUMN` **before** the `ADD COLUMN` — under the claimed
rename(0) < add(1) < modify(2) < drop(3) ranking the issued sequence is
`[2, 1]`, which is not ordered — so the claimed "every add precedes every
modify" is false. -/
theorem c1_counterexample_modify_before_add :
    (syncTable c1Env false c1Mdl).1.filterMap (claimClass "t") = [2, 1] ∧
    ¬ OrderedOps (claimClass "t") (syncTable c1Env false c1Mdl).1 := by
  constructor
  · rfl
  · intro h
    have h2 : ([2, 1] : List Nat).Sorted (· ≤ ·) := by
      have h3 : (syncTable c1Env false c1Mdl).1.filterMap (claimClass "t") = [2, 1] := rfl
      rw [← h3]
      exact h
    rcases List.sorted_cons.mp h2 with ⟨hle, _⟩
    exact absurd (hle 1 (List.mem_singleton_self 1)) (by decide)

theorem mem_orphanPhase (env : Env) (declared : List String) :
    ∀ (ts : List String) (t : String) (e : Ev), t ∈ ts → declared.contains t = false →
      e ∈ orphanBackupAndDrop env t → e ∈ orphanPhase env declared ts := by
  intro ts
  induction ts with
  | nil => intro t e ht; exact absurd ht (List.not_mem_nil t)
  | cons u rest ih =>
    intro t e ht hc he
    simp only [orphanPhase]
    rcases List.mem_cons.mp ht with rfl | ht'
    · rw [hc]
      exact List.mem_append.mpr (Or.inl he)
    · exact List.mem_append.mpr (Or.inr (ih t e ht' hc he))

theorem orphanBackupAndDrop_events (env : Env) (t : String)
    (hnb : env.backupFails t = false) :
    (∃ c, Ev.fsWrite (backupPathFor t env.now) c ∈ orphanBackupAndDrop env t) ∧
    Ev.query ("DROP TABLE IF EXISTS \x60" ++ t ++ "\x60") ∈ orphanBackupAndDrop env t := by
  simp only [orphanBackupAndDrop, hnb, Bool.false_eq_true, if_false]
  constructor
  · by_cases hr : (env.rowsOf t).length > 0
    · refine ⟨insertSQLFor env.escape t (env.rowsOf t), ?_⟩
      apply List.mem_append.mpr
      apply Or.inl
      apply List.mem_append.mpr
      apply Or.inr
      rw [if_pos hr]
      exact List.mem_cons_self _ _
    · refine ⟨"", ?_⟩
      apply List.mem_append.mpr
      apply Or.inl
      apply List.mem_append.mpr
      apply Or.inr
      rw [if_neg hr]
      exact List.mem_cons_self _ _
  · apply List.mem_append.mpr
    apply Or.inr
    exact List.mem_cons_of_mem _ (List.mem_cons_self _ _)

/-- C4: a `syncAllTables` call that runs to completion returns an empty
pending-model registry, so a second call made without constructing new models
declares nothing: it succeeds, and its orphan phase writes a backup artifact
for — and issues a `DROP TABLE` against — every table present in the
database (the backup-write part assuming no injected write failure). -/
theorem syncAllTables_empties_registry (env : Env) (dangerousSync : Bool)
    (pending : List Mdl) (tr : List Ev) (res : List Mdl)
    (hok : syncAllTables env dangerousSync pending = (tr, .ok res))
    (hnb : ∀ t, env.backupFails t = false) :
    res = [] ∧
    (syncAllTables env dangerousSync []).2 = .ok [] ∧
    (∀ t ∈ env.dbTables,
      (∃ c, Ev.fsWrite (backupPathFor t env.now) c ∈ (syncAllTables env dangerousSync []).1) ∧
      Ev.query ("DROP TABLE IF EXISTS \x60" ++ t ++ "\x60") ∈
        (syncAllTables env dangerousSync []).1) := by
  refine ⟨?_, rfl, ?_⟩
  · simp only [syncAllTables] at hok
    rcases htopo : topoSort (pending.map (fun m => m.name)) (depsFor pending) with e | sorted
    all_goals rw [htopo] at hok
    · exact absurd (congrArg Prod.snd hok) (by simp)
    · simp only at hok
      rcases hsync : syncTables env dangerousSync (modelMapOf pending) sorted with ⟨evs, r⟩
      rw [hsync] at hok
      rcases r with e | u
      · exact absurd (congrArg Prod.snd hok) (by simp)
      · rcases u
        have := congrArg Prod.snd hok
        simp only at this
        exact (Except.ok.inj this).symm
  · intro t ht
    have htr : (syncAllTables env dangerousSync []).1 =
        [Ev.query "SHOW TABLES"] ++ orphanPhase env [] env.dbTables ++ [] := rfl
    rw [htr]
    rcases orphanBackupAndDrop_events env t (hnb t) with ⟨⟨c, hw⟩, hd⟩
    constructor
    · exact ⟨c, List.mem_append.mpr (Or.inl (List.mem_append.mpr (Or.inr
        (mem_orphanPhase env [] env.dbTables t _ ht rfl hw))))⟩
    · exact List.mem_append.mpr (Or.inl (List.mem_append.mpr (Or.inr
        (mem_orphanPhase env [] env.dbTables t _ ht rfl hd))))

/-- Witness for C4: one completed pass over a database containing table
`old`, with nothing declared. -/
theorem syncAllTables_empties_registry_witness :
    ([] : List Mdl) = [] ∧
    (syncAllTables c4Env false []).2 = .ok [] ∧
    (∀ t ∈ c4Env.dbTables,
      (∃ c, Ev.fsWrite (backupPathFor t c4Env.now) c ∈ (syncAllTables c4Env false []).1) ∧
      Ev.query ("DROP TABLE IF EXISTS \x60" ++ t ++ "\x60") ∈ (syncAllTables c4Env false []).1) :=
  syncAllTables_empties_registry c4Env false [] (syncAllTables c4Env false []).1 []
    rfl (fun _ => rfl)

theorem orphanBackupAndDrop_drop (env : Env) (t : String) :
    Ev.query ("DROP TABLE IF EXISTS \x60" ++ t ++ "\x60") ∈ orphanBackupAndDrop env t := by
  simp only [orphanBackupAndDrop]
  apply List.mem_append.mpr
  apply Or.inr
  exact List.mem_cons_of_mem _ (List.mem_cons_self _ _)

theorem orphanBackupAndDrop_err (env : Env) (t : String) (hf : env.backupFails t = true) :
    Ev.err ("Erreur lors de la sauvegarde SQL de la table \x27" ++ t ++ "\x27: error") ∈
      orphanBackupAndDrop env t := by
  simp only [orphanBackupAndDrop]
  rw [hf, if_pos rfl]
  apply List.mem_append.mpr
  apply Or.inl
  exact List.mem_cons_of_mem _ (List.mem_singleton_self _)

/-- C8: a live table absent from the declared schema set is dropped by the
orphan phase whatever the `dangerousSync` flag is; and when writing its
backup artifact fails, the failure is logged as an error and the
`DROP TABLE` is still issued (the drop sits outside the backup `try`). -/
theorem orphan_table_dropped_unconditionally (env : Env) (dangerousSync : Bool)
    (pending : List Mdl) (t : String)
    (ht : t ∈ env.dbTables)
    (hnotdecl : (pending.map (fun m => m.name)).contains t = false)
    (hsorted : ∃ l, topoSort (pending.map (fun m => m.name)) (depsFor pending) = .ok l) :
    Ev.query ("DROP TABLE IF EXISTS \x60" ++ t ++ "\x60") ∈
      (syncAllTables env dangerousSync pending).1 ∧
    (env.backupFails t = true →
      Ev.err ("Erreur lors de la sauvegarde SQL de la table \x27" ++ t ++ "\x27: error") ∈
        (syncAllTables env dangerousSync pending).1) := by
  rcases hsorted with ⟨l, hl⟩
  have htr : ∀ e, e ∈ orphanBackupAndDrop env t →
      e ∈ (syncAllTables env dangerousSync pending).1 := by
    intro e he
    have hor : e ∈ orphanPhase env (pending.map (fun m => m.name)) env.dbTables :=
      mem_orphanPhase env _ env.dbTables t e ht hnotdecl he
    simp only [syncAllTables]
    rw [hl]
    simp only
    rcases hsync : syncTables env dangerousSync (modelMapOf pending) l with ⟨evs, r⟩
    rcases r with e' | u
    · simp only
      exact List.mem_append.mpr (Or.inl (List.mem_append.mpr (Or.inr hor)))
    · rcases u
      simp only
      exact List.mem_append.mpr (Or.inl (List.mem_append.mpr (Or.inr hor)))
  exact ⟨htr _ (orphanBackupAndDrop_drop env t),
    fun hf => htr _ (orphanBackupAndDrop_err env t hf)⟩

/-- Witness for C8 on a concrete database whose orphan `zombie` table cannot
be backed up. -/
theorem orphan_table_dropped_unconditionally_witness :
    Ev.query ("DROP TABLE IF EXISTS \x60zombie\x60") ∈ (syncAllTables c8Env true []).1 ∧
    (c8Env.backupFails "zombie" = true →
      Ev.err ("Erreur lors de la sauvegarde SQL de la table \x27zombie\x27: error") ∈
        (syncAllTables c8Env true []).1) :=
  orphan_table_dropped_unconditionally c8Env true [] "zombie"
    (List.mem_singleton_self "zombie") rfl ⟨[], rfl⟩

theorem syncTable_mem_preamble (env : Env) (d : Bool) (m : Mdl) (stmt : String)
    (hgen : generateCreateTableStatement m.name m.schemaDict = Except.ok (some stmt))
    (e : Ev)
    (he : e ∈ restorePhase env m.name ∨
          e = Ev.query ("SHOW COLUMNS FROM \x60" ++ m.name ++ "\x60")) :
    e ∈ (syncTable env d m).1 := by
  have hpre : e ∈ ([Ev.query stmt,
      Ev.log ("La table " ++ m.name ++ " a été créée ou existe déjà")] ++
      restorePhase env m.name ++
      [Ev.query ("SHOW COLUMNS FROM \x60" ++ m.name ++ "\x60")]) := by
    rcases he with he | rfl
    · exact List.mem_append_left _ (List.mem_append_right _ he)
    · exact List.mem_append_right _ (List.mem_singleton_self _)
  unfold syncTable
  rw [hgen]
  simp only
  rcases hmod : modifyLoop env m.name (env.columnsOf m.name)
      ((env.columnsOf m.name).map (fun col => col.Field)) m.schemaDict with ⟨evMod, rMod⟩
  rw [hmod]
  rcases rMod with eM | u
  · simp only
    exact List.mem_append_left _ hpre
  rcases u
  simp only
  rcases hren : renameLoop m.name m.schemaDict
      ((env.columnsOf m.name).map (fun col => col.Field)) with ⟨evRen, rRen⟩
  rw [hren]
  rcases rRen with eR | cols1
  · simp only
    exact List.mem_append_left _ (List.mem_append_left _ hpre)
  simp only
  rcases hadd : addLoop m.name m.schemaDict cols1 with ⟨evAdd, rAdd⟩
  rcases rAdd with eA | cols2
  · simp only
    exact List.mem_append_left _ (List.mem_append_left _ (List.mem_append_left _ hpre))
  simp only
  exact List.mem_append_left _ (List.mem_append_left _ (List.mem_append_left _
    (List.mem_append_left _ hpre)))

theorem restorePhase_replay_err (env : Env) (t f : String)
    (hsel : selectBackup env.backupFiles t = some f)
    (hyes : (jsLower (jsTrim (env.restoreAnswer t)) == "y") = true)
    (hrf : env.replayFails f = true) :
    Ev.err ("Erreur lors de la restauration du backup pour \x27" ++ t ++ "\x27: error")
      ∈ restorePhase env t := by
  unfold restorePhase
  rw [hsel]
  simp only
  rw [if_pos hyes, if_pos hrf]
  exact List.mem_append_left _ (List.mem_append_left _ (List.mem_append_right _
    (List.mem_append_right _ (List.mem_singleton_self _))))

theorem restorePhase_disposition (env : Env) (t f : String)
    (hsel : selectBackup env.backupFiles t = some f) :
    (if (jsLower (jsTrim (env.deleteAnswer t)) == "y") = true then
       Ev.fsUnlink f ∈ restorePhase env t
     else
       Ev.fsRename f (f ++ ".ignored") ∈ restorePhase env t) := by
  unfold restorePhase
  rw [hsel]
  simp only
  by_cases hdel : (jsLower (jsTrim (env.deleteAnswer t)) == "y") = true
  · simp only [if_pos hdel]
    exact List.mem_append_right _ (List.mem_cons_self _ _)
  · simp only [if_neg hdel]
    exact List.mem_append_right _ (List.mem_cons_self _ _)

/-- C5, amended: when a backup artifact is offered and accepted for a declared
table and replaying its statement fails, the failure is logged as an error
event, the pass continues (the `SHOW COLUMNS` introspection of the same table
is still issued), **and the artifact is nevertheless dispositioned by the
unconditional follow-up prompt**: it is deleted when the operator answers
`y` to the delete prompt and renamed with the `.ignored` marker otherwise.
The spec's claim that the artifact is left untouched (neither deleted nor
renamed) after a replay failure is false: the delete/ignore prompt in the
source runs regardless of the replay outcome. -/
theorem restore_replay_failure_logged_and_dispositioned
    (env : Env) (d : Bool) (m : Mdl) (f stmt : String)
    (hgen : generateCreateTableStatement m.name m.schemaDict = Except.ok (some stmt))
    (hsel : selectBackup env.backupFiles m.name = some f)
    (hyes : (jsLower (jsTrim (env.restoreAnswer m.name)) == "y") = true)
    (hrf : env.replayFails f = true) :
    Ev.err ("Erreur lors de la restauration du backup pour \x27" ++ m.name ++ "\x27: error")
      ∈ (syncTable env d m).1 ∧
    Ev.query ("SHOW COLUMNS FROM \x60" ++ m.name ++ "\x60") ∈ (syncTable env d m).1 ∧
    (if (jsLower (jsTrim (env.deleteAnswer m.name)) == "y") = true then
       Ev.fsUnlink f ∈ (syncTable env d m).1
     else
       Ev.fsRename f (f ++ ".ignored") ∈ (syncTable env d m).1) := by
  refine ⟨?_, ?_, ?_⟩
  · exact syncTable_mem_preamble env d m stmt hgen _
      (Or.inl (restorePhase_replay_err env m.name f hsel hyes hrf))
  · exact syncTable_mem_preamble env d m stmt hgen _ (Or.inr rfl)
  · have hd := restorePhase_disposition env m.name f hsel
    by_cases hdel : (jsLower (jsTrim (env.deleteAnswer m.name)) == "y") = true
    · rw [if_pos hdel] at hd ⊢
      exact syncTable_mem_preamble env d m stmt hgen _ (Or.inl hd)
    · rw [if_neg hdel] at hd ⊢
      exact syncTable_mem_preamble env d m stmt hgen _ (Or.inl hd)

/-- Witness for the amended C5 theorem on the concrete environment `c5Env`:
the operator answers `y` to the restore, the replay fails, the operator does
not answer `y` to the delete prompt, and the artifact is renamed with the
`.ignored` marker while the pass continues. -/
theorem restore_replay_failure_logged_and_dispositioned_witness :
    Ev.err ("Erreur lors de la restauration du backup pour \x27t1\x27: error")
      ∈ (syncTable c5Env false c5Mdl).1 ∧
    Ev.query ("SHOW COLUMNS FROM \x60t1\x60") ∈ (syncTable c5Env false c5Mdl).1 ∧
    (if (jsLower (jsTrim (c5Env.deleteAnswer "t1")) == "y") = true then
       Ev.fsUnlink "./backup_t1_100.sql" ∈ (syncTable c5Env false c5Mdl).1
     else
       Ev.fsRename "./backup_t1_100.sql" "./backup_t1_100.sql.ignored"
         ∈ (syncTable c5Env false c5Mdl).1) :=
  restore_replay_failure_logged_and_dispositioned c5Env false c5Mdl
    "./backup_t1_100.sql"
    "CREATE TABLE IF NOT EXISTS t1 (id INT(255) PRIMARY KEY) ENGINE=InnoDB"
    rfl rfl rfl rfl

/-- C5, counterexample: on `c5Env` the backup for `t1` is offered and
accepted, the replay fails, and yet the artifact is **renamed with the
`.ignored` marker** by the unconditional delete/ignore prompt — refuting the
claim that after a replay failure the artifact is neither deleted nor renamed. -/
theorem c5_counterexample_artifact_renamed_after_replay_failure :
    (jsLower (jsTrim (c5Env.restoreAnswer "t1")) == "y") = true ∧
    c5Env.replayFails "./backup_t1_100.sql" = true ∧
    Ev.err ("Erreur lors de la restauration du backup pour \x27t1\x27: error")
      ∈ (syncTable c5Env false c5Mdl).1 ∧
    Ev.fsRename "./backup_t1_100.sql" "./backup_t1_100.sql.ignored"
      ∈ (syncTable c5Env false c5Mdl).1 := by
  refine ⟨rfl, rfl, ?_, ?_⟩ <;> decide

theorem lexLeb_refl (a : List Char) : lexLeb a a = true := by
  induction a with
  | nil => rfl
  | cons c cs ih =>
    have hn : ¬ c.val < c.val := Nat.lt_irrefl _
    unfold lexLeb
    rw [if_neg hn, if_neg hn]
    exact ih

theorem lexLeb_total (a b : List Char) : lexLeb a b = true ∨ lexLeb b a = true := by
  induction a generalizing b with
  | nil => exact Or.inl rfl
  | cons c cs ih =>
    cases b with
    | nil => exact Or.inr rfl
    | cons d ds =>
      by_cases h1 : c.val < d.val
      · left; unfold lexLeb; rw [if_pos h1]
      by_cases h2 : d.val < c.val
      · right; unfold lexLeb; rw [if_pos h2]
      rcases ih ds with h | h
      · left; unfold lexLeb; rw [if_neg h1, if_neg h2]; exact h
      · right; unfold lexLeb; rw [if_neg h2, if_neg h1]; exact h

theorem lexLeb_trans (a b c : List Char) (hab : lexLeb a b = true)
    (hbc : lexLeb b c = true) : lexLeb a c = true := by
  induction a generalizing b c with
  | nil => rfl
  | cons x xs ih =>
    cases b with
    | nil => exact absurd hab (by simp [lexLeb])
    | cons y ys =>
      cases c with
      | nil => exact absurd hbc (by simp [lexLeb])
      | cons z zs =>
        unfold lexLeb at hab hbc ⊢
        by_cases h1 : x.val < y.val
        · by_cases h2 : y.val < z.val
          · have h13 : x.val < z.val := Nat.lt_trans h1 h2
            rw [if_pos h13]
          by_cases h3 : z.val < y.val
          · rw [if_neg h2, if_pos h3] at hbc; exact Bool.noConfusion hbc
          have hyz : y.val = z.val := UInt32.ext (by
            have h2n : ¬ y.val.toNat < z.val.toNat := h2
            have h3n : ¬ z.val.toNat < y.val.toNat := h3
            omega)
          have h13 : x.val < z.val := hyz ▸ h1
          rw [if_pos h13]
        by_cases h1b : y.val < x.val
        · rw [if_neg h1, if_pos h1b] at hab; exact Bool.noConfusion hab
        have hxy : x.val = y.val := UInt32.ext (by
          have h1n : ¬ x.val.toNat < y.val.toNat := h1
          have h1bn : ¬ y.val.toNat < x.val.toNat := h1b
          omega)
        rw [if_neg h1, if_neg h1b] at hab
        by_cases h2 : y.val < z.val
        · have h13 : x.val < z.val := hxy ▸ h2
          rw [if_pos h13]
        by_cases h3 : z.val < y.val
        · rw [if_neg h2, if_pos h3] at hbc; exact Bool.noConfusion hbc
        rw [if_neg h2, if_neg h3] at hbc
        have h1c : ¬ x.val < z.val := hxy ▸ h2
        have h3c : ¬ z.val < x.val := hxy ▸ h3
        rw [if_neg h1c, if_neg h3c]
        exact ih ys zs hab hbc

theorem strLe_refl (a : String) : strLe a a := lexLeb_refl a.data

theorem sorted_last_ge (l : List String) (f : String)
    (hs : l.Sorted strLe) (hl : l.getLast? = some f) : ∀ g ∈ l, strLe g f := by
  induction l with
  | nil => exact absurd hl (by simp)
  | cons a rest ih =>
    intro g hg
    cases rest with
    | nil =>
      have hf : a = f := by simpa using hl
      rcases List.mem_singleton.mp hg with rfl
      exact hf ▸ strLe_refl g
    | cons b rs =>
      have hl2 : (b :: rs).getLast? = some f := by
        rw [← hl]; rfl
      rcases List.sorted_cons.mp hs with ⟨ha, hs2⟩
      rcases List.mem_cons.mp hg with rfl | hg2
      · exact lexLeb_trans _ _ _ (ha b (List.mem_cons_self _ _))
          (ih hs2 hl2 b (List.mem_cons_self _ _))
      · exact ih hs2 hl2 g hg2

/-- C10: the offer-restore lookup for table `t` returns the lexically greatest
file of the backup directory that matches `./backup_t_*.sql` and does not end
in `.ignored` — and, because the glob wildcard spans underscores, on a
concrete pair of declared tables `users` and `users_archive`, the artifact
written for `users_archive` (whose name begins with the digit-free prefix
`./backup_users_archive_`, lexically above the digit-leading timestamp of any
`users` artifact) is the file selected and offered as the most recent backup
of `users`. -/
theorem selectBackup_greatest_and_cross_capture :
    (∀ (files : List String) (t f : String),
      selectBackup files t = some f →
      f ∈ files ∧ backupGlobMatch t f = true ∧ strEnds ".ignored" f = false ∧
      ∀ g ∈ files, backupGlobMatch t g = true → strEnds ".ignored" g = false →
        strLe g f) ∧
    selectBackup [backupPathFor "users" 1700000000000,
        backupPathFor "users_archive" 1700000000001] "users"
      = some (backupPathFor "users_archive" 1700000000001) := by
  constructor
  · intro files t f h
    haveI : IsTotal String strLe := ⟨fun a b => lexLeb_total a.data b.data⟩
    haveI : IsTrans String strLe := ⟨fun a b c => lexLeb_trans a.data b.data c.data⟩
    unfold selectBackup at h
    rw [List.head?_reverse] at h
    have hsorted := List.sorted_insertionSort strLe
      ((files.filter (backupGlobMatch t)).filter (fun f => !(strEnds ".ignored" f)))
    have hperm := List.perm_insertionSort strLe
      ((files.filter (backupGlobMatch t)).filter (fun f => !(strEnds ".ignored" f)))
    have hmax := sorted_last_ge _ f hsorted h
    have hfmem : f ∈ (files.filter (backupGlobMatch t)).filter
        (fun f => !(strEnds ".ignored" f)) :=
      hperm.mem_iff.mp (List.mem_of_mem_getLast? h)
    rcases List.mem_filter.mp hfmem with ⟨hfmem1, hfig⟩
    rcases List.mem_filter.mp hfmem1 with ⟨hff, hfglob⟩
    refine ⟨hff, hfglob, by simpa using hfig, ?_⟩
    intro g hg hglob hig
    exact hmax g (hperm.mem_iff.mpr (List.mem_filter.mpr
      ⟨List.mem_filter.mpr ⟨hg, hglob⟩, by simp [hig]⟩))
  · decide

/-- Witness for the C10 theorem: its maximality clause, applied to the
concrete two-file backup directory, shows the `users` artifact is lexically
below the selected `users_archive` artifact. -/
theorem selectBackup_greatest_and_cross_capture_witness :
    strLe "./backup_users_1700000000000.sql"
      "./backup_users_archive_1700000000001.sql" :=
  (selectBackup_greatest_and_cross_capture.1
    ["./backup_users_1700000000000.sql", "./backup_users_archive_1700000000001.sql"]
    "users" "./backup_users_archive_1700000000001.sql" (by decide)).2.2.2
    "./backup_users_1700000000000.sql" (by decide) (by decide) (by decide)

theorem append_delim_inj (d : Char) :
    ∀ (a b ra rb : List Char), d ∉ a → d ∉ b →
      a ++ d :: ra = b ++ d :: rb → a = b := by
  intro a
  induction a with
  | nil =>
    intro b ra rb _ hb h
    cases b with
    | nil => rfl
    | cons c bs =>
      simp only [List.nil_append, List.cons_append, List.cons.injEq] at h
      exact absurd (h.1 ▸ List.mem_cons_self c bs) hb
  | cons c as ih =>
    intro b ra rb ha hb h
    cases b with
    | nil =>
      simp only [List.cons_append, List.nil_append, List.cons.injEq] at h
      exact absurd (h.1 ▸ List.mem_cons_self d as) (h.1 ▸ ha)
    | cons c2 bs =>
      simp only [List.cons_append, List.cons.injEq] at h
      rw [h.1, ih bs ra rb (fun hm => ha (List.mem_cons_of_mem c hm))
        (fun hm => hb (List.mem_cons_of_mem c2 hm)) h.2]

theorem addStmt_inj (t a b cda cdb : String)
    (ha : '\x60' ∉ a.data) (hb : '\x60' ∉ b.data)
    (h : addStmt t a cda = addStmt t b cdb) : a = b := by
  unfold addStmt alterAddPrefix at h
  have hd := congrArg String.data h
  simp only [data_append, List.append_assoc] at hd
  replace hd := List.append_cancel_left hd
  replace hd := List.append_cancel_left hd
  replace hd := List.append_cancel_left hd
  replace hd := List.append_cancel_left hd
  have hd2 : a.data ++ '\x60' :: (' ' :: cda.data) = b.data ++ '\x60' :: (' ' :: cdb.data) := by
    simpa using hd
  exact String.ext (append_delim_inj '\x60' a.data b.data _ _ ha hb hd2)

theorem dropStmt_inj (t a b : String) (h : dropStmt t a = dropStmt t b) : a = b := by
  unfold dropStmt alterDropPrefix at h
  have hd := congrArg String.data h
  simp only [data_append, List.append_assoc] at hd
  replace hd := List.append_cancel_left hd
  replace hd := List.append_cancel_left hd
  replace hd := List.append_cancel_left hd
  replace hd := List.append_cancel_left hd
  have hd2 : a.data ++ ['\x60'] = b.data ++ ['\x60'] := by simpa using hd
  exact String.ext (List.append_inj' hd2 rfl).1

theorem renameLoop_preserve (tname n o : String) :
    ∀ (fs : List (String × FieldSpec)) (cols : List String) (evs : List Ev)
      (r : List String),
      renameLoop tname fs cols = (evs, .ok r) →
      (∀ p ∈ fs, oldNameTruthy p.2.toDesc ≠ some n) →
      (∀ p ∈ fs, p.1 ≠ o) →
      n ∈ cols → o ∉ cols →
      n ∈ r ∧ o ∉ r := by
  intro fs
  induction fs with
  | nil =>
    intro cols evs r h _ _ hn ho
    simp only [renameLoop] at h
    have hr := congrArg Prod.snd h
    simp only at hr
    rcases hr
    exact ⟨hn, ho⟩
  | cons hd rest ih =>
    obtain ⟨fieldName, field⟩ := hd
    intro cols evs r h hnold hodecl hn ho
    simp only [renameLoop] at h
    rcases hont : oldNameTruthy field.toDesc with _ | old
    · rw [hont] at h
      simp only at h
      exact ih cols evs r h (fun p hp => hnold p (List.mem_cons_of_mem _ hp))
        (fun p hp => hodecl p (List.mem_cons_of_mem _ hp)) hn ho
    · rw [hont] at h
      simp only at h
      by_cases hc : (cols.contains old && !(cols.contains fieldName)) = true
      · rw [if_pos hc] at h
        rcases hcd : getColumnDefinition fieldName field.toDesc with e | colDef
        · rw [hcd] at h
          simp only at h
          have hr := congrArg Prod.snd h
          simp only at hr
          exact Except.noConfusion hr
        · rw [hcd] at h
          simp only at h
          rcases hrec : renameLoop tname rest
              (cols.map (fun c => if c == old then fieldName else c)) with ⟨evRest, rr⟩
          rw [hrec] at h
          have hr := congrArg Prod.snd h
          simp only at hr
          rcases hr
          have hne : old ≠ n := by
            intro he
            exact hnold (fieldName, field) (List.mem_cons_self _ _) (he ▸ hont)
          have hfo : fieldName ≠ o := hodecl (fieldName, field) (List.mem_cons_self _ _)
          refine ih _ evRest r hrec
            (fun p hp => hnold p (List.mem_cons_of_mem _ hp))
            (fun p hp => hodecl p (List.mem_cons_of_mem _ hp)) ?_ ?_
          · refine List.mem_map.mpr ⟨n, hn, ?_⟩
            have hb : (n == old) = false := beq_eq_false_iff_ne.mpr (fun he => hne he.symm)
            simp [hb]
          · intro hmem
            rcases List.mem_map.mp hmem with ⟨x, hx, hxe⟩
            by_cases hxo : (x == old) = true
            · rw [if_pos hxo] at hxe
              exact hfo hxe
            · rw [if_neg hxo] at hxe
              exact ho (hxe ▸ hx)
      · rw [if_neg hc] at h
        exact ih cols evs r h (fun p hp => hnold p (List.mem_cons_of_mem _ hp))
          (fun p hp => hodecl p (List.mem_cons_of_mem _ hp)) hn ho

theorem renameLoop_fires (tname n o : String) (spec : FieldSpec) :
    ∀ (fs : List (String × FieldSpec)) (cols : List String) (evs : List Ev)
      (r : List String),
      renameLoop tname fs cols = (evs, .ok r) →
      (n, spec) ∈ fs →
      (fs.map Prod.fst).Nodup →
      oldNameTruthy spec.toDesc = some o →
      (∀ p ∈ fs, p.1 ≠ n → oldNameTruthy p.2.toDesc ≠ some o) →
      (∀ p ∈ fs, oldNameTruthy p.2.toDesc ≠ some n) →
      (∀ p ∈ fs, p.1 ≠ o) →
      o ∈ cols → n ∉ cols →
      (∃ cd, Ev.query (changeStmt tname o n cd) ∈ evs) ∧ n ∈ r ∧ o ∉ r := by
  intro fs
  induction fs with
  | nil =>
    intro cols evs r _ hmem
    exact absurd hmem (List.not_mem_nil _)
  | cons hd rest ih =>
    obtain ⟨fieldName, field⟩ := hd
    intro cols evs r h hmem hnodup hold hdisto hnoldn hodecl ho hn
    simp only [renameLoop] at h
    rcases List.mem_cons.mp hmem with heq | hmem2
    · -- the head entry is the renamed field itself
      have hfn : fieldName = n := (Prod.mk.injEq _ _ _ _ ▸ heq.symm).1
      have hfs : field = spec := (Prod.mk.injEq _ _ _ _ ▸ heq.symm).2
      subst hfn
      subst hfs
      rw [hold] at h
      simp only at h
      have hc1 : cols.contains o = true := (contains_iff_mem cols o).mpr ho
      have hc2 : cols.contains fieldName = false := by
        rcases hq : cols.contains fieldName
        · rfl
        · exact absurd ((contains_iff_mem _ _).mp hq) hn
      rw [hc1, hc2] at h
      simp only [Bool.not_false, Bool.and_true, if_true] at h
      rcases hcd : getColumnDefinition fieldName field.toDesc with e | colDef
      · rw [hcd] at h
        have hr := congrArg Prod.snd h
        simp only at hr
        exact Except.noConfusion hr
      · rw [hcd] at h
        simp only at h
        rcases hrec : renameLoop tname rest
            (cols.map (fun c => if c == o then fieldName else c)) with ⟨evRest, rr⟩
        rw [hrec] at h
        have hr := congrArg Prod.snd h
        simp only at hr
        rcases hr
        have hev := congrArg Prod.fst h
        simp only at hev
        rcases hev
        have hno : fieldName ≠ o := hodecl (fieldName, field) (List.mem_cons_self _ _)
        have hpres := renameLoop_preserve tname fieldName o rest _ evRest r hrec
          (fun p hp => hnoldn p (List.mem_cons_of_mem _ hp))
          (fun p hp => hodecl p (List.mem_cons_of_mem _ hp))
          (List.mem_map.mpr ⟨o, ho, by simp⟩)
          (by
            intro hmemo
            rcases List.mem_map.mp hmemo with ⟨x, hx, hxe⟩
            by_cases hxo : (x == o) = true
            · rw [if_pos hxo] at hxe
              exact hno hxe
            · rw [if_neg hxo] at hxe
              rw [hxe] at hxo
              exact hxo (beq_self_eq_true o))
        exact ⟨⟨colDef, List.mem_append_left _ (List.mem_cons_self _ _)⟩, hpres⟩
    · -- the renamed field sits further down the list
      have hn1 : fieldName ≠ n := by
        rcases List.nodup_cons.mp hnodup with ⟨hni, _⟩
        intro he
        exact hni (he ▸ List.mem_map.mpr ⟨(n, spec), hmem2, rfl⟩)
      rcases hont : oldNameTruthy field.toDesc with _ | old
      · rw [hont] at h
        simp only at h
        exact ih cols evs r h hmem2 (List.nodup_cons.mp hnodup).2 hold
          (fun p hp => hdisto p (List.mem_cons_of_mem _ hp))
          (fun p hp => hnoldn p (List.mem_cons_of_mem _ hp))
          (fun p hp => hodecl p (List.mem_cons_of_mem _ hp)) ho hn
      · rw [hont] at h
        simp only at h
        have holdo : old ≠ o := by
          intro he
          exact hdisto (fieldName, field) (List.mem_cons_self _ _) hn1 (he ▸ hont)
        by_cases hc : (cols.contains old && !(cols.contains fieldName)) = true
        · rw [if_pos hc] at h
          rcases hcd : getColumnDefinition fieldName field.toDesc with e | colDef
          · rw [hcd] at h
            have hr := congrArg Prod.snd h
            simp only at hr
            exact Except.noConfusion hr
          · rw [hcd] at h
            simp only at h
            rcases hrec : renameLoop tname rest
                (cols.map (fun c => if c == old then fieldName else c)) with ⟨evRest, rr⟩
            rw [hrec] at h
            have hr := congrArg Prod.snd h
            simp only at hr
            rcases hr
            have hev := congrArg Prod.fst h
            simp only at hev
            rcases hev
            have hno : fieldName ≠ o := hodecl (fieldName, field) (List.mem_cons_self _ _)
            have hrest := ih _ evRest r hrec hmem2 (List.nodup_cons.mp hnodup).2 hold
              (fun p hp => hdisto p (List.mem_cons_of_mem _ hp))
              (fun p hp => hnoldn p (List.mem_cons_of_mem _ hp))
              (fun p hp => hodecl p (List.mem_cons_of_mem _ hp))
              (List.mem_map.mpr ⟨o, ho, by
                have hb : (o == old) = false := beq_eq_false_iff_ne.mpr holdo.symm
                simp [hb]⟩)
              (by
                intro hmemn
                rcases List.mem_map.mp hmemn with ⟨x, hx, hxe⟩
                by_cases hxo : (x == old) = true
                · rw [if_pos hxo] at hxe
                  exact hn1 hxe
                · rw [if_neg hxo] at hxe
                  exact hn (hxe ▸ hx))
            exact ⟨⟨hrest.1.choose, List.mem_append_right _ hrest.1.choose_spec⟩,
              hrest.2⟩
        · rw [if_neg hc] at h
          exact ih cols evs r h hmem2 (List.nodup_cons.mp hnodup).2 hold
            (fun p hp => hdisto p (List.mem_cons_of_mem _ hp))
            (fun p hp => hnoldn p (List.mem_cons_of_mem _ hp))
            (fun p hp => hodecl p (List.mem_cons_of_mem _ hp)) ho hn

theorem addLoop_no_add (tname n : String) (hcn : '\x60' ∉ n.data) :
    ∀ (fs : List (String × FieldSpec)) (cols : List String),
      n ∈ cols →
      (∀ p ∈ fs, '\x60' ∉ p.1.data) →
      ∀ cd, Ev.query (addStmt tname n cd) ∉ (addLoop tname fs cols).1 := by
  intro fs
  induction fs with
  | nil =>
    intro cols _ _ cd hmem
    exact absurd hmem (List.not_mem_nil _)
  | cons hd rest ih =>
    obtain ⟨fieldName, field⟩ := hd
    intro cols hn hclean cd hmem
    simp only [addLoop] at hmem
    by_cases hc : (!(cols.contains fieldName)) = true
    · rw [if_pos hc] at hmem
      rcases hcd : getColumnDefinition fieldName field.toDesc with e | colDef
      · rw [hcd] at hmem
        exact absurd hmem (List.not_mem_nil _)
      · rw [hcd] at hmem
        simp only at hmem
        have hfn : fieldName ≠ n := by
          intro he
          rw [he] at hc
          rw [(contains_iff_mem cols n).mpr hn] at hc
          exact Bool.noConfusion hc
        rcases List.mem_append.mp hmem with hmem1 | hmem2
        · rcases List.mem_cons.mp hmem1 with he | he
          · have := addStmt_inj tname fieldName n colDef cd
              (hclean (fieldName, field) (List.mem_cons_self _ _)) hcn
              (by injection he.symm)
            exact hfn this
          · rcases List.mem_singleton.mp he with he2
            exact Ev.noConfusion he2
        · exact ih (cols ++ [fieldName]) (List.mem_append_left _ hn)
            (fun p hp => hclean p (List.mem_cons_of_mem _ hp)) cd hmem2
    · rw [if_neg hc] at hmem
      exact ih cols hn (fun p hp => hclean p (List.mem_cons_of_mem _ hp)) cd hmem

theorem addLoop_not_introduced (tname o : String) :
    ∀ (fs : List (String × FieldSpec)) (cols : List String) (evs : List Ev)
      (r : List String),
      addLoop tname fs cols = (evs, .ok r) →
      o ∉ cols → (∀ p ∈ fs, p.1 ≠ o) → o ∉ r := by
  intro fs
  induction fs with
  | nil =>
    intro cols evs r h ho _
    simp only [addLoop] at h
    have hr := congrArg Prod.snd h
    simp only at hr
    rcases hr
    exact ho
  | cons hd rest ih =>
    obtain ⟨fieldName, field⟩ := hd
    intro cols evs r h ho hodecl
    simp only [addLoop] at h
    by_cases hc : (!(cols.contains fieldName)) = true
    · rw [if_pos hc] at h
      rcases hcd : getColumnDefinition fieldName field.toDesc with e | colDef
      · rw [hcd] at h
        have hr := congrArg Prod.snd h
        simp only at hr
        exact Except.noConfusion hr
      · rw [hcd] at h
        simp only at h
        rcases hrec : addLoop tname rest (cols ++ [fieldName]) with ⟨evRest, rr⟩
        rw [hrec] at h
        have hr := congrArg Prod.snd h
        simp only at hr
        rcases hr
        refine ih (cols ++ [fieldName]) evRest r hrec ?_
          (fun p hp => hodecl p (List.mem_cons_of_mem _ hp))
        intro hmem
        rcases List.mem_append.mp hmem with h1 | h2
        · exact ho h1
        · exact hodecl (fieldName, field) (List.mem_cons_self _ _)
            (List.mem_singleton.mp h2).symm
    · rw [if_neg hc] at h
      exact ih cols evs r h ho (fun p hp => hodecl p (List.mem_cons_of_mem _ hp))

theorem dropLoop_no_drop (tname o : String) (schemaKeys : List String) :
    ∀ (cols : List String), o ∉ cols →
      Ev.query (dropStmt tname o) ∉ dropLoop tname schemaKeys cols := by
  intro cols
  induction cols with
  | nil =>
    intro _ hmem
    exact absurd hmem (List.not_mem_nil _)
  | cons col rest ih =>
    intro ho hmem
    simp only [dropLoop] at hmem
    rcases List.mem_append.mp hmem with h1 | h2
    · by_cases hc : (!(schemaKeys.contains col)) = true
      · rw [if_pos hc] at h1
        rcases List.mem_cons.mp h1 with he | he
        · have := dropStmt_inj tname col o (by injection he.symm)
          exact ho (this ▸ List.mem_cons_self _ _)
        · exact Ev.noConfusion (List.mem_singleton.mp he)
      · rw [if_neg hc] at h1
        exact absurd h1 (List.not_mem_nil _)
    · exact ih (fun hx => ho (List.mem_cons_of_mem _ hx)) h2

theorem mem7_cases {α : Type} {l1 l2 l3 l4 l5 l6 l7 : List α} {e : α}
    (h : e ∈ l1 ++ l2 ++ l3 ++ l4 ++ l5 ++ l6 ++ l7) :
    e ∈ l1 ∨ e ∈ l2 ∨ e ∈ l3 ∨ e ∈ l4 ∨ e ∈ l5 ∨ e ∈ l6 ∨ e ∈ l7 := by
  simp only [List.mem_append] at h
  tauto

/-- C7: a declared field `n` with a truthy `old_name` `o`, when a live column
`o` exists and no live column `n` exists, gets a `CHANGE COLUMN` rename in a
completed pass, and the pass issues no `ADD COLUMN` of `n` and no
`DROP COLUMN` of `o` — under the side conditions that declared names are
distinct and backtick-free, no other field claims old name `o`, no field
claims old name `n`, `o` is not itself a declared name, and no replayed
backup statement is one of the pass's `ALTER TABLE` statements. -/
theorem rename_applied_without_add_or_drop (env : Env) (d : Bool) (m : Mdl)
    (n o : String) (spec : FieldSpec)
    (hok : (syncTable env d m).2 = Except.ok ())
    (hmem : (n, spec) ∈ m.schemaDict)
    (hold : oldNameTruthy spec.toDesc = some o)
    (hlive : o ∈ (env.columnsOf m.name).map (fun col => col.Field))
    (hnew : n ∉ (env.columnsOf m.name).map (fun col => col.Field))
    (hnodup : (m.schemaDict.map Prod.fst).Nodup)
    (hdisto : ∀ p ∈ m.schemaDict, p.1 ≠ n → oldNameTruthy p.2.toDesc ≠ some o)
    (hnoldn : ∀ p ∈ m.schemaDict, oldNameTruthy p.2.toDesc ≠ some n)
    (hodecl : ∀ p ∈ m.schemaDict, p.1 ≠ o)
    (hreplay : ∀ f, opClass m.name (Ev.query (env.fileContent f)) = none)
    (hcleann : '\x60' ∉ n.data)
    (hcleanf : ∀ p ∈ m.schemaDict, '\x60' ∉ p.1.data) :
    (∃ cd, Ev.query (changeStmt m.name o n cd) ∈ (syncTable env d m).1) ∧
    (∀ cd, Ev.query (addStmt m.name n cd) ∉ (syncTable env d m).1) ∧
    Ev.query (dropStmt m.name o) ∉ (syncTable env d m).1 := by
  unfold syncTable at hok ⊢
  rcases hgen : generateCreateTableStatement m.name m.schemaDict with e | os
  · rw [hgen] at hok
    simp only at hok
    exact Except.noConfusion hok
  rcases os with _ | stmt
  · rw [hgen] at hok
    simp only at hok
    exact Except.noConfusion hok
  rw [hgen] at hok
  simp only at hok ⊢
  rcases hmod : modifyLoop env m.name (env.columnsOf m.name)
      ((env.columnsOf m.name).map (fun col => col.Field)) m.schemaDict with ⟨evMod, rMod⟩
  rw [hmod] at hok ⊢
  rcases rMod with eM | u
  · simp only at hok
    exact Except.noConfusion hok
  rcases u
  simp only at hok ⊢
  rcases hren : renameLoop m.name m.schemaDict
      ((env.columnsOf m.name).map (fun col => col.Field)) with ⟨evRen, rRen⟩
  rw [hren] at hok ⊢
  rcases rRen with eR | cols1
  · simp only at hok
    exact Except.noConfusion hok
  simp only at hok ⊢
  rcases hadd : addLoop m.name m.schemaDict cols1 with ⟨evAdd, rAdd⟩
  rw [hadd] at hok
  rcases rAdd with eA | cols2
  · simp only at hok
    exact Except.noConfusion hok
  simp only at hok ⊢
  obtain ⟨⟨cd, hcd⟩, hncols1, hocols1⟩ := renameLoop_fires m.name n o spec m.schemaDict
    _ evRen cols1 hren hmem hnodup hold hdisto hnoldn hodecl hlive hnew
  have hocols2 : o ∉ cols2 :=
    addLoop_not_introduced m.name o m.schemaDict cols1 evAdd cols2 hadd hocols1 hodecl
  refine ⟨⟨cd, ?_⟩, ?_, ?_⟩
  · exact List.mem_append_left _ (List.mem_append_left _ (List.mem_append_right _ hcd))
  · intro cd2 hmemEv
    have hcls := opClass_addStmt m.name n cd2
    rcases mem7_cases hmemEv with hC | hR | hS | hM | hRn | hA | hD
    · rcases List.mem_cons.mp hC with he | he
      · have hs : addStmt m.name n cd2 = stmt := by injection he
        rcases generateCreate_ok_shape m.name m.schemaDict stmt hgen with ⟨r0, hr0⟩
        have hnone : opClass m.name (Ev.query stmt) = none := by
          rw [hr0]
          exact opClass_none_of_not_alter m.name _ rfl
        rw [← hs] at hnone
        rw [hnone] at hcls
        exact Option.noConfusion hcls
      · exact Ev.noConfusion (List.mem_singleton.mp he)
    · have hnone := restorePhase_class env m.name hreplay _ hR
      rw [hnone] at hcls
      exact Option.noConfusion hcls
    · have he := List.mem_singleton.mp hS
      rw [he] at hcls
      have hnone := opClass_none_of_not_alter m.name
        ("SHOW COLUMNS FROM \x60" ++ m.name ++ "\x60") rfl
      rw [hnone] at hcls
      exact Option.noConfusion hcls
    · have hcl := modifyLoop_class env m.name (env.columnsOf m.name)
        ((env.columnsOf m.name).map (fun col => col.Field)) m.schemaDict _
        (by rw [hmod]; exact hM)
      rcases hcl with hcl | hcl
      · rw [hcls] at hcl
        exact Option.noConfusion hcl
      · rw [hcls] at hcl
        exact absurd (Option.some.inj hcl) (by decide)
    · have hcl := renameLoop_class m.name m.schemaDict
        ((env.columnsOf m.name).map (fun col => col.Field)) _
        (by rw [hren]; exact hRn)
      rcases hcl with hcl | hcl
      · rw [hcls] at hcl
        exact Option.noConfusion hcl
      · rw [hcls] at hcl
        exact absurd (Option.some.inj hcl) (by decide)
    · have hno := addLoop_no_add m.name n hcleann m.schemaDict cols1 hncols1 hcleanf cd2
      rw [hadd] at hno
      exact hno hA
    · by_cases hdS : d = true
      · rw [if_pos hdS] at hD
        have hcl := dropLoop_class m.name (m.schemaDict.map (fun p => p.1)) cols2 _ hD
        rcases hcl with hcl | hcl
        · rw [hcls] at hcl
          exact Option.noConfusion hcl
        · rw [hcls] at hcl
          exact absurd (Option.some.inj hcl) (by decide)
      · rw [if_neg hdS] at hD
        exact absurd hD (List.not_mem_nil _)
  · intro hmemEv
    have hcls := opClass_dropStmt m.name o
    rcases mem7_cases hmemEv with hC | hR | hS | hM | hRn | hA | hD
    · rcases List.mem_cons.mp hC with he | he
      · have hs : dropStmt m.name o = stmt := by injection he
        rcases generateCreate_ok_shape m.name m.schemaDict stmt hgen with ⟨r0, hr0⟩
        have hnone : opClass m.name (Ev.query stmt) = none := by
          rw [hr0]
          exact opClass_none_of_not_alter m.name _ rfl
        rw [← hs] at hnone
        rw [hnone] at hcls
        exact Option.noConfusion hcls
      · exact Ev.noConfusion (List.mem_singleton.mp he)
    · have hnone := restorePhase_class env m.name hreplay _ hR
      rw [hnone] at hcls
      exact Option.noConfusion hcls
    · have he := List.mem_singleton.mp hS
      rw [he] at hcls
      have hnone := opClass_none_of_not_alter m.name
        ("SHOW COLUMNS FROM \x60" ++ m.name ++ "\x60") rfl
      rw [hnone] at hcls
      exact Option.noConfusion hcls
    · have hcl := modifyLoop_class env m.name (env.columnsOf m.name)
        ((env.columnsOf m.name).map (fun col => col.Field)) m.schemaDict _
        (by rw [hmod]; exact hM)
      rcases hcl with hcl | hcl
      · rw [hcls] at hcl
        exact Option.noConfusion hcl
      · rw [hcls] at hcl
        exact absurd (Option.some.inj hcl) (by decide)
    · have hcl := renameLoop_class m.name m.schemaDict
        ((env.columnsOf m.name).map (fun col => col.Field)) _
        (by rw [hren]; exact hRn)
      rcases hcl with hcl | hcl
      · rw [hcls] at hcl
        exact Option.noConfusion hcl
      · rw [hcls] at hcl
        exact absurd (Option.some.inj hcl) (by decide)
    · have hcl := addLoop_class m.name m.schemaDict cols1 _ (by rw [hadd]; exact hA)
      rcases hcl with hcl | hcl
      · rw [hcls] at hcl
        exact Option.noConfusion hcl
      · rw [hcls] at hcl
        exact absurd (Option.some.inj hcl) (by decide)
    · by_cases hdS : d = true
      · rw [if_pos hdS] at hD
        exact dropLoop_no_drop m.name o (m.schemaDict.map (fun p => p.1)) cols2 hocols2 hD
      · rw [if_neg hdS] at hD
        exact absurd hD (List.not_mem_nil _)

/-- Witness for the C7 theorem: on `c7Env` (live column `rang`, declared
field `role` with `old_name: "rang"`), the pass renames and neither adds nor
drops. -/
theorem rename_applied_without_add_or_drop_witness :
    (∃ cd, Ev.query (changeStmt "t7" "rang" "role" cd) ∈ (syncTable c7Env false c7Mdl).1) ∧
    (∀ cd, Ev.query (addStmt "t7" "role" cd) ∉ (syncTable c7Env false c7Mdl).1) ∧
    Ev.query (dropStmt "t7" "rang") ∉ (syncTable c7Env false c7Mdl).1 :=
  rename_applied_without_add_or_drop c7Env false c7Mdl "role" "rang"
    (.desc { type := some "String", oldName := some "rang" })
    rfl (by decide) rfl (by decide) (by decide) (by decide)
    (by decide) (by decide) (by decide) (fun _ => rfl) (by decide) (by decide)

theorem isPrefixOf_delim (d : Char) :
    ∀ (a b l2 r : List Char), d ∉ a → d ∉ b →
      (a ++ d :: l2).isPrefixOf (b ++ d :: r) = true → a = b := by
  intro a
  induction a with
  | nil =>
    intro b l2 r _ hb h
    cases b with
    | nil => rfl
    | cons c bs =>
      simp only [List.nil_append, List.cons_append, List.isPrefixOf, Bool.and_eq_true,
        beq_iff_eq] at h
      exact absurd (h.1 ▸ List.mem_cons_self c bs) hb
  | cons c as ih =>
    intro b l2 r ha hb h
    cases b with
    | nil =>
      simp only [List.cons_append, List.nil_append, List.isPrefixOf, Bool.and_eq_true,
        beq_iff_eq] at h
      exact absurd (h.1 ▸ List.mem_cons_self c as) (h.1 ▸ ha)
    | cons c2 bs =>
      simp only [List.cons_append, List.isPrefixOf, Bool.and_eq_true, beq_iff_eq] at h
      rw [h.1, ih bs l2 r (fun hm => ha (List.mem_cons_of_mem c hm))
        (fun hm => hb (List.mem_cons_of_mem c2 hm)) h.2]

theorem strStarts_false_of_ne (lit t u : String) (d : Char) (pa pb : List Char)
    (hct : d ∉ t.data) (hcu : d ∉ u.data) (hne : t ≠ u) :
    ∀ (p s : String), p.data = lit.data ++ (t.data ++ d :: pa) →
      s.data = lit.data ++ (u.data ++ d :: pb) →
      strStarts p s = false := by
  intro p s hp hs
  rcases hq : strStarts p s
  · rfl
  exfalso
  unfold strStarts at hq
  rw [hp, hs, isPrefixOf_append_cancel] at hq
  exact hne (String.ext (isPrefixOf_delim d t.data u.data pa pb hct hcu hq))

theorem data_btick : ("\x60" : String).data = '\x60' :: [] := rfl

theorem data_sp_paren : (" (" : String).data = ' ' :: ("(" : String).data := rfl

theorem data_btick_mod :
    ("\x60 MODIFY COLUMN " : String).data = '\x60' :: (" MODIFY COLUMN " : String).data := rfl

theorem data_btick_chg :
    ("\x60 CHANGE COLUMN " : String).data = '\x60' :: (" CHANGE COLUMN " : String).data := rfl

theorem data_btick_add :
    ("\x60 ADD COLUMN " : String).data = '\x60' :: (" ADD COLUMN " : String).data := rfl

theorem data_btick_drop :
    ("\x60 DROP COLUMN " : String).data = '\x60' :: (" DROP COLUMN " : String).data := rfl

theorem data_btick_where :
    ("\x60 WHERE Column_name = ?" : String).data
      = '\x60' :: (" WHERE Column_name = ?" : String).data := rfl

theorem data_empty : ("" : String).data = [] := rfl

theorem queryFor_modify (t u cd : String) (hct : '\x60' ∉ t.data) (hcu : '\x60' ∉ u.data)
    (hne : t ≠ u) : queryForTable t (Ev.query (modifyStmt u cd)) = false := by
  have hA : strStarts ("ALTER TABLE \x60" ++ (t ++ "\x60")) (modifyStmt u cd) = false := by
    refine strStarts_false_of_ne "ALTER TABLE \x60" t u '\x60' []
      ((" MODIFY COLUMN " : String).data ++ cd.data) hct hcu hne _ _ ?_ ?_
    · simp [data_append, data_btick]
    · simp [modifyStmt, alterModifyPrefix, data_append, List.append_assoc, data_btick_mod]
  simp only [queryForTable, hA]
  rfl

theorem queryFor_change (t u o2 n2 cd : String) (hct : '\x60' ∉ t.data)
    (hcu : '\x60' ∉ u.data) (hne : t ≠ u) :
    queryForTable t (Ev.query (changeStmt u o2 n2 cd)) = false := by
  have hA : strStarts ("ALTER TABLE \x60" ++ (t ++ "\x60")) (changeStmt u o2 n2 cd) = false := by
    refine strStarts_false_of_ne "ALTER TABLE \x60" t u '\x60' []
      ((" CHANGE COLUMN " : String).data
        ++ ("\x60" ++ (o2 ++ ("\x60 \x60" ++ (n2 ++ ("\x60 " ++ cd))))).data) hct hcu hne _ _ ?_ ?_
    · simp [data_append, data_btick]
    · simp [changeStmt, alterChangePrefix, data_append, List.append_assoc, data_btick_chg]
  simp only [queryForTable, hA]
  rfl

theorem queryFor_add (t u n2 cd : String) (hct : '\x60' ∉ t.data) (hcu : '\x60' ∉ u.data)
    (hne : t ≠ u) : queryForTable t (Ev.query (addStmt u n2 cd)) = false := by
  have hA : strStarts ("ALTER TABLE \x60" ++ (t ++ "\x60")) (addStmt u n2 cd) = false := by
    refine strStarts_false_of_ne "ALTER TABLE \x60" t u '\x60' []
      ((" ADD COLUMN " : String).data ++ ("\x60" ++ (n2 ++ ("\x60 " ++ cd))).data)
      hct hcu hne _ _ ?_ ?_
    · simp [data_append, data_btick]
    · simp [addStmt, alterAddPrefix, data_append, List.append_assoc, data_btick_add]
  simp only [queryForTable, hA]
  rfl

theorem queryFor_dropcol (t u c : String) (hct : '\x60' ∉ t.data) (hcu : '\x60' ∉ u.data)
    (hne : t ≠ u) : queryForTable t (Ev.query (dropStmt u c)) = false := by
  have hA : strStarts ("ALTER TABLE \x60" ++ (t ++ "\x60")) (dropStmt u c) = false := by
    refine strStarts_false_of_ne "ALTER TABLE \x60" t u '\x60' []
      ((" DROP COLUMN " : String).data ++ ("\x60" ++ (c ++ "\x60")).data) hct hcu hne _ _ ?_ ?_
    · simp [data_append, data_btick]
    · simp [dropStmt, alterDropPrefix, data_append, List.append_assoc, data_btick_drop]
  simp only [queryForTable, hA]
  rfl

theorem queryFor_showcols (t u : String) (hct : '\x60' ∉ t.data) (hcu : '\x60' ∉ u.data)
    (hne : t ≠ u) :
    queryForTable t (Ev.query ("SHOW COLUMNS FROM \x60" ++ u ++ "\x60")) = false := by
  have hA : strStarts ("SHOW COLUMNS FROM \x60" ++ (t ++ "\x60"))
      ("SHOW COLUMNS FROM \x60" ++ u ++ "\x60") = false := by
    refine strStarts_false_of_ne "SHOW COLUMNS FROM \x60" t u '\x60' [] []
      hct hcu hne _ _ ?_ ?_
    · simp [data_append, data_btick]
    · simp [data_append, List.append_assoc, data_btick]
  simp only [queryForTable, hA]
  rfl

theorem queryFor_select (t u : String) (hct : '\x60' ∉ t.data) (hcu : '\x60' ∉ u.data)
    (hne : t ≠ u) :
    queryForTable t (Ev.query ("SELECT * FROM \x60" ++ u ++ "\x60")) = false := by
  have hA : strStarts ("SELECT * FROM \x60" ++ (t ++ "\x60"))
      ("SELECT * FROM \x60" ++ u ++ "\x60") = false := by
    refine strStarts_false_of_ne "SELECT * FROM \x60" t u '\x60' [] []
      hct hcu hne _ _ ?_ ?_
    · simp [data_append, data_btick]
    · simp [data_append, List.append_assoc, data_btick]
  simp only [queryForTable, hA]
  rfl

theorem queryFor_droptable (t u : String) (hct : '\x60' ∉ t.data) (hcu : '\x60' ∉ u.data)
    (hne : t ≠ u) :
    queryForTable t (Ev.query ("DROP TABLE IF EXISTS \x60" ++ u ++ "\x60")) = false := by
  have hA : strStarts ("DROP TABLE IF EXISTS \x60" ++ (t ++ "\x60"))
      ("DROP TABLE IF EXISTS \x60" ++ u ++ "\x60") = false := by
    refine strStarts_false_of_ne "DROP TABLE IF EXISTS \x60" t u '\x60' [] []
      hct hcu hne _ _ ?_ ?_
    · simp [data_append, data_btick]
    · simp [data_append, List.append_assoc, data_btick]
  simp only [queryForTable, hA]
  rfl

theorem queryFor_showindex (t u arg : String) (hct : '\x60' ∉ t.data) (hcu : '\x60' ∉ u.data)
    (hne : t ≠ u) :
    queryForTable t (Ev.queryParam
      ("SHOW INDEX FROM \x60" ++ u ++ "\x60 WHERE Column_name = ?") arg) = false := by
  have hA : strStarts ("SHOW INDEX FROM \x60" ++ (t ++ "\x60"))
      ("SHOW INDEX FROM \x60" ++ u ++ "\x60 WHERE Column_name = ?") = false := by
    refine strStarts_false_of_ne "SHOW INDEX FROM \x60" t u '\x60' []
      ((" WHERE Column_name = ?" : String).data) hct hcu hne _ _ ?_ ?_
    · simp [data_append, data_btick]
    · simp [data_append, List.append_assoc, data_btick_where]
  simp only [queryForTable, hA]

theorem generateCreate_shape2 (u : String) (schema : List (String × FieldSpec))
    (stmt : String) (hgen : generateCreateTableStatement u schema = .ok (some stmt)) :
    ∃ pb, stmt.data = ("CREATE TABLE IF NOT EXISTS " : String).data ++ (u.data ++ ' ' :: pb) := by
  unfold generateCreateTableStatement at hgen
  rcases hcols : columnsOfSchema schema with e | columns
  · rw [hcols] at hgen
    exact Except.noConfusion hgen
  rw [hcols] at hgen
  simp only at hgen
  by_cases hres : ifReservedKeywords u = true
  · rw [if_pos hres] at hgen
    exact Option.noConfusion (Except.ok.inj hgen)
  · rw [if_neg hres] at hgen
    have h2 := Option.some.inj (Except.ok.inj hgen)
    subst h2
    refine ⟨("(" : String).data ++ ((joinComma columns).data
      ++ (") ENGINE=InnoDB" : String).data), ?_⟩
    simp [data_append, List.append_assoc, data_sp_paren, data_empty]

theorem queryFor_create (t u : String) (schema : List (String × FieldSpec)) (stmt : String)
    (hgen : generateCreateTableStatement u schema = .ok (some stmt))
    (hst : ' ' ∉ t.data) (hsu : ' ' ∉ u.data) (hne : t ≠ u) :
    queryForTable t (Ev.query stmt) = false := by
  obtain ⟨pb, hdata⟩ := generateCreate_shape2 u schema stmt hgen
  have hC : strStarts ("CREATE TABLE IF NOT EXISTS " ++ (t ++ " (")) stmt = false := by
    refine strStarts_false_of_ne "CREATE TABLE IF NOT EXISTS " t u ' '
      (("(" : String).data) pb hst hsu hne _ _ ?_ hdata
    simp [data_append, data_sp_paren]
  have h2 : strStarts ("SHOW COLUMNS FROM \x60" ++ (t ++ "\x60")) stmt = false := by
    unfold strStarts
    rw [hdata]
    rfl
  have h3 : strStarts ("ALTER TABLE \x60" ++ (t ++ "\x60")) stmt = false := by
    unfold strStarts
    rw [hdata]
    rfl
  have h4 : strStarts ("SELECT * FROM \x60" ++ (t ++ "\x60")) stmt = false := by
    unfold strStarts
    rw [hdata]
    rfl
  have h5 : strStarts ("DROP TABLE IF EXISTS \x60" ++ (t ++ "\x60")) stmt = false := by
    unfold strStarts
    rw [hdata]
    rfl
  have h6 : strStarts ("INSERT INTO \x60" ++ (t ++ "\x60")) stmt = false := by
    unfold strStarts
    rw [hdata]
    rfl
  simp only [queryForTable, hC, h2, h3, h4, h5, h6]
  rfl

theorem modifyLoop_queryFor (env : Env) (t u : String) (columns : List LiveCol)
    (existingCols : List String) (hct : '\x60' ∉ t.data) (hcu : '\x60' ∉ u.data)
    (hne : t ≠ u) :
    ∀ (fs : List (String × FieldSpec)) (e : Ev),
      e ∈ (modifyLoop env u columns existingCols fs).1 →
      queryForTable t e = false := by
  intro fs
  induction fs with
  | nil => intro e he; exact absurd he (List.not_mem_nil e)
  | cons p rest ih =>
    intro e he
    rcases p with ⟨fieldName, field⟩
    simp only [modifyLoop] at he
    rcases hstep : (if existingCols.contains fieldName then
        match columns.find? (fun col => col.Field == fieldName) with
        | none => (([] : List Ev), Except.error "TypeError: currentCol is undefined")
        | some currentCol =>
          let evIdx := Ev.queryParam
            ("SHOW INDEX FROM \x60" ++ u ++ "\x60 WHERE Column_name = ?") fieldName
          if needModifyCalc field.toDesc currentCol (env.indexesOf u fieldName) then
            match getColumnDefinition fieldName field.toDesc with
            | .error e => ([evIdx], Except.error e)
            | .ok newColDef => ([evIdx, Ev.query (modifyStmt u newColDef)], Except.ok ())
          else ([evIdx], Except.ok ())
      else (([] : List Ev), Except.ok ())) with ⟨evs, r⟩
    have hevs : ∀ e' ∈ evs, queryForTable t e' = false := by
      intro e' he'
      by_cases hc : existingCols.contains fieldName = true
      · rw [if_pos hc] at hstep
        rcases hfind : columns.find? (fun col => col.Field == fieldName) with _ | currentCol
        · rw [hfind] at hstep
          cases hstep
          exact absurd he' (List.not_mem_nil e')
        · rw [hfind] at hstep
          simp only at hstep
          by_cases hnm : needModifyCalc field.toDesc currentCol
              (env.indexesOf u fieldName) = true
          · rw [if_pos hnm] at hstep
            rcases hgcd : getColumnDefinition fieldName field.toDesc with e'' | newColDef
            · rw [hgcd] at hstep
              cases hstep
              rcases List.mem_singleton.mp he' with rfl
              exact queryFor_showindex t u fieldName hct hcu hne
            · rw [hgcd] at hstep
              cases hstep
              rcases List.mem_cons.mp he' with rfl | he''
              · exact queryFor_showindex t u fieldName hct hcu hne
              · rcases List.mem_singleton.mp he'' with rfl
                exact queryFor_modify t u newColDef hct hcu hne
          · rw [if_neg hnm] at hstep
            cases hstep
            rcases List.mem_singleton.mp he' with rfl
            exact queryFor_showindex t u fieldName hct hcu hne
      · rw [if_neg hc] at hstep
        cases hstep
        exact absurd he' (List.not_mem_nil e')
    rw [hstep] at he
    rcases hr : r with e'' | u2
    · rw [hr] at he
      simp only at he
      exact hevs e he
    · rw [hr] at he
      simp only at he
      rcases List.mem_append.mp he with he' | he'
      · rcases List.mem_append.mp he' with he2 | he2
        · exact hevs e he2
        · rcases hw : oldNameTruthy field.toDesc with _ | o
          all_goals rw [hw] at he2
          · exact absurd he2 (List.not_mem_nil e)
          · rcases List.mem_singleton.mp he2 with rfl
            rfl
      · exact ih e he'

theorem renameLoop_queryFor (t u : String) (hct : '\x60' ∉ t.data) (hcu : '\x60' ∉ u.data)
    (hne : t ≠ u) :
    ∀ (fs : List (String × FieldSpec)) (cols : List String) (e : Ev),
      e ∈ (renameLoop u fs cols).1 →
      queryForTable t e = false := by
  intro fs
  induction fs with
  | nil => intro cols e he; exact absurd he (List.not_mem_nil e)
  | cons p rest ih =>
    intro cols e he
    rcases p with ⟨fieldName, field⟩
    simp only [renameLoop] at he
    rcases hw : oldNameTruthy field.toDesc with _ | old
    all_goals rw [hw] at he
    all_goals simp only at he
    · exact ih cols e he
    · by_cases hcond : (cols.contains old && !(cols.contains fieldName)) = true
      · rw [if_pos hcond] at he
        rcases hgcd : getColumnDefinition fieldName field.toDesc with e'' | colDef
        all_goals rw [hgcd] at he
        · exact absurd he (List.not_mem_nil e)
        · rcases hrest : renameLoop u rest (cols.map (fun c => if c == old then fieldName else c))
            with ⟨evRest, r⟩
          rw [hrest] at he
          simp only at he
          rcases List.mem_cons.mp he with rfl | he'
          · exact queryFor_change t u old fieldName colDef hct hcu hne
          · rcases List.mem_cons.mp he' with rfl | he''
            · rfl
            · have := ih (cols.map (fun c => if c == old then fieldName else c)) e
              rw [hrest] at this
              exact this he''
      · rw [if_neg hcond] at he
        exact ih cols e he

theorem addLoop_queryFor (t u : String) (hct : '\x60' ∉ t.data) (hcu : '\x60' ∉ u.data)
    (hne : t ≠ u) :
    ∀ (fs : List (String × FieldSpec)) (cols : List String) (e : Ev),
      e ∈ (addLoop u fs cols).1 →
      queryForTable t e = false := by
  intro fs
  induction fs with
  | nil => intro cols e he; exact absurd he (List.not_mem_nil e)
  | cons p rest ih =>
    intro cols e he
    rcases p with ⟨fieldName, field⟩
    simp only [addLoop] at he
    by_cases hcond : (!(cols.contains fieldName)) = true
    · rw [if_pos hcond] at he
      rcases hgcd : getColumnDefinition fieldName field.toDesc with e'' | colDef
      all_goals rw [hgcd] at he
      · exact absurd he (List.not_mem_nil e)
      · rcases hrest : addLoop u rest (cols ++ [fieldName]) with ⟨evRest, r⟩
        rw [hrest] at he
        simp only at he
        rcases List.mem_cons.mp he with rfl | he'
        · exact queryFor_add t u fieldName colDef hct hcu hne
        · rcases List.mem_cons.mp he' with rfl | he''
          · rfl
          · have := ih (cols ++ [fieldName]) e
            rw [hrest] at this
            exact this he''
    · rw [if_neg hcond] at he
      exact ih cols e he

theorem dropLoop_queryFor (t u : String) (schemaKeys : List String)
    (hct : '\x60' ∉ t.data) (hcu : '\x60' ∉ u.data) (hne : t ≠ u) :
    ∀ (cols : List String) (e : Ev),
      e ∈ dropLoop u schemaKeys cols →
      queryForTable t e = false := by
  intro cols
  induction cols with
  | nil => intro e he; exact absurd he (List.not_mem_nil e)
  | cons col rest ih =>
    intro e he
    simp only [dropLoop] at he
    rcases List.mem_append.mp he with he' | he'
    · by_cases hcond : (!(schemaKeys.contains col)) = true
      · rw [if_pos hcond] at he'
        rcases List.mem_cons.mp he' with rfl | he''
        · exact queryFor_dropcol t u col hct hcu hne
        · rcases List.mem_singleton.mp he'' with rfl
          rfl
      · rw [if_neg hcond] at he'
        exact absurd he' (List.not_mem_nil e)
    · exact ih e he'

theorem restorePhase_queryFor (env : Env) (t u : String)
    (hfc : ∀ f, queryForTable t (Ev.query (env.fileContent f)) = false) :
    ∀ e ∈ restorePhase env u, queryForTable t e = false := by
  intro e he
  simp only [restorePhase] at he
  rcases hsel : selectBackup env.backupFiles u with _ | latestBackup
  all_goals rw [hsel] at he
  · exact absurd he (List.not_mem_nil e)
  · simp only at he
    rcases List.mem_append.mp he with he' | he'
    · rcases List.mem_append.mp he' with he2 | he2
      · rcases List.mem_append.mp he2 with he3 | he3
        · rcases List.mem_singleton.mp he3 with rfl
          rfl
        · by_cases hans : (jsLower (jsTrim (env.restoreAnswer u)) == "y") = true
          · rw [if_pos hans] at he3
            rcases List.mem_cons.mp he3 with rfl | he4
            · exact hfc latestBackup
            · by_cases hrf : env.replayFails latestBackup = true
              · rw [if_pos hrf] at he4
                rcases List.mem_singleton.mp he4 with rfl
                rfl
              · rw [if_neg hrf] at he4
                rcases List.mem_singleton.mp he4 with rfl
                rfl
          · rw [if_neg hans] at he3
            exact absurd he3 (List.not_mem_nil e)
      · rcases List.mem_singleton.mp he2 with rfl
        rfl
    · by_cases hans : (jsLower (jsTrim (env.deleteAnswer u)) == "y") = true
      · rw [if_pos hans] at he'
        rcases List.mem_cons.mp he' with rfl | he2
        · rfl
        · rcases List.mem_singleton.mp he2 with rfl
          rfl
      · rw [if_neg hans] at he'
        rcases List.mem_cons.mp he' with rfl | he2
        · rfl
        · rcases List.mem_singleton.mp he2 with rfl
          rfl

theorem syncTable_queryFor_other (env : Env) (d : Bool) (m : Mdl) (t : String)
    (hne : t ≠ m.name)
    (hct : '\x60' ∉ t.data) (hst : ' ' ∉ t.data)
    (hcu : '\x60' ∉ m.name.data) (hsu : ' ' ∉ m.name.data)
    (hfc : ∀ f, queryForTable t (Ev.query (env.fileContent f)) = false) :
    ∀ e ∈ (syncTable env d m).1, queryForTable t e = false := by
  intro e he
  unfold syncTable at he
  rcases hgen : generateCreateTableStatement m.name m.schemaDict with er | os
  all_goals rw [hgen] at he
  · simp only at he
    rcases List.mem_singleton.mp he with rfl
    rfl
  rcases os with _ | stmt
  · simp only at he
    rcases List.mem_cons.mp he with rfl | he2
    · rfl
    · rcases List.mem_singleton.mp he2 with rfl
      rfl
  · simp only at he
    rcases hmod : modifyLoop env m.name (env.columnsOf m.name)
        ((env.columnsOf m.name).map (fun col => col.Field)) m.schemaDict with ⟨evMod, rMod⟩
    rw [hmod] at he
    have hpre : ∀ e' ∈ ([Ev.query stmt,
        Ev.log ("La table " ++ m.name ++ " a été créée ou existe déjà")] ++
        restorePhase env m.name ++
        [Ev.query ("SHOW COLUMNS FROM \x60" ++ m.name ++ "\x60")] ++ evMod),
        queryForTable t e' = false := by
      intro e' he'
      rcases List.mem_append.mp he' with h3 | hM
      · rcases List.mem_append.mp h3 with h2 | hS
        · rcases List.mem_append.mp h2 with hC | hR
          · rcases List.mem_cons.mp hC with rfl | hc2
            · exact queryFor_create t m.name m.schemaDict stmt hgen hst hsu hne
            · rcases List.mem_singleton.mp hc2 with rfl
              rfl
          · exact restorePhase_queryFor env t m.name hfc e' hR
        · rcases List.mem_singleton.mp hS with rfl
          exact queryFor_showcols t m.name hct hcu hne
      · have hq := modifyLoop_queryFor env t m.name (env.columnsOf m.name)
          ((env.columnsOf m.name).map (fun col => col.Field)) hct hcu hne m.schemaDict e'
        rw [hmod] at hq
        exact hq hM
    rcases rMod with eM | u0
    · simp only at he
      exact hpre e he
    rcases u0
    simp only at he
    rcases hren : renameLoop m.name m.schemaDict
        ((env.columnsOf m.name).map (fun col => col.Field)) with ⟨evRen, rRen⟩
    rw [hren] at he
    have hrenq : ∀ e' ∈ evRen, queryForTable t e' = false := by
      intro e' he'
      have hq := renameLoop_queryFor t m.name hct hcu hne m.schemaDict
        ((env.columnsOf m.name).map (fun col => col.Field)) e'
      rw [hren] at hq
      exact hq he'
    rcases rRen with eR | cols1
    · simp only at he
      rcases List.mem_append.mp he with h4 | hRen
      · exact hpre e h4
      · exact hrenq e hRen
    simp only at he
    rcases hadd : addLoop m.name m.schemaDict cols1 with ⟨evAdd, rAdd⟩
    rw [hadd] at he
    have haddq : ∀ e' ∈ evAdd, queryForTable t e' = false := by
      intro e' he'
      have hq := addLoop_queryFor t m.name hct hcu hne m.schemaDict cols1 e'
      rw [hadd] at hq
      exact hq he'
    rcases rAdd with eA | cols2
    · simp only at he
      rcases List.mem_append.mp he with h5 | hAdd
      · rcases List.mem_append.mp h5 with h4 | hRen
        · exact hpre e h4
        · exact hrenq e hRen
      · exact haddq e hAdd
    · simp only at he
      rcases List.mem_append.mp he with h6 | hDrop
      · rcases List.mem_append.mp h6 with h5 | hAdd
        · rcases List.mem_append.mp h5 with h4 | hRen
          · exact hpre e h4
          · exact hrenq e hRen
        · exact haddq e hAdd
      · by_cases hdS : d = true
        · rw [if_pos hdS] at hDrop
          exact dropLoop_queryFor t m.name (m.schemaDict.map (fun p => p.1))
            hct hcu hne cols2 e hDrop
        · rw [if_neg hdS] at hDrop
          exact absurd hDrop (List.not_mem_nil e)

theorem generateCreate_reserved (name : String) (schema : List (String × FieldSpec))
    (hres : ifReservedKeywords name = true) :
    ∀ stmt, generateCreateTableStatement name schema ≠ .ok (some stmt) := by
  intro stmt h
  unfold generateCreateTableStatement at h
  rcases hcols : columnsOfSchema schema with e | columns
  all_goals rw [hcols] at h
  · exact Except.noConfusion h
  · simp only at h
    rw [if_pos hres] at h
    exact Option.noConfusion (Except.ok.inj h)

theorem syncTable_reserved (env : Env) (d : Bool) (m : Mdl)
    (hres : ifReservedKeywords m.name = true) :
    (∀ e ∈ (syncTable env d m).1, ∃ msg, e = Ev.err msg) ∧
    (∃ er, (syncTable env d m).2 = Except.error er) := by
  unfold syncTable
  rcases hgen : generateCreateTableStatement m.name m.schemaDict with er | os
  · refine ⟨?_, ⟨er, rfl⟩⟩
    intro e he
    rcases List.mem_singleton.mp he with rfl
    exact ⟨_, rfl⟩
  rcases os with _ | stmt
  · refine ⟨?_, ⟨_, rfl⟩⟩
    intro e he
    rcases List.mem_cons.mp he with rfl | he2
    · exact ⟨_, rfl⟩
    · rcases List.mem_singleton.mp he2 with rfl
      exact ⟨_, rfl⟩
  · exact absurd hgen (generateCreate_reserved m.name m.schemaDict hres stmt)

theorem modelMapOf_name (pending : List Mdl) (v : String) (mm : Mdl)
    (h : modelMapOf pending v = some mm) : mm ∈ pending ∧ mm.name = v := by
  unfold modelMapOf at h
  constructor
  · exact List.mem_reverse.mp (List.mem_of_find?_eq_some h)
  · have hp := List.find?_some h
    exact beq_iff_eq.mp hp

theorem syncTables_reserved (env : Env) (d : Bool) (pending : List Mdl) (t : String)
    (hres : ifReservedKeywords t = true)
    (hct : '\x60' ∉ t.data) (hst : ' ' ∉ t.data)
    (hcleanp : ∀ mm ∈ pending, '\x60' ∉ mm.name.data ∧ ' ' ∉ mm.name.data)
    (hfc : ∀ f, queryForTable t (Ev.query (env.fileContent f)) = false) :
    ∀ ts : List String,
      (∀ e ∈ (syncTables env d (modelMapOf pending) ts).1, queryForTable t e = false) ∧
      (t ∈ ts → ∃ er, (syncTables env d (modelMapOf pending) ts).2 = Except.error er) := by
  intro ts
  induction ts with
  | nil =>
    constructor
    · intro e he
      exact absurd he (List.not_mem_nil e)
    · intro ht
      exact absurd ht (List.not_mem_nil t)
  | cons v rest ih =>
    simp only [syncTables]
    rcases hmap : modelMapOf pending v with _ | mm
    · simp only
      constructor
      · intro e he
        exact absurd he (List.not_mem_nil e)
      · intro _
        exact ⟨_, rfl⟩
    · simp only
      obtain ⟨hmmmem, hmname⟩ := modelMapOf_name pending v mm hmap
      rcases hsync : syncTable env d mm with ⟨evs, r⟩
      by_cases hvt : v = t
      · have hres2 : ifReservedKeywords mm.name = true := by
          rw [hmname, hvt]
          exact hres
        have hrsv := syncTable_reserved env d mm hres2
        obtain ⟨er, h2⟩ := hrsv.2
        rw [hsync] at h2
        simp only at h2
        subst h2
        simp only
        constructor
        · intro e he
          obtain ⟨msg, hmsg⟩ := hrsv.1 e (by rw [hsync]; exact he)
          rw [hmsg]
          rfl
        · intro _
          exact ⟨er, rfl⟩
      · have hne : t ≠ mm.name := by
          rw [hmname]
          exact fun he => hvt he.symm
        have hevq : ∀ e ∈ evs, queryForTable t e = false := by
          intro e he
          exact syncTable_queryFor_other env d mm t hne hct hst
            (hcleanp mm hmmmem).1 (hcleanp mm hmmmem).2 hfc e (by rw [hsync]; exact he)
        rcases r with er | u0
        · simp only
          constructor
          · intro e he
            exact hevq e he
          · intro _
            exact ⟨er, rfl⟩
        · rcases u0
          simp only
          rcases hrest : syncTables env d (modelMapOf pending) rest with ⟨evR, rR⟩
          simp only
          constructor
          · intro e he
            rcases List.mem_append.mp he with h1 | h2
            · exact hevq e h1
            · have hq := ih.1 e
              rw [hrest] at hq
              exact hq h2
          · intro ht
            rcases List.mem_cons.mp ht with rfl | ht2
            · exact absurd rfl hvt
            · obtain ⟨er, h2⟩ := ih.2 ht2
              rw [hrest] at h2
              simp only at h2
              subst h2
              exact ⟨er, rfl⟩

theorem orphanBackupAndDrop_queryFor (env : Env) (t u : String)
    (hct : '\x60' ∉ t.data) (hcu : '\x60' ∉ u.data) (hne : t ≠ u) :
    ∀ e ∈ orphanBackupAndDrop env u, queryForTable t e = false := by
  intro e he
  simp only [orphanBackupAndDrop] at he
  rcases List.mem_append.mp he with h1 | h2
  · by_cases hb : env.backupFails u = true
    · rw [if_pos hb] at h1
      rcases List.mem_cons.mp h1 with rfl | h3
      · exact queryFor_select t u hct hcu hne
      · rcases List.mem_singleton.mp h3 with rfl
        rfl
    · rw [if_neg hb] at h1
      rcases List.mem_append.mp h1 with h3 | h4
      · rcases List.mem_singleton.mp h3 with rfl
        exact queryFor_select t u hct hcu hne
      · by_cases hr : (env.rowsOf u).length > 0
        · rw [if_pos hr] at h4
          rcases List.mem_cons.mp h4 with rfl | h5
          · rfl
          · rcases List.mem_singleton.mp h5 with rfl
            rfl
        · rw [if_neg hr] at h4
          rcases List.mem_cons.mp h4 with rfl | h5
          · rfl
          · rcases List.mem_singleton.mp h5 with rfl
            rfl
  · rcases List.mem_cons.mp h2 with rfl | h3
    · rfl
    · rcases List.mem_cons.mp h3 with rfl | h4
      · exact queryFor_droptable t u hct hcu hne
      · rcases List.mem_singleton.mp h4 with rfl
        rfl

theorem orphanPhase_queryFor (env : Env) (t : String) (declared : List String)
    (htd : declared.contains t = true) (hct : '\x60' ∉ t.data) :
    ∀ (ts : List String), (∀ u ∈ ts, '\x60' ∉ u.data) →
      ∀ e ∈ orphanPhase env declared ts, queryForTable t e = false := by
  intro ts
  induction ts with
  | nil =>
    intro _ e he
    exact absurd he (List.not_mem_nil e)
  | cons u rest ih =>
    intro hclean e he
    simp only [orphanPhase] at he
    rcases List.mem_append.mp he with h1 | h2
    · by_cases hcu : (!(declared.contains u)) = true
      · rw [if_pos hcu] at h1
        have hne : t ≠ u := by
          intro heq
          rw [← heq, htd] at hcu
          exact Bool.noConfusion hcu
        exact orphanBackupAndDrop_queryFor env t u hct
          (hclean u (List.mem_cons_self _ _)) hne e h1
      · rw [if_neg hcu] at h1
        exact absurd h1 (List.not_mem_nil e)
    · exact ih (fun x hx => hclean x (List.mem_cons_of_mem _ hx)) e h2

/-- C9: when a declared table name is a reserved SQL keyword, the whole
synchronization run fails with an error, and no SQL statement addressed to
that table (create, introspection, alter, orphan select/drop or replayed
insert) is ever issued — under the side conditions that declared names are
distinct and free of backticks and spaces, the live table names are
backtick-free, and no replayed backup statement addresses the table. -/
theorem reserved_name_fails_without_statements (env : Env) (d : Bool)
    (pending : List Mdl) (t : String)
    (hres : ifReservedKeywords t = true)
    (hdecl : t ∈ pending.map (fun m => m.name))
    (hnodup : (pending.map (fun m => m.name)).Nodup)
    (hct : '\x60' ∉ t.data) (hst : ' ' ∉ t.data)
    (hcleanp : ∀ mm ∈ pending, '\x60' ∉ mm.name.data ∧ ' ' ∉ mm.name.data)
    (hcleandb : ∀ u ∈ env.dbTables, '\x60' ∉ u.data)
    (hfc : ∀ f, queryForTable t (Ev.query (env.fileContent f)) = false) :
    (∃ er, (syncAllTables env d pending).2 = Except.error er) ∧
    (∀ e ∈ (syncAllTables env d pending).1, queryForTable t e = false) := by
  simp only [syncAllTables]
  rcases hts : topoSort (pending.map (fun m => m.name)) (depsFor pending) with er | sorted
  · rw [hts]
    refine ⟨⟨er, rfl⟩, ?_⟩
    intro e he
    rcases List.mem_singleton.mp he with rfl
    rfl
  · rw [hts]
    simp only
    have hsorted := topoSort_sound (pending.map (fun m => m.name)) (depsFor pending)
      sorted hnodup hts
    have htin : t ∈ sorted := hsorted.1.mem_iff.mpr hdecl
    have hst2 := syncTables_reserved env d pending t hres hct hst hcleanp hfc sorted
    rcases hsync : syncTables env d (modelMapOf pending) sorted with ⟨evs, r⟩
    obtain ⟨er, h2⟩ := hst2.2 htin
    rw [hsync] at h2
    simp only at h2
    subst h2
    simp only
    refine ⟨⟨er, rfl⟩, ?_⟩
    intro e he
    rcases List.mem_append.mp he with h1 | hEvs
    · rcases List.mem_append.mp h1 with hT | hOrp
      · rcases List.mem_singleton.mp hT with rfl
        rfl
      · exact orphanPhase_queryFor env t (pending.map (fun m => m.name))
          ((contains_iff_mem _ t).mpr hdecl) hct env.dbTables
          hcleandb e hOrp
    · have hq := hst2.1 e
      rw [hsync] at hq
      exact hq hEvs

/-- Witness for the C9 theorem: declaring a table named `SELECT` on an empty
database makes the pass fail and issue no statement for `SELECT`. -/
theorem reserved_name_fails_without_statements_witness :
    (∃ er, (syncAllTables emptyEnv false c9Pending).2 = Except.error er) ∧
    (∀ e ∈ (syncAllTables emptyEnv false c9Pending).1,
      queryForTable "SELECT" e = false) :=
  reserved_name_fails_without_statements emptyEnv false c9Pending "SELECT"
    (by decide) (by decide) (by decide) (by decide) (by decide) (by decide)
    (by decide) (fun _ => rfl)

theorem count_map_replace (old fn col : String) (hc1 : col ≠ old) (hc2 : fn ≠ col) :
    ∀ cols : List String,
      (cols.map (fun c => if c == old then fn else c)).count col = cols.count col := by
  intro cols
  induction cols with
  | nil => rfl
  | cons c cs ih =>
    simp only [List.map_cons, List.count_cons, ih]
    by_cases hco : (c == old) = true
    · rw [if_pos hco]
      have h1 : (fn == col) = false := beq_eq_false_iff_ne.mpr hc2
      have h2 : (c == col) = false := by
        refine beq_eq_false_iff_ne.mpr ?_
        intro he
        exact hc1 (he ▸ beq_iff_eq.mp hco)
      rw [h1, h2]
    · rw [if_neg hco]

theorem renameLoop_count (tname col : String) :
    ∀ (fs : List (String × FieldSpec)) (cols : List String) (evs : List Ev)
      (r : List String),
      renameLoop tname fs cols = (evs, .ok r) →
      (∀ p ∈ fs, p.1 ≠ col) →
      (∀ p ∈ fs, oldNameTruthy p.2.toDesc ≠ some col) →
      r.count col = cols.count col := by
  intro fs
  induction fs with
  | nil =>
    intro cols evs r h _ _
    simp only [renameLoop] at h
    have hr := congrArg Prod.snd h
    simp only at hr
    rcases hr
    rfl
  | cons hd rest ih =>
    obtain ⟨fieldName, field⟩ := hd
    intro cols evs r h hdecl hnold
    simp only [renameLoop] at h
    rcases hont : oldNameTruthy field.toDesc with _ | old
    · rw [hont] at h
      simp only at h
      exact ih cols evs r h (fun p hp => hdecl p (List.mem_cons_of_mem _ hp))
        (fun p hp => hnold p (List.mem_cons_of_mem _ hp))
    · rw [hont] at h
      simp only at h
      by_cases hc : (cols.contains old && !(cols.contains fieldName)) = true
      · rw [if_pos hc] at h
        rcases hcd : getColumnDefinition fieldName field.toDesc with e | colDef
        · rw [hcd] at h
          have hr := congrArg Prod.snd h
          simp only at hr
          exact Except.noConfusion hr
        · rw [hcd] at h
          simp only at h
          rcases hrec : renameLoop tname rest
              (cols.map (fun c => if c == old then fieldName else c)) with ⟨evRest, rr⟩
          rw [hrec] at h
          have hr := congrArg Prod.snd h
          simp only at hr
          rcases hr
          have hco : col ≠ old := by
            intro he
            exact hnold (fieldName, field) (List.mem_cons_self _ _) (he ▸ hont)
          have hfc2 : fieldName ≠ col := hdecl (fieldName, field) (List.mem_cons_self _ _)
          have hrec2 := ih _ evRest r hrec
            (fun p hp => hdecl p (List.mem_cons_of_mem _ hp))
            (fun p hp => hnold p (List.mem_cons_of_mem _ hp))
          rw [hrec2, count_map_replace old fieldName col hco hfc2]
      · rw [if_neg hc] at h
        exact ih cols evs r h (fun p hp => hdecl p (List.mem_cons_of_mem _ hp))
          (fun p hp => hnold p (List.mem_cons_of_mem _ hp))

theorem addLoop_count (tname col : String) :
    ∀ (fs : List (String × FieldSpec)) (cols : List String) (evs : List Ev)
      (r : List String),
      addLoop tname fs cols = (evs, .ok r) →
      (∀ p ∈ fs, p.1 ≠ col) →
      r.count col = cols.count col := by
  intro fs
  induction fs with
  | nil =>
    intro cols evs r h _
    simp only [addLoop] at h
    have hr := congrArg Prod.snd h
    simp only at hr
    rcases hr
    rfl
  | cons hd rest ih =>
    obtain ⟨fieldName, field⟩ := hd
    intro cols evs r h hdecl
    simp only [addLoop] at h
    by_cases hc : (!(cols.contains fieldName)) = true
    · rw [if_pos hc] at h
      rcases hcd : getColumnDefinition fieldName field.toDesc with e | colDef
      · rw [hcd] at h
        have hr := congrArg Prod.snd h
        simp only at hr
        exact Except.noConfusion hr
      · rw [hcd] at h
        simp only at h
        rcases hrec : addLoop tname rest (cols ++ [fieldName]) with ⟨evRest, rr⟩
        rw [hrec] at h
        have hr := congrArg Prod.snd h
        simp only at hr
        rcases hr
        have hrec2 := ih _ evRest r hrec (fun p hp => hdecl p (List.mem_cons_of_mem _ hp))
        rw [hrec2]
        have hfc2 : (fieldName == col) = false :=
          beq_eq_false_iff_ne.mpr (hdecl (fieldName, field) (List.mem_cons_self _ _))
        simp [List.count_append, List.count_cons, hfc2]
    · rw [if_neg hc] at h
      exact ih cols evs r h (fun p hp => hdecl p (List.mem_cons_of_mem _ hp))

theorem dropLoop_count (tname col : String) (keys : List String)
    (hk : keys.contains col = false) :
    ∀ cols : List String,
      (dropLoop tname keys cols).count (Ev.query (dropStmt tname col))
        = cols.count col := by
  intro cols
  induction cols with
  | nil => rfl
  | cons c rest ih =>
    simp only [dropLoop, List.count_append, List.count_cons, ih]
    by_cases hcc : c = col
    · subst hcc
      have hcond : (!(keys.contains c)) = true := by
        rw [hk]
        rfl
      rw [if_pos hcond]
      simp [List.count_cons, Nat.add_comm]
    · have hne : (Ev.query (dropStmt tname c) == Ev.query (dropStmt tname col)) = false := by
        refine beq_eq_false_iff_ne.mpr ?_
        intro he
        injection he with he2
        exact hcc (dropStmt_inj tname c col he2)
      have hne2 : (c == col) = false := beq_eq_false_iff_ne.mpr hcc
      by_cases hcond : (!(keys.contains c)) = true
      · rw [if_pos hcond]
        simp [List.count_cons, hne, hne2]
      · rw [if_neg hcond]
        simp [hne2]

/-- C6: in a completed pass, a live column that is neither declared nor any
field's truthy `old_name` receives exactly one `DROP COLUMN` statement when
`dangerousSync` is true and none when it is false — assuming the live column
names are distinct and no replayed backup statement is one of the pass's
`ALTER TABLE` statements. -/
theorem undeclared_live_column_drop (env : Env) (d : Bool) (m : Mdl) (col : String)
    (hok : (syncTable env d m).2 = Except.ok ())
    (hmem : col ∈ (env.columnsOf m.name).map (fun c => c.Field))
    (hnodupc : ((env.columnsOf m.name).map (fun c => c.Field)).Nodup)
    (hnotdecl : ∀ p ∈ m.schemaDict, p.1 ≠ col)
    (hnotold : ∀ p ∈ m.schemaDict, oldNameTruthy p.2.toDesc ≠ some col)
    (hreplay : ∀ f, opClass m.name (Ev.query (env.fileContent f)) = none) :
    (syncTable env d m).1.count (Ev.query (dropStmt m.name col))
      = if d then 1 else 0 := by
  unfold syncTable at hok ⊢
  rcases hgen : generateCreateTableStatement m.name m.schemaDict with e | os
  · rw [hgen] at hok
    simp only at hok
    exact Except.noConfusion hok
  rcases os with _ | stmt
  · rw [hgen] at hok
    simp only at hok
    exact Except.noConfusion hok
  rw [hgen] at hok
  simp only at hok ⊢
  rcases hmod : modifyLoop env m.name (env.columnsOf m.name)
      ((env.columnsOf m.name).map (fun col => col.Field)) m.schemaDict with ⟨evMod, rMod⟩
  rw [hmod] at hok ⊢
  rcases rMod with eM | u
  · simp only at hok
    exact Except.noConfusion hok
  rcases u
  simp only at hok ⊢
  rcases hren : renameLoop m.name m.schemaDict
      ((env.columnsOf m.name).map (fun col => col.Field)) with ⟨evRen, rRen⟩
  rw [hren] at hok ⊢
  rcases rRen with eR | cols1
  · simp only at hok
    exact Except.noConfusion hok
  simp only at hok ⊢
  rcases hadd : addLoop m.name m.schemaDict cols1 with ⟨evAdd, rAdd⟩
  rw [hadd] at hok
  rcases rAdd with eA | cols2
  · simp only at hok
    exact Except.noConfusion hok
  simp only at hok ⊢
  have hn1 : Ev.query (dropStmt m.name col) ∉ [Ev.query stmt,
      Ev.log ("La table " ++ m.name ++ " a été créée ou existe déjà")] := by
    intro hC
    have hcls2 := opClass_dropStmt m.name col
    rcases List.mem_cons.mp hC with he | he
    · have hs : dropStmt m.name col = stmt := by injection he
      obtain ⟨r0, hr0⟩ := generateCreate_ok_shape m.name m.schemaDict stmt hgen
      have hnone : opClass m.name (Ev.query stmt) = none := by
        rw [hr0]
        exact opClass_none_of_not_alter m.name _ rfl
      rw [← hs] at hnone
      rw [hnone] at hcls2
      exact Option.noConfusion hcls2
    · exact Ev.noConfusion (List.mem_singleton.mp he)
  have hn2 : Ev.query (dropStmt m.name col) ∉ restorePhase env m.name := by
    intro hR
    have hcls2 := opClass_dropStmt m.name col
    have hnone := restorePhase_class env m.name hreplay _ hR
    rw [hnone] at hcls2
    exact Option.noConfusion hcls2
  have hn3 : Ev.query (dropStmt m.name col)
      ∉ [Ev.query ("SHOW COLUMNS FROM \x60" ++ m.name ++ "\x60")] := by
    intro hS
    have hcls2 := opClass_dropStmt m.name col
    have he := List.mem_singleton.mp hS
    rw [he] at hcls2
    have hnone := opClass_none_of_not_alter m.name
      ("SHOW COLUMNS FROM \x60" ++ m.name ++ "\x60") rfl
    rw [hnone] at hcls2
    exact Option.noConfusion hcls2
  have hn4 : Ev.query (dropStmt m.name col) ∉ evMod := by
    intro hM
    have hcls2 := opClass_dropStmt m.name col
    have hcl := modifyLoop_class env m.name (env.columnsOf m.name)
      ((env.columnsOf m.name).map (fun col => col.Field)) m.schemaDict _
      (by rw [hmod]; exact hM)
    rcases hcl with hcl | hcl
    · rw [hcls2] at hcl
      exact Option.noConfusion hcl
    · rw [hcls2] at hcl
      exact absurd (Option.some.inj hcl) (by decide)
  have hn5 : Ev.query (dropStmt m.name col) ∉ evRen := by
    intro hRen
    have hcls2 := opClass_dropStmt m.name col
    have hcl := renameLoop_class m.name m.schemaDict
      ((env.columnsOf m.name).map (fun col => col.Field)) _
      (by rw [hren]; exact hRen)
    rcases hcl with hcl | hcl
    · rw [hcls2] at hcl
      exact Option.noConfusion hcl
    · rw [hcls2] at hcl
      exact absurd (Option.some.inj hcl) (by decide)
  have hn6 : Ev.query (dropStmt m.name col) ∉ evAdd := by
    intro hAdd
    have hcls2 := opClass_dropStmt m.name col
    have hcl := addLoop_class m.name m.schemaDict cols1 _ (by rw [hadd]; exact hAdd)
    rcases hcl with hcl | hcl
    · rw [hcls2] at hcl
      exact Option.noConfusion hcl
    · rw [hcls2] at hcl
      exact absurd (Option.some.inj hcl) (by decide)
  have hkeys : (m.schemaDict.map (fun p => p.1)).contains col = false := by
    rcases hq : (m.schemaDict.map (fun p => p.1)).contains col
    · exact hq
    · exfalso
      rcases List.mem_map.mp ((contains_iff_mem _ _).mp hq) with ⟨p, hp, hpe⟩
      exact hnotdecl p hp hpe
  have hc2 : cols2.count col = 1 := by
    rw [addLoop_count m.name col m.schemaDict cols1 evAdd cols2 hadd hnotdecl,
      renameLoop_count m.name col m.schemaDict
        ((env.columnsOf m.name).map (fun col => col.Field)) evRen cols1 hren
        hnotdecl hnotold]
    exact List.count_eq_one_of_mem hnodupc hmem
  rw [List.count_append, List.count_append, List.count_append, List.count_append,
    List.count_append, List.count_append]
  rw [List.count_eq_zero.mpr hn1, List.count_eq_zero.mpr hn2, List.count_eq_zero.mpr hn3,
    List.count_eq_zero.mpr hn4, List.count_eq_zero.mpr hn5, List.count_eq_zero.mpr hn6]
  by_cases hdS : d = true
  · rw [if_pos hdS, if_pos hdS,
      dropLoop_count m.name col (m.schemaDict.map (fun p => p.1)) hkeys cols2, hc2]
  · rw [if_neg hdS, if_neg hdS]
    rfl

/-- Witness for the C6 theorem: the live column `legacy` of `t6` is dropped
exactly once under `dangerousSync` and not at all without it. -/
theorem undeclared_live_column_drop_witness :
    (syncTable c6Env true c6Mdl).1.count (Ev.query (dropStmt "t6" "legacy")) = 1 ∧
    (syncTable c6Env false c6Mdl).1.count (Ev.query (dropStmt "t6" "legacy")) = 0 :=
  ⟨undeclared_live_column_drop c6Env true c6Mdl "legacy" rfl (by decide) (by decide)
      (by decide) (by decide) (fun _ => rfl),
   undeclared_live_column_drop c6Env false c6Mdl "legacy" rfl (by decide) (by decide)
      (by decide) (by decide) (fun _ => rfl)⟩
